import Mathlib

/-!
Shallow embedding of the WorkSchedulerPython repository
(src/data_manager.py and src/work_scheduler.py) and proofs about it.

Python dictionaries are modelled as insertion-ordered association lists
(List (key × value)); Python ints as Int; Python sets of strings as
List String (only membership is used by the code under test).  A Python
function that can raise (KeyError / ValueError) or that participates in
the recursive solver is modelled with the result type PyRes, whose
constructor exn carries the shared mutable state as it stands at the
moment the exception escapes, and whose constructor timeout is the fuel
artifact of embedding unbounded recursion.
-/

set_option maxHeartbeats 1000000

/-- alFind? m k is Python m[k] as an Option: the value of the first pair
whose key is k, scanning left to right. -/
def alFind? {α β : Type} [DecidableEq α] : List (α × β) → α → Option β
  | [], _ => none
  | (k, v) :: rest, a => if k = a then some v else alFind? rest a

/-- alSet m k v is Python m[k] = v: replaces the value of the first pair
with key k in place, or appends (k, v) at the end when k is absent
(insertion order semantics of dict assignment). -/
def alSet {α β : Type} [DecidableEq α] : List (α × β) → α → β → List (α × β)
  | [], a, b => [(a, b)]
  | (k, v) :: rest, a, b => if k = a then (k, b) :: rest else (k, v) :: alSet rest a b

/-- alErase m k is Python del m[k] (for association lists built by alSet,
whose keys are unique, removing the first pair with key k). -/
def alErase {α β : Type} [DecidableEq α] : List (α × β) → α → List (α × β)
  | [], _ => []
  | (k, v) :: rest, a => if k = a then rest else (k, v) :: alErase rest a

/-- alContains m k is Python (k in m) for a dict. -/
def alContains {α β : Type} [DecidableEq α] (m : List (α × β)) (a : α) : Bool :=
  (alFind? m a).isSome

/-- The keys of a dict in insertion order (Python m.keys()). -/
def alKeys {α β : Type} (m : List (α × β)) : List α :=
  m.map Prod.fst

/-- removeFirst l x is Python l.remove(x) minus the ValueError: removes the
first occurrence of x, returns l unchanged when x is absent (call sites that
can raise check membership first). -/
def removeFirst {α : Type} [DecidableEq α] : List α → α → List α
  | [], _ => []
  | y :: rest, a => if y = a then rest else y :: removeFirst rest a

/-- n consecutive integers starting at a. -/
def intRangeAux (a : Int) : Nat → List Int
  | 0 => []
  | Nat.succ n => a :: intRangeAux (a + 1) n

/-- intRange a b is Python range(a, b) as a list of Ints (empty when b ≤ a). -/
def intRange (a b : Int) : List Int :=
  intRangeAux a (b - a).toNat

/-- Stable insertion of x into a sorted list: x is placed before the first
element whose key is not strictly smaller, matching the stability contract of
Python sorted. -/
def insSorted {α : Type} (key : α → Int) (x : α) : List α → List α
  | [] => [x]
  | y :: ys => if key y < key x then y :: insSorted key x ys else x :: y :: ys

/-- Stable sort by an integer key (the behaviour of Python sorted(l, key=...)). -/
def stableSortBy {α : Type} (key : α → Int) : List α → List α
  | [] => []
  | x :: xs => insSorted key x (stableSortBy key xs)

/-- Employee record of src/data_manager.py: name, availability window
(start, end), weekly min/max hours, role set and days-off set. -/
structure Employee where
  name : String
  availability : Int × Int
  min_hours : Int
  max_hours : Int
  roles : List String
  days_off : List String
deriving DecidableEq, Repr

/-- EmployerRequirements record of src/data_manager.py: store open/close
hours, min/max shift length, and the critical minimum per role (an
insertion-ordered dict). -/
structure EmployerRequirements where
  work_hours : Int × Int
  shift_lengths : Int × Int
  critical_minimums : List (String × Int)
deriving DecidableEq, Repr

/-- A role cell: the ordered list of employees assigned to one role at one
hour (Python list). -/
abbrev RoleCell := List Employee

/-- The role dict of one hour: {role: [Employee]}. -/
abbrev RoleMap := List (String × RoleCell)

/-- The hour dict of one day: {hour: {role: [Employee]}}. -/
abbrev HourMap := List (Int × RoleMap)

/-- ShiftSchedule of src/work_scheduler.py: {day: {hour: {role: [Employee]}}}. -/
abbrev ShiftSchedule := List (String × HourMap)

instance : DecidableEq RoleMap := inferInstance

instance : DecidableEq HourMap := inferInstance

instance : DecidableEq ShiftSchedule := inferInstance

/-- The shared mutable state of the scheduler: the schedule and the two
rolling aggregates weekly_assigned_hours and daily_shifts. -/
structure SchedState where
  sched : ShiftSchedule
  weekly : List (String × Int)
  daily : List (String × List String)
deriving DecidableEq, Repr

/-- Result of running a stateful piece of the Python program: ok carries the
returned value and the state on normal return, exn carries the shared state as
it stands when a Python exception (KeyError / ValueError) escapes, and timeout
is the fuel artifact of the embedding (never produced by non-recursive code). -/
inductive PyRes (α : Type) where
  | timeout : PyRes α
  | exn : SchedState → PyRes α
  | ok : α → SchedState → PyRes α
deriving DecidableEq, Repr

/-- daily_shifts.get(name, []) of the state. -/
def dailyGetD (st : SchedState) (name : String) : List String :=
  (alFind? st.daily name).getD []

/-- weekly_assigned_hours.get(name, 0); the real dict always has the key at
the program call sites, the default only totalises the view. -/
def weeklyGetD (st : SchedState) (name : String) : Int :=
  (alFind? st.weekly name).getD 0

/-- The employee list recorded at schedule[day][hour][role], [] when any of
the three keys is absent. -/
def cellGet (sched : ShiftSchedule) (day : String) (h : Int) (role : String) : RoleCell :=
  (alFind? ((alFind? ((alFind? sched day).getD []) h).getD []) role).getD []

/-- is_valid_assignment of src/work_scheduler.py lines 8-50, refined to also
report which reject branch fired (the branches are observable in the source
through their distinct log messages): none is the KeyError of
weekly_assigned_hours[employee.name] on a missing key, some (some i) is the
i-th reject (0 = max weekly hours, 1 = already assigned that day, 2 = day
off, 3 = window bounds), some none is an accepting run. -/
def is_valid_reason (employee : Employee) (day : String)
    (start_hour shift_length : Int) (weekly_assigned_hours : List (String × Int))
    (daily_shifts : List (String × List String)) (reqs : EmployerRequirements) :
    Option (Option Nat) :=
  match alFind? weekly_assigned_hours employee.name with
  | none => none
  | some w =>
    if employee.max_hours < w + shift_length then some (some 0)
    else if day ∈ (alFind? daily_shifts employee.name).getD [] then some (some 1)
    else if day ∈ employee.days_off then some (some 2)
    else if start_hour < employee.availability.1 ∨
        reqs.work_hours.2 < start_hour + shift_length ∨
        employee.availability.2 < start_hour + shift_length then some (some 3)
    else some none

/-- is_valid_assignment of src/work_scheduler.py lines 8-50: True iff no
reject branch fires; none models the KeyError on a name missing from
weekly_assigned_hours.  The role argument is unused by the checks in the
source (it is only logged), and the function never receives the schedule. -/
def is_valid_assignment (employee : Employee) (role day : String)
    (start_hour shift_length : Int) (weekly_assigned_hours : List (String × Int))
    (daily_shifts : List (String × List String)) (reqs : EmployerRequirements) :
    Option Bool :=
  (is_valid_reason employee day start_hour shift_length weekly_assigned_hours
    daily_shifts reqs).map (fun r => r.isNone)

/-- meets_critical_minimums_for_day of src/work_scheduler.py lines 53-73:
every hour recorded under the day must have, for each role of
critical_minimums, at least the required count; none models the KeyError of
schedule[day] on a missing day. -/
def meets_critical_minimums_for_day (schedule : ShiftSchedule)
    (reqs : EmployerRequirements) (day : String) : Option Bool :=
  match alFind? schedule day with
  | none => none
  | some dm =>
    some (dm.all (fun p =>
      reqs.critical_minimums.all (fun rm =>
        decide (rm.2 ≤ (((alFind? p.2 rm.1).getD []).length : Int)))))

/-- One iteration of the hour loop of update_schedule (lines 102-107): create
the hour and role containers when absent and append the employee; raises
(KeyError) when the day itself is not a key of the schedule. -/
def updCell (employee : Employee) (role day : String) (h : Int)
    (st : SchedState) : PyRes Unit :=
  match alFind? st.sched day with
  | none => .exn st
  | some dm =>
    let hm := (alFind? dm h).getD []
    let cell := (alFind? hm role).getD []
    .ok () { st with sched := alSet st.sched day (alSet dm h (alSet hm role (cell ++ [employee]))) }

/-- The hour loop of update_schedule over the listed hours. -/
def updLoop (employee : Employee) (role day : String) :
    List Int → SchedState → PyRes Unit
  | [], st => .ok () st
  | h :: rest, st =>
    match updCell employee role day h st with
    | .ok _ st1 => updLoop employee role day rest st1
    | .exn s => .exn s
    | .timeout => .timeout

/-- update_schedule of src/work_scheduler.py lines 76-118: append the
employee to every touched hour/role cell, add shift_length to
weekly_assigned_hours[employee.name] (KeyError when the name is absent),
append the day to daily_shifts.setdefault(employee.name, []), and finally
run the logging loop of line 116, whose schedule[day][start_hour] access
raises (KeyError) after all the edits when the day or the start hour is not
a key -- reachable only for shift_length <= 0, since the hour loop creates
both keys otherwise. -/
def update_schedule (employee : Employee) (role day : String)
    (start_hour shift_length : Int) (st : SchedState) : PyRes Unit :=
  match updLoop employee role day (intRange start_hour (start_hour + shift_length)) st with
  | .ok _ st1 =>
    match alFind? st1.weekly employee.name with
    | none => .exn st1
    | some w =>
      let st2 := { st1 with weekly := alSet st1.weekly employee.name (w + shift_length) }
      let cur := (alFind? st2.daily employee.name).getD []
      let st3 := { st2 with daily := alSet st2.daily employee.name (cur ++ [day]) }
      match alFind? st3.sched day with
      | none => .exn st3
      | some dm => if alContains dm start_hour then .ok () st3 else .exn st3
  | .exn s => .exn s
  | .timeout => .timeout

/-- One iteration of the hour loop of remove_assignment (lines 146-150):
when the role cell exists and contains the employee, remove the first
occurrence and delete the role key if the cell becomes empty; evaluating
schedule[day][hour] raises (KeyError) when day or hour is absent. -/
def remCell (employee : Employee) (role day : String) (h : Int)
    (st : SchedState) : PyRes Unit :=
  match alFind? st.sched day with
  | none => .exn st
  | some dm =>
    match alFind? dm h with
    | none => .exn st
    | some hm =>
      match alFind? hm role with
      | none => .ok () st
      | some cell =>
        if employee ∈ cell then
          let cell1 := removeFirst cell employee
          let hm1 := if cell1.isEmpty then alErase hm role else alSet hm role cell1
          .ok () { st with sched := alSet st.sched day (alSet dm h hm1) }
        else .ok () st

/-- The hour loop of remove_assignment over the listed hours. -/
def remLoop (employee : Employee) (role day : String) :
    List Int → SchedState → PyRes Unit
  | [], st => .ok () st
  | h :: rest, st =>
    match remCell employee role day h st with
    | .ok _ st1 => remLoop employee role day rest st1
    | .exn s => .exn s
    | .timeout => .timeout

/-- remove_assignment of src/work_scheduler.py lines 121-154: undo the cell
edits of a matching update_schedule call, subtract shift_length from
weekly_assigned_hours[employee.name] (KeyError when absent), and remove the
day from daily_shifts[employee.name] (KeyError when the name is absent,
ValueError of list.remove when the day is not listed). -/
def remove_assignment (employee : Employee) (role day : String)
    (start_hour shift_length : Int) (st : SchedState) : PyRes Unit :=
  match remLoop employee role day (intRange start_hour (start_hour + shift_length)) st with
  | .ok _ st1 =>
    match alFind? st1.weekly employee.name with
    | none => .exn st1
    | some w =>
      let st2 := { st1 with weekly := alSet st1.weekly employee.name (w - shift_length) }
      match alFind? st2.daily employee.name with
      | none => .exn st2
      | some ds =>
        if day ∈ ds then
          .ok () { st2 with daily := alSet st2.daily employee.name (removeFirst ds day) }
        else .exn st2
  | .exn s => .exn s
  | .timeout => .timeout

/-- The available_employees dict built at line 190 of solve_schedule: for
each role of critical_minimums, the employees holding the role and not on a
day off for the processed day. -/
def buildAvailable (employees : List Employee) (reqs : EmployerRequirements)
    (day : String) : List (String × List Employee) :=
  reqs.critical_minimums.map (fun rm =>
    (rm.1, employees.filter (fun e => decide (rm.1 ∈ e.roles) && decide (day ∉ e.days_off))))

/-- The shift-length loop of solve_schedule (lines 205-215): try each length,
skip those past closing time, and on a valid candidate apply it, recurse at
the same day index (the recur argument), and revert on failure. -/
def lenLoop (recur : SchedState → PyRes Bool) (employee : Employee)
    (role day : String) (reqs : EmployerRequirements) (start_hour : Int) :
    List Int → SchedState → PyRes (Option Bool)
  | [], st => .ok none st
  | len :: rest, st =>
    if reqs.work_hours.2 < start_hour + len then
      lenLoop recur employee role day reqs start_hour rest st
    else
      match is_valid_assignment employee role day start_hour len st.weekly st.daily reqs with
      | none => .exn st
      | some false => lenLoop recur employee role day reqs start_hour rest st
      | some true =>
        match update_schedule employee role day start_hour len st with
        | .timeout => .timeout
        | .exn s => .exn s
        | .ok _ st1 =>
          match recur st1 with
          | .timeout => .timeout
          | .exn s => .exn s
          | .ok true st2 => .ok (some true) st2
          | .ok false st2 =>
            match remove_assignment employee role day start_hour len st2 with
            | .timeout => .timeout
            | .exn s => .exn s
            | .ok _ st3 => lenLoop recur employee role day reqs start_hour rest st3

/-- The employee loop of solve_schedule (line 204) over the available list
of the role being staffed. -/
def empLoop (recur : SchedState → PyRes Bool) (role day : String)
    (reqs : EmployerRequirements) (shift_lengths : Int × Int) (start_hour : Int) :
    List Employee → SchedState → PyRes (Option Bool)
  | [], st => .ok none st
  | e :: rest, st =>
    match lenLoop recur e role day reqs start_hour
        (intRange shift_lengths.1 (shift_lengths.2 + 1)) st with
    | .ok none st1 => empLoop recur role day reqs shift_lengths start_hour rest st1
    | .ok (some b) st1 => .ok (some b) st1
    | .exn s => .exn s
    | .timeout => .timeout

/-- The slot loop of solve_schedule (lines 202-219, for _ in range(needed)):
the local flag assigned is never set in the source, so the first iteration
either returns a Boolean out of the whole call or falls through to the
return False at line 219; with zero needed slots it is a no-op. -/
def slotLoop (runEmp : SchedState → PyRes (Option Bool)) :
    Nat → SchedState → PyRes (Option Bool)
  | 0, st => .ok none st
  | Nat.succ _, st =>
    match runEmp st with
    | .ok (some b) st1 => .ok (some b) st1
    | .ok none st1 => .ok (some false) st1
    | .exn s => .exn s
    | .timeout => .timeout

/-- The role loop of solve_schedule (lines 195-219) at one hour: compute the
already assigned count, skip fully staffed roles, otherwise staff the open
slots. -/
def roleLoop (recur : SchedState → PyRes Bool) (day : String)
    (reqs : EmployerRequirements) (shift_lengths : Int × Int)
    (available : List (String × List Employee)) (start_hour : Int) :
    List (String × Int) → SchedState → PyRes (Option Bool)
  | [], st => .ok none st
  | (role, required) :: rest, st =>
    match alFind? st.sched day with
    | none => .exn st
    | some dm =>
      let assigned : Int :=
        (((alFind? ((alFind? dm start_hour).getD []) role).getD []).length : Int)
      if required ≤ assigned then
        roleLoop recur day reqs shift_lengths available start_hour rest st
      else
        match slotLoop
            (fun s => empLoop recur role day reqs shift_lengths start_hour
              ((alFind? available role).getD []) s)
            (required - assigned).toNat st with
        | .ok none st1 => roleLoop recur day reqs shift_lengths available start_hour rest st1
        | .ok (some b) st1 => .ok (some b) st1
        | .exn s => .exn s
        | .timeout => .timeout

/-- The hour loop of solve_schedule (line 192) over sorted(hours). -/
def hourLoop (recur : SchedState → PyRes Bool) (day : String)
    (reqs : EmployerRequirements) (shift_lengths : Int × Int)
    (available : List (String × List Employee)) :
    List Int → SchedState → PyRes (Option Bool)
  | [], st => .ok none st
  | h :: rest, st =>
    match roleLoop recur day reqs shift_lengths available h reqs.critical_minimums st with
    | .ok none st1 => hourLoop recur day reqs shift_lengths available rest st1
    | .ok (some b) st1 => .ok (some b) st1
    | .exn s => .exn s
    | .timeout => .timeout

/-- The final validation at lines 183-185 of solve_schedule:
all(meets_critical_minimums_for_day(schedule, reqs, day) for day in days),
with the KeyError of a missing day propagating as an exception. -/
def checkAllDays (reqs : EmployerRequirements) :
    List String → SchedState → PyRes Bool
  | [], st => .ok true st
  | d :: rest, st =>
    match meets_critical_minimums_for_day st.sched reqs d with
    | none => .exn st
    | some false => .ok false st
    | some true => checkAllDays reqs rest st

/-- solve_schedule of src/work_scheduler.py lines 157-225, with a fuel
argument bounding the recursion depth of the embedding (timeout when it runs
out; every Python recursive call consumes one unit). -/
def solve_schedule (days : List String) (hours : List Int)
    (shift_lengths : Int × Int) (employees : List Employee)
    (reqs : EmployerRequirements) : Nat → Nat → SchedState → PyRes Bool
  | 0, _, _ => .timeout
  | Nat.succ fuel, index, st =>
    if index = days.length then
      checkAllDays reqs days st
    else
      match days[index]? with
      | none => .exn st
      | some day =>
        match hourLoop
            (fun s => solve_schedule days hours shift_lengths employees reqs fuel index s)
            day reqs shift_lengths (buildAvailable employees reqs day)
            (stableSortBy (fun x => x) hours) st with
        | .ok (some b) st1 => .ok b st1
        | .ok none st1 =>
          match meets_critical_minimums_for_day st1.sched reqs day with
          | none => .exn st1
          | some false => .ok false st1
          | some true =>
            solve_schedule days hours shift_lengths employees reqs fuel (index + 1) st1
        | .exn s => .exn s
        | .timeout => .timeout

/-- The under_min_hours list of assign_extra_shifts (line 250), none when a
name is missing from weekly_assigned_hours (KeyError inside the list
comprehension). -/
def underMin (weekly : List (String × Int)) :
    List Employee → Option (List Employee)
  | [] => some []
  | e :: rest =>
    match alFind? weekly e.name with
    | none => none
    | some w =>
      match underMin weekly rest with
      | none => none
      | some l => some (if w < e.min_hours then e :: l else l)

/-- The per-day staffed-slot count of assign_extra_shifts line 253:
sum(len(roles) for roles in schedule[day].values()), i.e. the number of role
keys summed over the hours of the day. -/
def pyDayCount (dm : HourMap) : Nat :=
  (dm.map (fun p => p.2.length)).sum

/-- sorted_days of assign_extra_shifts line 254: the schedule keys, stably
sorted by ascending pyDayCount. -/
def sortedDaysOf (sched : ShiftSchedule) : List String :=
  stableSortBy (fun d => (pyDayCount ((alFind? sched d).getD []) : Int)) (alKeys sched)

/-- The hour loop of assign_extra_shifts (lines 267-283) on one candidate
day, threading the remaining required_hours; the dead local day_counts
update at line 283 (never read again) is not represented. -/
def hourLoopB (employee : Employee) (reqs : EmployerRequirements) (day : String) :
    List Int → Int → SchedState → PyRes Int
  | [], required, st => .ok required st
  | h :: rest, required, st =>
    if required ≤ 0 then .ok required st
    else
      match is_valid_assignment employee "Floater" day h reqs.shift_lengths.1
          st.weekly st.daily reqs with
      | none => .exn st
      | some false => hourLoopB employee reqs day rest required st
      | some true =>
        match update_schedule employee "Floater" day h reqs.shift_lengths.1 st with
        | .ok _ st1 => hourLoopB employee reqs day rest (required - reqs.shift_lengths.1) st1
        | .exn s => .exn s
        | .timeout => .timeout

/-- The day loop of assign_extra_shifts (lines 260-283) over sorted_days,
skipping days off and already-worked days. -/
def dayLoopB (employee : Employee) (reqs : EmployerRequirements) :
    List String → Int → SchedState → PyRes Unit
  | [], _, st => .ok () st
  | d :: rest, required, st =>
    if required ≤ 0 then .ok () st
    else if d ∈ employee.days_off ∨ d ∈ (alFind? st.daily employee.name).getD [] then
      dayLoopB employee reqs rest required st
    else
      match hourLoopB employee reqs d (intRange reqs.work_hours.1 reqs.work_hours.2) required st with
      | .ok required1 st1 => dayLoopB employee reqs rest required1 st1
      | .exn s => .exn s
      | .timeout => .timeout

/-- The employee loop of assign_extra_shifts (lines 256-283) over the
under-minimum employees, recomputing required_hours from the current
aggregate at line 257. -/
def empLoopB (reqs : EmployerRequirements) (sorted_days : List String) :
    List Employee → SchedState → PyRes Unit
  | [], st => .ok () st
  | e :: rest, st =>
    match alFind? st.weekly e.name with
    | none => .exn st
    | some w =>
      match dayLoopB e reqs sorted_days (e.min_hours - w) st with
      | .ok _ st1 => empLoopB reqs sorted_days rest st1
      | .exn s => .exn s
      | .timeout => .timeout

/-- assign_extra_shifts of src/work_scheduler.py lines 228-285: top up every
employee below min_hours with Floater shifts of minimal length, visiting days
in sorted_days order (computed once from the schedule as the pass starts). -/
def assign_extra_shifts (employees : List Employee) (reqs : EmployerRequirements)
    (st : SchedState) : PyRes Unit :=
  match underMin st.weekly employees with
  | none => .exn st
  | some um => empLoopB reqs (sortedDaysOf st.sched) um st

/-- The fixed Monday-to-Sunday day list of schedule_shifts line 302. -/
def sevenDays : List String :=
  ["Monday", "Tuesday", "Wednesday", "Thursday", "Friday", "Saturday", "Sunday"]

/-- The empty schedule built at line 306: every listed day maps to every
listed hour mapping to an empty role dict. -/
def initSchedule (days : List String) (hours : List Int) : ShiftSchedule :=
  days.map (fun d => (d, hours.map (fun h => (h, ([] : RoleMap)))))

/-- The initial weekly_assigned_hours dict of line 307 (dict comprehension:
duplicate names collapse onto one key). -/
def initWeekly (employees : List Employee) : List (String × Int) :=
  employees.foldl (fun m e => alSet m e.name 0) []

/-- The initial scheduler state of schedule_shifts lines 306-308. -/
def initState (employees : List Employee) (reqs : EmployerRequirements) : SchedState :=
  { sched := initSchedule sevenDays (intRange reqs.work_hours.1 reqs.work_hours.2)
    weekly := initWeekly employees
    daily := [] }

/-- schedule_shifts of src/work_scheduler.py lines 289-323, taking the
already parsed employees and requirements (file parsing and the debug-log
redirection are the excluded I/O collaborators): run the solver from the
empty schedule, on success run the balancer and return the schedule (line
323 returns None for a falsy, i.e. empty, dict), on failure return none. -/
def schedule_shifts (employees : List Employee) (reqs : EmployerRequirements)
    (fuel : Nat) : PyRes (Option ShiftSchedule) :=
  let hours := intRange reqs.work_hours.1 reqs.work_hours.2
  let st0 := initState employees reqs
  match solve_schedule sevenDays hours reqs.shift_lengths employees reqs fuel 0 st0 with
  | .ok true st1 =>
    match assign_extra_shifts employees reqs st1 with
    | .ok _ st2 => .ok (if st2.sched.isEmpty then none else some st2.sched) st2
    | .exn s => .exn s
    | .timeout => .timeout
  | .ok false st1 => .ok none st1
  | .exn s => .exn s
  | .timeout => .timeout

theorem alFind?_alSet_self {α β : Type} [DecidableEq α] (m : List (α × β)) (k : α) (v : β) :
    alFind? (alSet m k v) k = some v := by
  induction m with
  | nil => simp [alSet, alFind?]
  | cons p rest ih =>
    obtain ⟨k0, v0⟩ := p
    by_cases h : k0 = k
    · simp [alSet, alFind?, h]
    · simp [alSet, alFind?, h, ih]

theorem alFind?_alSet_ne {α β : Type} [DecidableEq α] (m : List (α × β)) (k k1 : α) (v : β)
    (h : k1 ≠ k) : alFind? (alSet m k v) k1 = alFind? m k1 := by
  induction m with
  | nil => simp [alSet, alFind?, Ne.symm h]
  | cons p rest ih =>
    obtain ⟨k0, v0⟩ := p
    by_cases h0 : k0 = k
    · subst h0
      simp [alSet, alFind?, Ne.symm h]
    · simp [alSet, alFind?, h0, ih]

theorem alSet_of_find {α β : Type} [DecidableEq α] (m : List (α × β)) (k : α) (v : β)
    (h : alFind? m k = some v) : alSet m k v = m := by
  induction m with
  | nil => simp [alFind?] at h
  | cons p rest ih =>
    obtain ⟨k0, v0⟩ := p
    by_cases h0 : k0 = k
    · subst h0
      simp [alFind?] at h
      simp [alSet, h]
    · simp [alFind?, h0] at h
      simp [alSet, h0, ih h]

theorem alSet_of_find_none {α β : Type} [DecidableEq α] (m : List (α × β)) (k : α) (v : β)
    (h : alFind? m k = none) : alSet m k v = m ++ [(k, v)] := by
  induction m with
  | nil => simp [alSet]
  | cons p rest ih =>
    obtain ⟨k0, v0⟩ := p
    by_cases h0 : k0 = k
    · simp [alFind?, h0] at h
    · simp [alFind?, h0] at h
      simp [alSet, h0, ih h]

theorem alErase_append_fresh {α β : Type} [DecidableEq α] (m : List (α × β)) (k : α) (v : β)
    (h : alFind? m k = none) : alErase (m ++ [(k, v)]) k = m := by
  induction m with
  | nil => simp [alErase]
  | cons p rest ih =>
    obtain ⟨k0, v0⟩ := p
    by_cases h0 : k0 = k
    · simp [alFind?, h0] at h
    · simp [alFind?, h0] at h
      simp [alErase, h0, ih h]

theorem removeFirst_append_self {α : Type} [DecidableEq α] (l : List α) (x : α)
    (h : x ∉ l) : removeFirst (l ++ [x]) x = l := by
  induction l with
  | nil => simp [removeFirst]
  | cons y rest ih =>
    simp only [List.mem_cons, not_or] at h
    simp [removeFirst, Ne.symm h.1, ih h.2]

theorem alKeys_alSet_of_contains {α β : Type} [DecidableEq α] (m : List (α × β)) (k : α) (v : β)
    (h : alContains m k = true) : alKeys (alSet m k v) = alKeys m := by
  induction m with
  | nil => simp [alContains, alFind?] at h
  | cons p rest ih =>
    obtain ⟨k0, v0⟩ := p
    by_cases h0 : k0 = k
    · simp [alSet, alKeys, h0]
    · simp [alContains, alFind?, h0] at h
      simp [alSet, alKeys, h0] at ih ⊢
      exact ih h

theorem alContains_alSet_self {α β : Type} [DecidableEq α] (m : List (α × β)) (k : α) (v : β) :
    alContains (alSet m k v) k = true := by
  simp [alContains, alFind?_alSet_self]

theorem alContains_of_find {α β : Type} [DecidableEq α] {m : List (α × β)} {k : α} {v : β}
    (h : alFind? m k = some v) : alContains m k = true := by
  simp [alContains, h]

/-- Fixture: an employee covering the Cashier role. -/
def empA : Employee :=
  { name := "A", availability := (0, 24), min_hours := 0, max_hours := 50,
    roles := ["Cashier"], days_off := [] }

/-- Fixture: an employee without the Floater role who stays below the
minimum-hours bound after solving. -/
def empB : Employee :=
  { name := "B", availability := (0, 24), min_hours := 1, max_hours := 10,
    roles := ["OnFloor"], days_off := [] }

/-- Fixture: a single-role, single-open-hour requirement set. -/
def reqsA : EmployerRequirements :=
  { work_hours := (9, 10), shift_lengths := (1, 1),
    critical_minimums := [("Cashier", 1)] }

/-- Claim C3: with employee.name a key of weekly_assigned_hours (the lookup
the source performs first), is_valid_assignment returns False exactly when
one of the four reject conditions (a) max weekly hours, (b) day already
worked, (c) day off, (d) window bounds holds, and the reject branch that
fires (observable through the log message) is always the first true
condition in the order a, b, c, d.  The embedding takes only the two
aggregates and the requirements, never the schedule, and is a pure
function. -/
theorem C3_is_valid_spec (e : Employee) (role day : String) (start len : Int)
    (weekly : List (String × Int)) (daily : List (String × List String))
    (reqs : EmployerRequirements) (w : Int)
    (hw : alFind? weekly e.name = some w) :
    (is_valid_assignment e role day start len weekly daily reqs = some false ↔
      (e.max_hours < w + len ∨ day ∈ (alFind? daily e.name).getD [] ∨
        day ∈ e.days_off ∨
        (start < e.availability.1 ∨ reqs.work_hours.2 < start + len ∨
          e.availability.2 < start + len))) ∧
    (is_valid_reason e day start len weekly daily reqs = some (some 0) ↔
      e.max_hours < w + len) ∧
    (is_valid_reason e day start len weekly daily reqs = some (some 1) ↔
      (¬ e.max_hours < w + len ∧ day ∈ (alFind? daily e.name).getD [])) ∧
    (is_valid_reason e day start len weekly daily reqs = some (some 2) ↔
      (¬ e.max_hours < w + len ∧ day ∉ (alFind? daily e.name).getD [] ∧
        day ∈ e.days_off)) ∧
    (is_valid_reason e day start len weekly daily reqs = some (some 3) ↔
      (¬ e.max_hours < w + len ∧ day ∉ (alFind? daily e.name).getD [] ∧
        day ∉ e.days_off ∧
        (start < e.availability.1 ∨ reqs.work_hours.2 < start + len ∨
          e.availability.2 < start + len))) := by
  simp only [is_valid_assignment, is_valid_reason, hw]
  split_ifs with h1 h2 h3 h4 <;> simp_all

/-- Witness for C3 at a concrete input: condition (a) holds (10 + 1 exceeds
max_hours 10), so the checker returns False. -/
theorem C3_witness :
    is_valid_assignment empB "Cashier" "Monday" 9 1 [("B", 10)] [] reqsA = some false :=
  ((C3_is_valid_spec empB "Cashier" "Monday" 9 1 [("B", 10)] [] reqsA 10 rfl).1).mpr
    (Or.inl (by decide))

theorem alSet_alSet_same {α β : Type} [DecidableEq α] (m : List (α × β)) (k : α) (v v1 : β) :
    alSet (alSet m k v) k v1 = alSet m k v1 := by
  induction m with
  | nil => simp [alSet]
  | cons p rest ih =>
    obtain ⟨k0, v0⟩ := p
    by_cases h0 : k0 = k
    · simp [alSet, h0]
    · simp [alSet, h0, ih]

theorem alContains_alSet_preserve {α β : Type} [DecidableEq α] (m : List (α × β))
    (k k1 : α) (v : β) (h : alContains m k1 = true) :
    alContains (alSet m k v) k1 = true := by
  by_cases hk : k1 = k
  · subst hk
    simp [alContains, alFind?_alSet_self]
  · simpa [alContains, alFind?_alSet_ne m k k1 v hk] using h

theorem alSet_comm {α β : Type} [DecidableEq α] (m : List (α × β)) (k k1 : α) (v v1 : β)
    (hne : k ≠ k1) (h : alContains m k = true) (h1 : alContains m k1 = true) :
    alSet (alSet m k v) k1 v1 = alSet (alSet m k1 v1) k v := by
  induction m with
  | nil => simp [alContains, alFind?] at h
  | cons p rest ih =>
    obtain ⟨k0, v0⟩ := p
    by_cases e0 : k0 = k
    · subst e0
      simp [alSet, hne, Ne.symm hne]
    · by_cases e1 : k0 = k1
      · subst e1
        simp [alSet, e0, Ne.symm hne, hne]
      · simp only [alContains, alFind?, e0, e1, if_false] at h h1
        simp [alSet, e0, e1, ih h h1]
theorem mem_intRangeAux (a x : Int) (n : Nat) :
    x ∈ intRangeAux a n ↔ a ≤ x ∧ x < a + n := by
  induction n generalizing a with
  | zero => simp [intRangeAux]
  | succ n ih =>
    simp only [intRangeAux, List.mem_cons, ih]
    constructor
    · rintro (rfl | ⟨h1, h2⟩) <;> constructor <;> omega
    · rintro ⟨h1, h2⟩
      by_cases hx : x = a
      · exact Or.inl hx
      · right
        constructor <;> omega

theorem intRangeAux_nodup (a : Int) (n : Nat) : (intRangeAux a n).Nodup := by
  induction n generalizing a with
  | zero => simp [intRangeAux]
  | succ n ih =>
    simp only [intRangeAux, List.nodup_cons]
    refine ⟨?_, ih _⟩
    rw [mem_intRangeAux]
    omega

theorem mem_intRange (a b x : Int) : x ∈ intRange a b ↔ a ≤ x ∧ x < b := by
  rw [intRange, mem_intRangeAux]
  omega

theorem intRange_nodup (a b : Int) : (intRange a b).Nodup :=
  intRangeAux_nodup _ _

/-- The single-hour cell edit of update_schedule as a transformation of the
day's hour map (create hour and role containers when absent, append the
employee). -/
def updCellH (e : Employee) (role : String) (h : Int) (dm : HourMap) : HourMap :=
  alSet dm h
    (alSet ((alFind? dm h).getD []) role
      (((alFind? ((alFind? dm h).getD []) role).getD []) ++ [e]))

/-- The cell-loop body of update_schedule lifted to the day's hour map: the
transformation the loop at lines 102-107 performs on schedule[day]. -/
def updHmap (e : Employee) (role : String) : List Int → HourMap → HourMap
  | [], dm => dm
  | h :: rest, dm => updHmap e role rest (updCellH e role h dm)

/-- The single-hour cell edit of remove_assignment as a transformation of
the day's hour map; requires the hour key to be present (hence defined only
below a presence check at the call sites of the lemmas that use it). -/
def remCellH (e : Employee) (role : String) (hm : RoleMap) (dm : HourMap) (h : Int) : HourMap :=
  match alFind? hm role with
  | none => dm
  | some cell =>
    if e ∈ cell then
      alSet dm h
        (if (removeFirst cell e).isEmpty then alErase hm role
          else alSet hm role (removeFirst cell e))
    else dm

/-- The cell-loop body of remove_assignment lifted to the day's hour map;
none is the KeyError of schedule[day][hour] on a missing hour. -/
def remHmap (e : Employee) (role : String) : List Int → HourMap → Option HourMap
  | [], dm => some dm
  | h :: rest, dm =>
    match alFind? dm h with
    | none => none
    | some hm => remHmap e role rest (remCellH e role hm dm h)

theorem updCell_eq (e : Employee) (role day : String) (h : Int) (st : SchedState)
    (dm : HourMap) (hf : alFind? st.sched day = some dm) :
    updCell e role day h st = .ok () { st with sched := alSet st.sched day (updCellH e role h dm) } := by
  simp [updCell, updCellH, hf]

theorem updLoop_eq (e : Employee) (role day : String) (hs : List Int)
    (st : SchedState) (dm : HourMap) (hf : alFind? st.sched day = some dm) :
    updLoop e role day hs st =
      .ok () { st with sched := alSet st.sched day (updHmap e role hs dm) } := by
  induction hs generalizing st dm with
  | nil => simp [updLoop, updHmap, alSet_of_find _ _ _ hf]
  | cons h rest ih =>
    simp only [updLoop, updCell_eq e role day h st dm hf]
    rw [ih _ _ (alFind?_alSet_self _ _ _)]
    simp [updHmap, alSet_alSet_same]

theorem remCell_eq (e : Employee) (role day : String) (h : Int) (st : SchedState)
    (dm : HourMap) (hm : RoleMap) (hf : alFind? st.sched day = some dm)
    (hh : alFind? dm h = some hm) :
    remCell e role day h st = .ok () { st with sched := alSet st.sched day (remCellH e role hm dm h) } := by
  simp only [remCell, hf, hh, remCellH]
  match hr : alFind? hm role with
  | none => simp [alSet_of_find _ _ _ hf]
  | some cell =>
    by_cases hmem : e ∈ cell
    · simp [hmem]
    · simp [hmem, alSet_of_find _ _ _ hf]

theorem remLoop_eq (e : Employee) (role day : String) (hs : List Int)
    (st : SchedState) (dm dm1 : HourMap) (hf : alFind? st.sched day = some dm)
    (hres : remHmap e role hs dm = some dm1) :
    remLoop e role day hs st =
      .ok () { st with sched := alSet st.sched day dm1 } := by
  induction hs generalizing st dm with
  | nil =>
    simp only [remHmap, Option.some.injEq] at hres
    subst hres
    simp [remLoop, alSet_of_find _ _ _ hf]
  | cons h rest ih =>
    simp only [remHmap] at hres
    match hh : alFind? dm h with
    | none => rw [hh] at hres; cases hres
    | some hm =>
      rw [hh] at hres
      simp only [remLoop, remCell_eq e role day h st dm hm hf hh]
      rw [ih _ _ (alFind?_alSet_self _ _ _) hres]
      simp [alSet_alSet_same]

theorem alFind?_updHmap_notmem (e : Employee) (role : String) (hs : List Int)
    (dm : HourMap) (h : Int) (hno : h ∉ hs) :
    alFind? (updHmap e role hs dm) h = alFind? dm h := by
  induction hs generalizing dm with
  | nil => rfl
  | cons h0 rest ih =>
    simp only [List.mem_cons, not_or] at hno
    simp only [updHmap, updCellH]
    rw [ih _ hno.2, alFind?_alSet_ne _ _ _ _ hno.1]

theorem alContains_updHmap_preserve (e : Employee) (role : String) (hs : List Int)
    (dm : HourMap) (h : Int) (hc : alContains dm h = true) :
    alContains (updHmap e role hs dm) h = true := by
  induction hs generalizing dm with
  | nil => exact hc
  | cons h0 rest ih =>
    simp only [updHmap, updCellH]
    exact ih _ (alContains_alSet_preserve _ _ _ _ hc)

theorem alContains_updHmap_mem (e : Employee) (role : String) (hs : List Int)
    (dm : HourMap) (h : Int) (hmem : h ∈ hs) :
    alContains (updHmap e role hs dm) h = true := by
  induction hs generalizing dm with
  | nil => cases hmem
  | cons h0 rest ih =>
    rcases List.mem_cons.mp hmem with h0eq | hrest
    · subst h0eq
      simp only [updHmap, updCellH]
      exact alContains_updHmap_preserve _ _ _ _ _ (alContains_alSet_self _ _ _)
    · simp only [updHmap]
      exact ih _ hrest

theorem updHmap_alSet_comm (e : Employee) (role : String) (hs : List Int)
    (dm : HourMap) (h : Int) (hm1 : RoleMap) (hno : h ∉ hs)
    (hch : alContains dm h = true) (hcs : ∀ h1 ∈ hs, alContains dm h1 = true) :
    updHmap e role hs (alSet dm h hm1) = alSet (updHmap e role hs dm) h hm1 := by
  induction hs generalizing dm with
  | nil => rfl
  | cons h0 rest ih =>
    simp only [List.mem_cons, not_or] at hno
    have hch0 : alContains dm h0 = true := hcs h0 (by simp)
    simp only [updHmap, updCellH]
    rw [alFind?_alSet_ne _ _ _ _ (Ne.symm hno.1)]
    rw [alSet_comm dm h h0 hm1 _ hno.1 hch hch0]
    exact ih _ hno.2 (alContains_alSet_preserve _ _ _ _ hch)
      (fun h1 hmem => alContains_alSet_preserve _ _ _ _ (hcs h1 (by simp [hmem])))

theorem remHmap_updHmap (e : Employee) (role : String) (hs : List Int) (dm : HourMap)
    (hnd : hs.Nodup) (hpres : ∀ h ∈ hs, alContains dm h = true)
    (hcell : ∀ h ∈ hs,
      e ∉ (alFind? ((alFind? dm h).getD []) role).getD [] ∧
      alFind? ((alFind? dm h).getD []) role ≠ some []) :
    remHmap e role hs (updHmap e role hs dm) = some dm := by
  induction hs generalizing dm with
  | nil => rfl
  | cons h rest ih =>
    have hnoh : h ∉ rest := (List.nodup_cons.mp hnd).1
    have hndr : rest.Nodup := (List.nodup_cons.mp hnd).2
    have hch : alContains dm h = true := hpres h (by simp)
    obtain ⟨hm, hh⟩ := Option.isSome_iff_exists.mp hch
    have hcellh := hcell h (by simp)
    rw [hh] at hcellh
    simp only [Option.getD_some] at hcellh
    have hupdC : updCellH e role h dm =
        alSet dm h (alSet hm role (((alFind? hm role).getD []) ++ [e])) := by
      simp [updCellH, hh]
    have hfindh : alFind? (updHmap e role rest (updCellH e role h dm)) h =
        some (alSet hm role (((alFind? hm role).getD []) ++ [e])) := by
      rw [alFind?_updHmap_notmem _ _ _ _ _ hnoh, hupdC]
      exact alFind?_alSet_self _ _ _
    simp only [updHmap, remHmap, hfindh]
    have hrole : alFind? (alSet hm role (((alFind? hm role).getD []) ++ [e])) role =
        some (((alFind? hm role).getD []) ++ [e]) := alFind?_alSet_self _ _ _
    have hmem : e ∈ ((alFind? hm role).getD []) ++ [e] := by simp
    have hrf : removeFirst (((alFind? hm role).getD []) ++ [e]) e =
        (alFind? hm role).getD [] :=
      removeFirst_append_self _ _ hcellh.1
    have hstep : remCellH e role (alSet hm role (((alFind? hm role).getD []) ++ [e]))
        (updHmap e role rest (updCellH e role h dm)) h =
        alSet (updHmap e role rest (updCellH e role h dm)) h hm := by
      simp only [remCellH, hrole, hmem, if_true, hrf]
      match hr : alFind? hm role with
      | none =>
        simp only [Option.getD_none, List.nil_append, List.isEmpty_nil, if_true]
        rw [alSet_of_find_none _ _ _ hr, alErase_append_fresh _ _ _ hr]
      | some cell =>
        simp only [Option.getD_some]
        have hcne : cell ≠ [] := by
          intro hceq
          rw [hceq] at hr
          exact hcellh.2 hr
        match cell, hcne with
        | c0 :: cs, _ =>
          simp only [List.isEmpty_cons, Bool.false_eq_true, if_false]
          rw [alSet_alSet_same, alSet_of_find _ _ _ hr]
    rw [hstep]
    have hcomm : alSet (updHmap e role rest (updCellH e role h dm)) h hm =
        updHmap e role rest (alSet (updCellH e role h dm) h hm) := by
      refine (updHmap_alSet_comm e role rest (updCellH e role h dm) h hm hnoh ?_ ?_).symm
      · rw [hupdC]
        exact alContains_alSet_self _ _ _
      · intro h1 hmem1
        rw [hupdC]
        exact alContains_alSet_preserve _ _ _ _ (hpres h1 (by simp [hmem1]))
    rw [hcomm]
    have hback : alSet (updCellH e role h dm) h hm = dm := by
      rw [hupdC, alSet_alSet_same, alSet_of_find _ _ _ hh]
    rw [hback]
    exact ih dm hndr (fun h1 hm1 => hpres h1 (by simp [hm1]))
      (fun h1 hm1 => hcell h1 (by simp [hm1]))

/-- update_schedule immediately followed by remove_assignment with identical
arguments (the round trip the backtracking solver performs). -/
def roundTrip (employee : Employee) (role day : String)
    (start_hour shift_length : Int) (st : SchedState) : PyRes Unit :=
  match update_schedule employee role day start_hour shift_length st with
  | .ok _ st1 => remove_assignment employee role day start_hour shift_length st1
  | r => r

/-- A state whose Monday 9:00 Cashier cell already holds empA before empB:
update then remove of empA does not restore the cell order. -/
def c2st0 : SchedState :=
  { sched := [("Monday", [(9, [("Cashier", [empA, empB])])])]
    weekly := [("A", 0)]
    daily := [("A", [])] }

/-- The state after the round trip on c2st0. -/
def c2st2 : SchedState :=
  match roundTrip empA "Cashier" "Monday" 9 1 c2st0 with
  | .ok _ s => s
  | _ => c2st0

/-- Claim C2 is false as stated: on a schedule whose touched cell already
contains the employee (here empA before empB), update_schedule followed by
remove_assignment with identical arguments returns normally but leaves the
cell reordered ([empB, empA] instead of [empA, empB]), because list.remove
removes the first occurrence while update appended at the end; the schedule
is not restored to its prior value. -/
theorem C2_counterexample :
    roundTrip empA "Cashier" "Monday" 9 1 c2st0 = .ok () c2st2 ∧
    cellGet c2st0.sched "Monday" 9 "Cashier" = [empA, empB] ∧
    cellGet c2st2.sched "Monday" 9 "Cashier" = [empB, empA] ∧
    c2st2 ≠ c2st0 := by
  refine ⟨by rfl, by rfl, by rfl, by decide⟩

/-- Claim C2 amended: update_schedule followed by remove_assignment with
identical arguments restores the schedule and both aggregates exactly,
provided the starting state satisfies: the day is a key of the schedule, the
start hour is a key under the day (without which the logging loop at line
116 raises schedule[day][start_hour] KeyError after both aggregates were
already updated, so the round trip aborts unrestored -- reachable for
shift_length <= 0), every touched hour is a key under the day, no touched
cell already contains the employee (and none maps the role to an empty
list, a shape the program never builds since emptied cells are deleted),
employee.name is a key of weekly_assigned_hours and of daily_shifts, and
the day is not already in daily_shifts[employee.name].  These side
conditions hold at every call site of the backtracking solver. -/
theorem C2_roundtrip_restores (e : Employee) (role day : String) (start len : Int)
    (st : SchedState) (dm : HourMap) (w : Int) (ds : List String)
    (hf : alFind? st.sched day = some dm)
    (hstart : alContains dm start = true)
    (hpres : ∀ h ∈ intRange start (start + len), alContains dm h = true)
    (hcell : ∀ h ∈ intRange start (start + len),
      e ∉ (alFind? ((alFind? dm h).getD []) role).getD [] ∧
      alFind? ((alFind? dm h).getD []) role ≠ some [])
    (hw : alFind? st.weekly e.name = some w)
    (hd : alFind? st.daily e.name = some ds)
    (hday : day ∉ ds) :
    roundTrip e role day start len st = .ok () st := by
  have hcont : alContains (updHmap e role (intRange start (start + len)) dm) start = true :=
    alContains_updHmap_preserve e role _ dm start hstart
  simp only [roundTrip, update_schedule]
  rw [updLoop_eq e role day _ st dm hf]
  simp only [hw, hd, Option.getD_some, alFind?_alSet_self, hcont, if_true, remove_assignment]
  rw [remLoop_eq e role day _ _ (updHmap e role (intRange start (start + len)) dm) dm
    (alFind?_alSet_self _ _ _)
    (remHmap_updHmap e role _ dm (intRange_nodup _ _) hpres hcell)]
  simp only [alSet_alSet_same, alSet_of_find _ _ _ hf]
  rw [alFind?_alSet_self st.weekly e.name (w + len),
    alFind?_alSet_self st.daily e.name (ds ++ [day])]
  simp only []
  rw [if_pos (by simp : day ∈ ds ++ [day])]
  rw [removeFirst_append_self ds day hday]
  rw [add_sub_cancel_right, alSet_of_find _ _ _ hw, alSet_of_find _ _ _ hd]

/-- A clean one-day state: Monday 9:00 exists and is empty, empA has keys in
both aggregates. -/
def c2wst : SchedState :=
  { sched := [("Monday", [(9, [])])]
    weekly := [("A", 0)]
    daily := [("A", [])] }

/-- Witness for the amended C2 at a concrete input: the round trip on c2wst
returns the state unchanged. -/
theorem C2_witness : roundTrip empA "Cashier" "Monday" 9 1 c2wst = .ok () c2wst :=
  C2_roundtrip_restores empA "Cashier" "Monday" 9 1 c2wst [(9, [])] 0 []
    rfl (by decide) (by decide) (by decide) rfl rfl (by decide)

theorem remCell_shape (e : Employee) (role day : String) (h : Int) (st : SchedState) :
    remCell e role day h st = .exn st ∨
    ∃ sc, remCell e role day h st = .ok () { st with sched := sc } := by
  cases hf : alFind? st.sched day with
  | none => left; simp [remCell, hf]
  | some dm =>
    cases hh : alFind? dm h with
    | none => left; simp [remCell, hf, hh]
    | some hm =>
      right
      cases hr : alFind? hm role with
      | none => exact ⟨st.sched, by simp [remCell, hf, hh, hr]⟩
      | some cell =>
        by_cases hmem : e ∈ cell
        · refine ⟨alSet st.sched day (alSet dm h
            (if (removeFirst cell e).isEmpty then alErase hm role
              else alSet hm role (removeFirst cell e))), ?_⟩
          simp [remCell, hf, hh, hr, hmem]
        · exact ⟨st.sched, by simp [remCell, hf, hh, hr, hmem]⟩

theorem remLoop_shape (e : Employee) (role day : String) (hs : List Int)
    (st : SchedState) :
    (∃ sc, remLoop e role day hs st = .exn { st with sched := sc }) ∨
    (∃ sc, remLoop e role day hs st = .ok () { st with sched := sc }) := by
  induction hs generalizing st with
  | nil => exact Or.inr ⟨st.sched, rfl⟩
  | cons h rest ih =>
    rcases remCell_shape e role day h st with hc | ⟨sc, hc⟩
    · left
      exact ⟨st.sched, by simp [remLoop, hc]⟩
    · rcases ih { st with sched := sc } with ⟨sc1, h1⟩ | ⟨sc1, h1⟩
      · left
        exact ⟨sc1, by simp [remLoop, hc, h1]⟩
      · right
        exact ⟨sc1, by simp [remLoop, hc, h1]⟩

theorem alContains_remCellH_preserve (e : Employee) (role : String) (hm : RoleMap)
    (dm : HourMap) (h h1 : Int) (hc : alContains dm h1 = true) :
    alContains (remCellH e role hm dm h) h1 = true := by
  unfold remCellH
  cases hr : alFind? hm role with
  | none => exact hc
  | some cell =>
    by_cases hmem : e ∈ cell
    · simp only [hmem, if_true]
      exact alContains_alSet_preserve _ _ _ _ hc
    · simp only [hmem, if_false]
      exact hc

theorem remHmap_total (e : Employee) (role : String) (hs : List Int) (dm : HourMap)
    (hpres : ∀ h ∈ hs, alContains dm h = true) :
    ∃ dm1, remHmap e role hs dm = some dm1 := by
  induction hs generalizing dm with
  | nil => exact ⟨dm, rfl⟩
  | cons h rest ih =>
    have hch : alContains dm h = true := hpres h (by simp)
    obtain ⟨hm, hh⟩ := Option.isSome_iff_exists.mp hch
    obtain ⟨dm1, hres⟩ := ih (remCellH e role hm dm h)
      (fun h1 hm1 => alContains_remCellH_preserve _ _ _ _ _ _ (hpres h1 (by simp [hm1])))
    exact ⟨dm1, by simp [remHmap, hh, hres]⟩

theorem updCell_shape (e : Employee) (role day : String) (h : Int) (st : SchedState) :
    updCell e role day h st = .exn st ∨
    ∃ dm, alFind? st.sched day = some dm ∧
      updCell e role day h st = .ok () { st with sched := alSet st.sched day (updCellH e role h dm) } := by
  cases hf : alFind? st.sched day with
  | none => left; simp [updCell, hf]
  | some dm => exact Or.inr ⟨dm, rfl, updCell_eq e role day h st dm hf⟩

theorem updLoop_ok_inv (e : Employee) (role day : String) (hs : List Int)
    (st st1 : SchedState) (hok : updLoop e role day hs st = .ok () st1) :
    (hs = [] ∧ st1 = st) ∨
    (∃ dm, alFind? st.sched day = some dm ∧
      st1 = { st with sched := alSet st.sched day (updHmap e role hs dm) }) := by
  cases hs with
  | nil =>
    left
    simp only [updLoop, PyRes.ok.injEq] at hok
    exact ⟨rfl, hok.2.symm⟩
  | cons h rest =>
    right
    cases hf : alFind? st.sched day with
    | none => simp [updLoop, updCell, hf] at hok
    | some dm =>
      rw [updLoop_eq e role day (h :: rest) st dm hf] at hok
      simp only [PyRes.ok.injEq] at hok
      exact ⟨dm, rfl, hok.2.symm⟩

theorem update_ok_inv (e : Employee) (role day : String) (start len : Int)
    (st st1 : SchedState)
    (hupd : update_schedule e role day start len st = .ok () st1) :
    ∃ w, alFind? st.weekly e.name = some w ∧
      ((intRange start (start + len) = [] ∧
        st1 = { st with
          weekly := alSet st.weekly e.name (w + len)
          daily := alSet st.daily e.name (((alFind? st.daily e.name).getD []) ++ [day]) }) ∨
      (∃ dm, alFind? st.sched day = some dm ∧
        st1 = {
          sched := alSet st.sched day (updHmap e role (intRange start (start + len)) dm)
          weekly := alSet st.weekly e.name (w + len)
          daily := alSet st.daily e.name (((alFind? st.daily e.name).getD []) ++ [day]) })) := by
  cases hres : updLoop e role day (intRange start (start + len)) st with
  | timeout => simp [update_schedule, hres] at hupd
  | exn s => simp [update_schedule, hres] at hupd
  | ok u st' =>
    rcases updLoop_ok_inv e role day _ st st' hres with ⟨hemp, hst'⟩ | ⟨dm, hf, hst'⟩
    · simp only [update_schedule, hres] at hupd
      rw [hst'] at hupd
      cases hw : alFind? st.weekly e.name with
      | none => rw [hw] at hupd; cases hupd
      | some w =>
        simp only [hw] at hupd
        cases hdm : alFind? st.sched day with
        | none =>
          simp only [hdm] at hupd
          cases hupd
        | some dm2 =>
          simp only [hdm] at hupd
          cases hcont : alContains dm2 start with
          | false =>
            rw [hcont, if_neg Bool.false_ne_true] at hupd
            cases hupd
          | true =>
            rw [hcont, if_pos rfl] at hupd
            simp only [PyRes.ok.injEq] at hupd
            exact ⟨w, rfl, Or.inl ⟨hemp, hupd.2.symm⟩⟩
    · simp only [update_schedule, hres] at hupd
      rw [hst'] at hupd
      cases hw : alFind? st.weekly e.name with
      | none => rw [hw] at hupd; cases hupd
      | some w =>
        simp only [hw, alFind?_alSet_self] at hupd
        cases hcont : alContains (updHmap e role (intRange start (start + len)) dm) start with
        | false =>
          rw [hcont, if_neg Bool.false_ne_true] at hupd
          cases hupd
        | true =>
          rw [hcont, if_pos rfl] at hupd
          simp only [PyRes.ok.injEq] at hupd
          exact ⟨w, rfl, Or.inr ⟨dm, hf, hupd.2.symm⟩⟩

/-- Claim C10 amended: (1) whenever day is not in
daily_shifts[employee.name] (or the name is absent), remove_assignment
raises instead of returning; (2) when additionally the day and every touched
hour are present in the schedule and employee.name is a key of
weekly_assigned_hours (without which the call raises earlier, before any
edit), the exception escapes only after the cell-removal loop has run and
weekly_assigned_hours[employee.name] has been decremented, with daily_shifts
untouched; (3) immediately after a normally returning update_schedule call
with identical arguments, remove_assignment returns normally (the error
branch is unreachable). -/
theorem C10_remove_raises :
    (∀ (e : Employee) (role day : String) (start len : Int) (st : SchedState),
      day ∉ dailyGetD st e.name →
      ∃ s, remove_assignment e role day start len st = .exn s) ∧
    (∀ (e : Employee) (role day : String) (start len : Int) (st : SchedState)
      (dm : HourMap) (w : Int),
      alFind? st.sched day = some dm →
      (∀ h ∈ intRange start (start + len), alContains dm h = true) →
      alFind? st.weekly e.name = some w →
      day ∉ dailyGetD st e.name →
      ∃ dm1, remHmap e role (intRange start (start + len)) dm = some dm1 ∧
        remove_assignment e role day start len st =
          .exn { st with
            sched := alSet st.sched day dm1
            weekly := alSet st.weekly e.name (w - len) }) ∧
    (∀ (e : Employee) (role day : String) (start len : Int) (st st1 : SchedState),
      update_schedule e role day start len st = .ok () st1 →
      ∃ st2, remove_assignment e role day start len st1 = .ok () st2) := by
  refine ⟨?_, ?_, ?_⟩
  · intro e role day start len st hnd
    rcases remLoop_shape e role day (intRange start (start + len)) st with ⟨sc, hr⟩ | ⟨sc, hr⟩
    · exact ⟨⟨sc, st.weekly, st.daily⟩, by simp only [remove_assignment, hr]⟩
    · cases hw : alFind? st.weekly e.name with
      | none =>
        exact ⟨⟨sc, st.weekly, st.daily⟩, by simp only [remove_assignment, hr, hw]⟩
      | some w =>
        cases hd : alFind? st.daily e.name with
        | none =>
          exact ⟨⟨sc, alSet st.weekly e.name (w - len), st.daily⟩,
            by simp only [remove_assignment, hr, hw, hd]⟩
        | some ds =>
          have hds : day ∉ ds := by simpa [dailyGetD, hd] using hnd
          refine ⟨⟨sc, alSet st.weekly e.name (w - len), st.daily⟩, ?_⟩
          simp only [remove_assignment, hr, hw, hd]
          rw [if_neg hds]
  · intro e role day start len st dm w hf hpres hw hnd
    obtain ⟨dm1, hres⟩ := remHmap_total e role _ dm hpres
    refine ⟨dm1, hres, ?_⟩
    simp only [remove_assignment]
    rw [remLoop_eq e role day _ st dm dm1 hf hres]
    simp only [hw]
    cases hd : alFind? st.daily e.name with
    | none => simp [hd]
    | some ds =>
      have hds : day ∉ ds := by simpa [dailyGetD, hd] using hnd
      simp [hd, hds]
  · intro e role day start len st st1 hupd
    obtain ⟨w, hw, hcase⟩ := update_ok_inv e role day start len st st1 hupd
    rcases hcase with ⟨hemp, hst1⟩ | ⟨dm, hf, hst1⟩
    · subst hst1
      simp only [remove_assignment, hemp, remLoop, alFind?_alSet_self]
      rw [if_pos (by simp : day ∈ ((alFind? st.daily e.name).getD []) ++ [day])]
      exact ⟨_, rfl⟩
    · subst hst1
      have hf1 : alFind? (alSet st.sched day (updHmap e role (intRange start (start + len)) dm)) day =
          some (updHmap e role (intRange start (start + len)) dm) := alFind?_alSet_self _ _ _
      obtain ⟨dm1, hres⟩ := remHmap_total e role (intRange start (start + len))
        (updHmap e role (intRange start (start + len)) dm)
        (fun h hm => alContains_updHmap_mem e role _ dm h hm)
      simp only [remove_assignment]
      rw [remLoop_eq e role day _ _ _ dm1 hf1 hres]
      simp only [alFind?_alSet_self]
      rw [if_pos (by simp : day ∈ ((alFind? st.daily e.name).getD []) ++ [day])]
      exact ⟨_, rfl⟩

/-- A state in which the day is missing from the schedule dict and not in
daily_shifts: the KeyError fires at schedule[day] in the loop, before any
edit. -/
def c10st : SchedState :=
  { sched := []
    weekly := [("A", 5)]
    daily := [("A", [])] }

/-- Claim C10 is false as stated: with the day absent from the schedule,
remove_assignment raises with the state completely untouched, in particular
weekly_assigned_hours is still 5 (not decremented to 4) and no cell was
edited, contradicting that the exception occurs only after the cell edits
and the decrement. -/
theorem C10_counterexample :
    remove_assignment empA "Cashier" "Monday" 9 1 c10st = .exn c10st ∧
    "Monday" ∉ dailyGetD c10st empA.name ∧
    alFind? c10st.weekly "A" = some 5 ∧
    alSet c10st.weekly "A" (5 - 1) ≠ c10st.weekly := by
  refine ⟨by rfl, by decide, by rfl, by decide⟩

/-- A one-day, one-hour state with empA present in both aggregates. -/
def c10wst : SchedState :=
  { sched := [("Monday", [(9, [])])]
    weekly := [("A", 5)]
    daily := [("A", [])] }

/-- Witness for C10 at a concrete input: the exception escapes with
weekly_assigned_hours decremented from 5 to 4 and the untouched schedule
cells rewritten in place. -/
theorem C10_witness :
    remove_assignment empA "Cashier" "Monday" 9 1 c10wst =
      .exn { c10wst with
        sched := alSet c10wst.sched "Monday" [(9, [])]
        weekly := alSet c10wst.weekly "A" (5 - 1) } := by
  obtain ⟨dm1, hdm, hres⟩ := C10_remove_raises.2.1 empA "Cashier" "Monday" 9 1 c10wst
    [(9, [])] 5 rfl (by decide) rfl (by decide)
  have hcalc : remHmap empA "Cashier" (intRange 9 (9 + 1)) [(9, [])] = some [(9, [])] := by rfl
  rw [hcalc] at hdm
  cases hdm
  exact hres

theorem insSorted_perm {α : Type} (key : α → Int) (x : α) (l : List α) :
    List.Perm (insSorted key x l) (x :: l) := by
  induction l with
  | nil => exact List.Perm.refl _
  | cons y ys ih =>
    by_cases h : key y < key x
    · simp only [insSorted, h, if_true]
      exact List.Perm.trans (List.Perm.cons y ih) (List.Perm.swap x y ys)
    · simp [insSorted, h]

theorem insSorted_pairwise {α : Type} (key : α → Int) (x : α) (l : List α)
    (hl : List.Pairwise (fun a b => key a ≤ key b) l) :
    List.Pairwise (fun a b => key a ≤ key b) (insSorted key x l) := by
  induction l with
  | nil => simp [insSorted]
  | cons y ys ih =>
    rcases List.pairwise_cons.mp hl with ⟨hy, hys⟩
    by_cases h : key y < key x
    · simp only [insSorted, h, if_true]
      refine List.pairwise_cons.mpr ⟨?_, ih hys⟩
      intro z hz
      rcases List.mem_cons.mp ((insSorted_perm key x ys).mem_iff.mp hz) with rfl | hzys
      · exact le_of_lt h
      · exact hy z hzys
    · simp only [insSorted, h, if_false]
      refine List.pairwise_cons.mpr ⟨?_, hl⟩
      intro z hz
      rcases List.mem_cons.mp hz with rfl | hzys
      · exact le_of_not_lt h
      · exact le_trans (le_of_not_lt h) (hy z hzys)

theorem insSorted_filter {α : Type} (key : α → Int) (x : α) (l : List α) (c : Int) :
    (insSorted key x l).filter (fun a => decide (key a = c)) =
    ((x :: l).filter (fun a => decide (key a = c))) := by
  induction l with
  | nil => rfl
  | cons y ys ih =>
    by_cases h : key y < key x
    · simp only [insSorted, h, if_true]
      by_cases hyc : key y = c
      · have hxc : ¬ key x = c := by omega
        simp [List.filter_cons, hyc, hxc] at ih ⊢
        exact ih
      · simp [List.filter_cons, hyc] at ih ⊢
        exact ih
    · simp [insSorted, h]

theorem stableSortBy_perm {α : Type} (key : α → Int) (l : List α) :
    List.Perm (stableSortBy key l) l := by
  induction l with
  | nil => exact List.Perm.refl _
  | cons x xs ih =>
    exact List.Perm.trans (insSorted_perm key x (stableSortBy key xs)) (List.Perm.cons x ih)

theorem stableSortBy_pairwise {α : Type} (key : α → Int) (l : List α) :
    List.Pairwise (fun a b => key a ≤ key b) (stableSortBy key l) := by
  induction l with
  | nil => simp [stableSortBy]
  | cons x xs ih => exact insSorted_pairwise key x _ ih

theorem stableSortBy_filter {α : Type} (key : α → Int) (l : List α) (c : Int) :
    (stableSortBy key l).filter (fun a => decide (key a = c)) =
    l.filter (fun a => decide (key a = c)) := by
  induction l with
  | nil => rfl
  | cons x xs ih =>
    rw [show stableSortBy key (x :: xs) = insSorted key x (stableSortBy key xs) from rfl]
    rw [insSorted_filter]
    simp only [List.filter_cons]
    rw [ih]

/-- The per-day count the claim describes (total employee-hour assignments
recorded for the day): the sum over hours and roles of the number of listed
employees.  Stated from the claim wording, for comparison with pyDayCount,
the count line 253 of the source actually computes. -/
def claimDayCount (dm : HourMap) : Nat :=
  (dm.map (fun p => (p.2.map (fun rc => rc.2.length)).sum)).sum

/-- The day ranking the claim describes: schedule keys stably sorted by
ascending claimDayCount (ties broken by original day order). -/
def claimSortedDays (sched : ShiftSchedule) : List String :=
  stableSortBy (fun d => (claimDayCount ((alFind? sched d).getD []) : Int)) (alKeys sched)

/-- A schedule on which the two rankings differ: Monday has two staffed
hours with one Cashier each (two employee-hour assignments, two role keys),
Tuesday one hour with two Cashiers (two employee-hour assignments, one role
key). -/
def c9sched : ShiftSchedule :=
  [("Monday", [(9, [("Cashier", [empA])]), (10, [("Cashier", [empA])])]),
   ("Tuesday", [(9, [("Cashier", [empA, empB])])])]

/-- An under-minimum employee free to work either day. -/
def empC : Employee :=
  { name := "C", availability := (0, 24), min_hours := 1, max_hours := 10,
    roles := ["OnFloor"], days_off := [] }

/-- A balancer input state over c9sched. -/
def c9state : SchedState :=
  { sched := c9sched
    weekly := [("A", 3), ("B", 1), ("C", 0)]
    daily := [("A", ["Monday", "Tuesday"]), ("B", ["Tuesday"])] }

/-- The state after the balancer run on c9state. -/
def c9after : SchedState :=
  match assign_extra_shifts [empC] reqsA c9state with
  | .ok _ s => s
  | _ => c9state

/-- Claim C9 is false as stated: the source ranks days by the number of role
keys summed over hours (len(roles) at line 253), not by employee-hour
assignments.  On c9sched both days carry two employee-hour assignments, so
the claimed ranking keeps Monday first by day order, but the code ranks
Tuesday (one role key) before Monday (two role keys), and the balancer
correspondingly gives empC its Floater shift on Tuesday, not Monday. -/
theorem C9_counterexample :
    sortedDaysOf c9sched = ["Tuesday", "Monday"] ∧
    claimSortedDays c9sched = ["Monday", "Tuesday"] ∧
    claimDayCount ((alFind? c9sched "Monday").getD []) =
      claimDayCount ((alFind? c9sched "Tuesday").getD []) ∧
    sortedDaysOf c9sched ≠ claimSortedDays c9sched ∧
    assign_extra_shifts [empC] reqsA c9state = .ok () c9after ∧
    empC ∈ cellGet c9after.sched "Tuesday" 9 "Floater" ∧
    cellGet c9after.sched "Monday" 9 "Floater" = [] ∧
    cellGet c9after.sched "Monday" 10 "Floater" = [] := by
  refine ⟨by rfl, by rfl, by rfl, by decide, by rfl, by decide, by rfl, by rfl⟩

/-- Claim C9 amended: the balancer attempts days for every under-minimum
employee in the order sorted_days computed once as the pass starts (the
sorted_days argument threaded through empLoopB and dayLoopB in
assign_extra_shifts), and that order, sortedDaysOf, ranks the schedule keys
by ascending pyDayCount, the number of occupied (hour, role) cells of the
day (sum of role-dict sizes over hours), not by employee-hour assignments;
ties keep the original Monday-to-Sunday key order (stability): the order is
a permutation of the keys, its pyDayCount values are nondecreasing, and for
every count value the days carrying it appear in their original relative
order. -/
theorem C9_sorted_days_spec (sched : ShiftSchedule) :
    List.Perm (sortedDaysOf sched) (alKeys sched) ∧
    List.Pairwise (fun d1 d2 =>
      pyDayCount ((alFind? sched d1).getD []) ≤ pyDayCount ((alFind? sched d2).getD []))
      (sortedDaysOf sched) ∧
    (∀ c : Int, (sortedDaysOf sched).filter
        (fun d => decide ((pyDayCount ((alFind? sched d).getD []) : Int) = c)) =
      (alKeys sched).filter
        (fun d => decide ((pyDayCount ((alFind? sched d).getD []) : Int) = c))) := by
  refine ⟨stableSortBy_perm _ _, ?_, fun c => stableSortBy_filter _ _ c⟩
  have h := stableSortBy_pairwise
    (fun d => (pyDayCount ((alFind? sched d).getD []) : Int)) (alKeys sched)
  refine h.imp ?_
  intro a b hab
  exact_mod_cast hab

/-- The role cell recorded at hour h, role r of a day hour-map. -/
def rmGet (dm : HourMap) (h : Int) (r : String) : RoleCell :=
  (alFind? ((alFind? dm h).getD []) r).getD []

/-- st1 extends st: every cell and every daily_shifts list of st is a prefix
of its st1 counterpart (entries are only appended) and no
weekly_assigned_hours value decreased. -/
def Extends (st st1 : SchedState) : Prop :=
  (∀ d h r, ∃ t, cellGet st1.sched d h r = cellGet st.sched d h r ++ t) ∧
  (∀ name, ∃ t, dailyGetD st1 name = dailyGetD st name ++ t) ∧
  (∀ name, weeklyGetD st name ≤ weeklyGetD st1 name)

theorem Extends.rfl (st : SchedState) : Extends st st :=
  ⟨fun d h r => ⟨[], by simp⟩, fun name => ⟨[], by simp⟩, fun name => le_refl _⟩

theorem Extends.trans {st1 st2 st3 : SchedState}
    (h12 : Extends st1 st2) (h23 : Extends st2 st3) : Extends st1 st3 := by
  refine ⟨fun d h r => ?_, fun name => ?_, fun name => le_trans (h12.2.2 name) (h23.2.2 name)⟩
  · obtain ⟨t1, e1⟩ := h12.1 d h r
    obtain ⟨t2, e2⟩ := h23.1 d h r
    exact ⟨t1 ++ t2, by rw [e2, e1, List.append_assoc]⟩
  · obtain ⟨t1, e1⟩ := h12.2.1 name
    obtain ⟨t2, e2⟩ := h23.2.1 name
    exact ⟨t1 ++ t2, by rw [e2, e1, List.append_assoc]⟩

theorem rmGet_updCellH (e : Employee) (role : String) (h0 : Int) (dm : HourMap)
    (h : Int) (r : String) :
    rmGet (updCellH e role h0 dm) h r =
      rmGet dm h r ++ (if h = h0 ∧ r = role then [e] else []) := by
  unfold updCellH rmGet
  by_cases hh : h = h0
  · subst hh
    rw [alFind?_alSet_self]
    simp only [Option.getD_some]
    by_cases hr : r = role
    · subst hr
      rw [alFind?_alSet_self]
      simp
    · rw [alFind?_alSet_ne _ _ _ _ hr]
      simp [hr]
  · rw [alFind?_alSet_ne _ _ _ _ hh]
    simp [hh]

theorem rmGet_updHmap (e : Employee) (role : String) (hs : List Int) (dm : HourMap)
    (h : Int) (r : String) :
    ∃ t, rmGet (updHmap e role hs dm) h r = rmGet dm h r ++ t := by
  induction hs generalizing dm with
  | nil => exact ⟨[], by simp [updHmap]⟩
  | cons h0 rest ih =>
    obtain ⟨t, ht⟩ := ih (updCellH e role h0 dm)
    refine ⟨(if h = h0 ∧ r = role then [e] else []) ++ t, ?_⟩
    simp only [updHmap] at ht ⊢
    rw [ht, rmGet_updCellH, List.append_assoc]

theorem update_ok_extends (e : Employee) (role day : String) (start len : Int)
    (st st1 : SchedState) (hlen : 0 ≤ len)
    (hupd : update_schedule e role day start len st = .ok () st1) :
    Extends st st1 := by
  obtain ⟨w, hw, hcase⟩ := update_ok_inv e role day start len st st1 hupd
  have hdaily : ∀ (stx : SchedState),
      stx.daily = alSet st.daily e.name (((alFind? st.daily e.name).getD []) ++ [day]) →
      ∀ name, ∃ t, dailyGetD stx name = dailyGetD st name ++ t := by
    intro stx hst name
    by_cases hn : name = e.name
    · subst hn
      refine ⟨[day], ?_⟩
      simp [dailyGetD, hst, alFind?_alSet_self]
    · refine ⟨[], ?_⟩
      simp [dailyGetD, hst, alFind?_alSet_ne _ _ _ _ hn]
  have hweekly : ∀ (stx : SchedState),
      stx.weekly = alSet st.weekly e.name (w + len) →
      ∀ name, weeklyGetD st name ≤ weeklyGetD stx name := by
    intro stx hst name
    by_cases hn : name = e.name
    · subst hn
      simp only [weeklyGetD, hst, alFind?_alSet_self, hw, Option.getD_some]
      omega
    · simp [weeklyGetD, hst, alFind?_alSet_ne _ _ _ _ hn]
  rcases hcase with ⟨hemp, hst1⟩ | ⟨dm, hf, hst1⟩
  · subst hst1
    exact ⟨fun d h r => ⟨[], by simp⟩, hdaily _ rfl, hweekly _ rfl⟩
  · subst hst1
    refine ⟨fun d h r => ?_, hdaily _ rfl, hweekly _ rfl⟩
    by_cases hd : d = day
    · subst hd
      obtain ⟨t, ht⟩ := rmGet_updHmap e role (intRange start (start + len)) dm h r
      refine ⟨t, ?_⟩
      simp only [cellGet, rmGet] at ht ⊢
      rw [alFind?_alSet_self]
      simp only [Option.getD_some, hf]
      exact ht
    · refine ⟨[], ?_⟩
      simp only [cellGet, List.append_nil]
      rw [alFind?_alSet_ne _ _ _ _ hd]

theorem updLoop_exn_inv (e : Employee) (role day : String) (hs : List Int)
    (st s : SchedState) (hexn : updLoop e role day hs st = .exn s) : s = st := by
  cases hs with
  | nil => cases hexn
  | cons h rest =>
    cases hf : alFind? st.sched day with
    | none =>
      simp only [updLoop, updCell, hf, PyRes.exn.injEq] at hexn
      exact hexn.symm
    | some dm =>
      rw [updLoop_eq e role day (h :: rest) st dm hf] at hexn
      cases hexn

theorem update_exn_inv (e : Employee) (role day : String) (start len : Int)
    (st s : SchedState)
    (hupd : update_schedule e role day start len st = .exn s) :
    s = st ∨
    (∃ dm, alFind? st.sched day = some dm ∧
      s = { st with sched := alSet st.sched day (updHmap e role (intRange start (start + len)) dm) }) ∨
    (∃ w, alFind? st.weekly e.name = some w ∧
      (s = { st with
          weekly := alSet st.weekly e.name (w + len)
          daily := alSet st.daily e.name (((alFind? st.daily e.name).getD []) ++ [day]) } ∨
        ∃ dm, alFind? st.sched day = some dm ∧
          s = { sched := alSet st.sched day (updHmap e role (intRange start (start + len)) dm)
                weekly := alSet st.weekly e.name (w + len)
                daily := alSet st.daily e.name (((alFind? st.daily e.name).getD []) ++ [day]) })) := by
  cases hres : updLoop e role day (intRange start (start + len)) st with
  | timeout => simp [update_schedule, hres] at hupd
  | exn s1 =>
    simp only [update_schedule, hres, PyRes.exn.injEq] at hupd
    left
    rw [← hupd]
    exact updLoop_exn_inv e role day _ st s1 hres
  | ok u st' =>
    rcases updLoop_ok_inv e role day _ st st' hres with ⟨hemp, hst'⟩ | ⟨dm, hf, hst'⟩
    · simp only [update_schedule, hres] at hupd
      rw [hst'] at hupd
      cases hw : alFind? st.weekly e.name with
      | none =>
        rw [hw] at hupd
        simp only [PyRes.exn.injEq] at hupd
        left
        exact hupd.symm
      | some w =>
        simp only [hw] at hupd
        cases hdm : alFind? st.sched day with
        | none =>
          simp only [hdm, PyRes.exn.injEq] at hupd
          exact Or.inr (Or.inr ⟨w, rfl, Or.inl hupd.symm⟩)
        | some dm2 =>
          simp only [hdm] at hupd
          cases hcont : alContains dm2 start with
          | false =>
            rw [hcont, if_neg Bool.false_ne_true] at hupd
            simp only [PyRes.exn.injEq] at hupd
            exact Or.inr (Or.inr ⟨w, rfl, Or.inl hupd.symm⟩)
          | true =>
            rw [hcont, if_pos rfl] at hupd
            cases hupd
    · simp only [update_schedule, hres] at hupd
      rw [hst'] at hupd
      cases hw : alFind? st.weekly e.name with
      | none =>
        rw [hw] at hupd
        simp only [PyRes.exn.injEq] at hupd
        exact Or.inr (Or.inl ⟨dm, hf, hupd.symm⟩)
      | some w =>
        simp only [hw, alFind?_alSet_self] at hupd
        cases hcont : alContains (updHmap e role (intRange start (start + len)) dm) start with
        | false =>
          rw [hcont, if_neg Bool.false_ne_true] at hupd
          simp only [PyRes.exn.injEq] at hupd
          exact Or.inr (Or.inr ⟨w, rfl, Or.inr ⟨dm, hf, hupd.symm⟩⟩)
        | true =>
          rw [hcont, if_pos rfl] at hupd
          cases hupd

theorem update_exn_extends (e : Employee) (role day : String) (start len : Int)
    (st s : SchedState) (hlen : 0 ≤ len)
    (hupd : update_schedule e role day start len st = .exn s) : Extends st s := by
  have hdaily : ∀ (stx : SchedState),
      stx.daily = alSet st.daily e.name (((alFind? st.daily e.name).getD []) ++ [day]) →
      ∀ name, ∃ t, dailyGetD stx name = dailyGetD st name ++ t := by
    intro stx hst name
    by_cases hn : name = e.name
    · subst hn
      refine ⟨[day], ?_⟩
      simp [dailyGetD, hst, alFind?_alSet_self]
    · refine ⟨[], ?_⟩
      simp [dailyGetD, hst, alFind?_alSet_ne _ _ _ _ hn]
  have hweekly : ∀ (w : Int), alFind? st.weekly e.name = some w → ∀ (stx : SchedState),
      stx.weekly = alSet st.weekly e.name (w + len) →
      ∀ name, weeklyGetD st name ≤ weeklyGetD stx name := by
    intro w hw stx hst name
    by_cases hn : name = e.name
    · subst hn
      simp only [weeklyGetD, hst, alFind?_alSet_self, hw, Option.getD_some]
      omega
    · simp [weeklyGetD, hst, alFind?_alSet_ne _ _ _ _ hn]
  have hcells : ∀ (dm : HourMap), alFind? st.sched day = some dm → ∀ (stx : SchedState),
      stx.sched = alSet st.sched day (updHmap e role (intRange start (start + len)) dm) →
      ∀ d h r, ∃ t, cellGet stx.sched d h r = cellGet st.sched d h r ++ t := by
    intro dm hf stx hst d h r
    rw [hst]
    by_cases hd : d = day
    · subst hd
      obtain ⟨t, ht⟩ := rmGet_updHmap e role (intRange start (start + len)) dm h r
      refine ⟨t, ?_⟩
      simp only [cellGet, rmGet] at ht ⊢
      rw [alFind?_alSet_self]
      simp only [Option.getD_some, hf]
      exact ht
    · refine ⟨[], ?_⟩
      simp only [cellGet, List.append_nil]
      rw [alFind?_alSet_ne _ _ _ _ hd]
  rcases update_exn_inv e role day start len st s hupd with rfl | ⟨dm, hf, rfl⟩ | ⟨w, hw, hcase⟩
  · exact Extends.rfl _
  · exact ⟨hcells dm hf _ rfl, fun name => ⟨[], by simp [dailyGetD]⟩, fun name => le_refl _⟩
  · rcases hcase with rfl | ⟨dm, hf, rfl⟩
    · exact ⟨fun d h r => ⟨[], by simp⟩, hdaily _ rfl, hweekly w hw _ rfl⟩
    · exact ⟨hcells dm hf _ rfl, hdaily _ rfl, hweekly w hw _ rfl⟩

/-- The state carried by a result extends st (trivially true for the fuel
timeout, which carries none). -/
def resExtends {α : Type} (st : SchedState) : PyRes α → Prop
  | .timeout => True
  | .exn s => Extends st s
  | .ok _ s => Extends st s

theorem resExtends_trans {α : Type} {st st1 : SchedState} (h : Extends st st1)
    {r : PyRes α} (hr : resExtends st1 r) : resExtends st r := by
  cases r with
  | timeout => trivial
  | exn s => exact Extends.trans h hr
  | ok a s => exact Extends.trans h hr

theorem hourLoopB_extends (e : Employee) (reqs : EmployerRequirements) (day : String)
    (hs : List Int) (req : Int) (st : SchedState) (hlen : 0 ≤ reqs.shift_lengths.1) :
    resExtends st (hourLoopB e reqs day hs req st) := by
  induction hs generalizing req st with
  | nil => exact Extends.rfl st
  | cons h rest ih =>
    simp only [hourLoopB]
    by_cases hreq : req ≤ 0
    · rw [if_pos hreq]
      exact Extends.rfl st
    · rw [if_neg hreq]
      cases hv : is_valid_assignment e "Floater" day h reqs.shift_lengths.1
          st.weekly st.daily reqs with
      | none => exact Extends.rfl st
      | some b =>
        cases b with
        | false => exact ih req st
        | true =>
          cases hu : update_schedule e "Floater" day h reqs.shift_lengths.1 st with
          | timeout => trivial
          | exn s => exact update_exn_extends _ _ _ _ _ _ _ hlen hu
          | ok u st1 =>
            exact resExtends_trans
              (update_ok_extends _ _ _ _ _ _ _ hlen hu)
              (ih (req - reqs.shift_lengths.1) st1)

theorem dayLoopB_extends (e : Employee) (reqs : EmployerRequirements)
    (ds : List String) (req : Int) (st : SchedState) (hlen : 0 ≤ reqs.shift_lengths.1) :
    resExtends st (dayLoopB e reqs ds req st) := by
  induction ds generalizing req st with
  | nil => exact Extends.rfl st
  | cons d rest ih =>
    simp only [dayLoopB]
    by_cases hreq : req ≤ 0
    · rw [if_pos hreq]
      exact Extends.rfl st
    · rw [if_neg hreq]
      by_cases hskip : d ∈ e.days_off ∨ d ∈ (alFind? st.daily e.name).getD []
      · rw [if_pos hskip]
        exact ih req st
      · rw [if_neg hskip]
        have hh := hourLoopB_extends e reqs d
          (intRange reqs.work_hours.1 reqs.work_hours.2) req st hlen
        cases hres : hourLoopB e reqs d (intRange reqs.work_hours.1 reqs.work_hours.2) req st with
        | timeout => trivial
        | exn s =>
          rw [hres] at hh
          exact hh
        | ok req1 st1 =>
          rw [hres] at hh
          exact resExtends_trans hh (ih req1 st1)

theorem empLoopB_extends (reqs : EmployerRequirements) (sorted_days : List String)
    (um : List Employee) (st : SchedState) (hlen : 0 ≤ reqs.shift_lengths.1) :
    resExtends st (empLoopB reqs sorted_days um st) := by
  induction um generalizing st with
  | nil => exact Extends.rfl st
  | cons e rest ih =>
    cases hw : alFind? st.weekly e.name with
    | none =>
      simp only [empLoopB, hw]
      exact Extends.rfl st
    | some w =>
      simp only [empLoopB, hw]
      have hd := dayLoopB_extends e reqs sorted_days (e.min_hours - w) st hlen
      cases hres : dayLoopB e reqs sorted_days (e.min_hours - w) st with
      | timeout => trivial
      | exn s =>
        rw [hres] at hd
        exact hd
      | ok u st1 =>
        rw [hres] at hd
        exact resExtends_trans hd (ih st1)

/-- Claim C8: assign_extra_shifts never removes or alters an existing
assignment when it returns: every cell and every daily_shifts list of the
input state is a prefix of its counterpart in the output state (so every
recorded (day, hour, role, employee) entry survives and no day is removed),
and no weekly_assigned_hours value decreases (given the parsed minimum shift
length is nonnegative, which is what makes the added shifts add hours). -/
theorem C8_assign_extra_only_adds (employees : List Employee)
    (reqs : EmployerRequirements) (st st1 : SchedState)
    (hlen : 0 ≤ reqs.shift_lengths.1)
    (hrun : assign_extra_shifts employees reqs st = .ok () st1) :
    (∀ d h r, ∃ t, cellGet st1.sched d h r = cellGet st.sched d h r ++ t) ∧
    (∀ (x : Employee) (d : String) (h : Int) (r : String),
      x ∈ cellGet st.sched d h r → x ∈ cellGet st1.sched d h r) ∧
    (∀ name, weeklyGetD st name ≤ weeklyGetD st1 name) ∧
    (∀ name, ∃ t, dailyGetD st1 name = dailyGetD st name ++ t) := by
  have hext : Extends st st1 := by
    cases hum : underMin st.weekly employees with
    | none => simp [assign_extra_shifts, hum] at hrun
    | some um =>
      have h := empLoopB_extends reqs (sortedDaysOf st.sched) um st hlen
      simp only [assign_extra_shifts, hum] at hrun
      rw [hrun] at h
      exact h
  refine ⟨hext.1, ?_, hext.2.2, hext.2.1⟩
  intro x d h r hx
  obtain ⟨t, ht⟩ := hext.1 d h r
  rw [ht]
  exact List.mem_append_left t hx

/-- Witness for C8 at a concrete balancer run (the c9state scenario): no
weekly total decreased across the pass. -/
theorem C8_witness : weeklyGetD c9state "A" ≤ weeklyGetD c9after "A" :=
  (C8_assign_extra_only_adds [empC] reqsA c9state c9after (by decide) (by rfl)).2.2.1 "A"

/-- The state carried by a result satisfies P (trivially true for the fuel
timeout, which carries no state). -/
def resInv {α : Type} (P : SchedState → Prop) : PyRes α → Prop
  | .timeout => True
  | .exn s => P s
  | .ok _ s => P s

theorem alFind?_map_self {α β γ : Type} [DecidableEq α] (l : List (α × β)) (f : α → γ)
    (k : α) (v : γ) (h : alFind? (l.map (fun p => (p.1, f p.1))) k = some v) :
    v = f k := by
  induction l with
  | nil => cases h
  | cons p rest ih =>
    simp only [List.map_cons, alFind?] at h
    by_cases hk : p.1 = k
    · rw [if_pos hk] at h
      injection h with h1
      rw [← h1, hk]
    · rw [if_neg hk] at h
      exact ih h

theorem buildAvailable_mem (employees : List Employee) (reqs : EmployerRequirements)
    (day : String) (role : String) (e : Employee)
    (h : e ∈ (alFind? (buildAvailable employees reqs day) role).getD []) :
    e ∈ employees ∧ role ∈ e.roles ∧ day ∉ e.days_off := by
  unfold buildAvailable at h
  cases hf : alFind? (reqs.critical_minimums.map (fun rm =>
      (rm.1, employees.filter (fun e => decide (rm.1 ∈ e.roles) && decide (day ∉ e.days_off)))))
      role with
  | none => rw [hf] at h; cases h
  | some l =>
    rw [hf] at h
    simp only [Option.getD_some] at h
    have hl : l = employees.filter (fun e => decide (role ∈ e.roles) && decide (day ∉ e.days_off)) :=
      alFind?_map_self reqs.critical_minimums
        (fun r => employees.filter (fun e => decide (r ∈ e.roles) && decide (day ∉ e.days_off)))
        role l hf
    rw [hl] at h
    have hm := List.mem_filter.mp h
    refine ⟨hm.1, ?_, ?_⟩
    · have := hm.2
      simp only [Bool.and_eq_true, decide_eq_true_eq] at this
      exact this.1
    · have := hm.2
      simp only [Bool.and_eq_true, decide_eq_true_eq] at this
      exact this.2

theorem lenLoop_inv (P : SchedState → Prop) (recur : SchedState → PyRes Bool)
    (e : Employee) (role day : String) (reqs : EmployerRequirements) (start : Int)
    (hrec : ∀ s, P s → resInv P (recur s))
    (hupd : ∀ len st, P st →
      is_valid_assignment e role day start len st.weekly st.daily reqs = some true →
      ¬ reqs.work_hours.2 < start + len →
      resInv P (update_schedule e role day start len st))
    (hrem : ∀ len st, P st → resInv P (remove_assignment e role day start len st)) :
    ∀ ls st, P st → resInv P (lenLoop recur e role day reqs start ls st) := by
  intro ls
  induction ls with
  | nil => intro st hP; exact hP
  | cons len rest ih =>
    intro st hP
    simp only [lenLoop]
    split
    · exact ih st hP
    · rename_i hb
      split
      · exact hP
      · exact ih st hP
      · rename_i hv
        split
        · trivial
        · rename_i s hexn
          have hu := hupd len st hP hv hb
          rw [hexn] at hu
          exact hu
        · rename_i u st1 hok
          have hu := hupd len st hP hv hb
          rw [hok] at hu
          split
          · trivial
          · rename_i s hrexn
            have hr := hrec st1 hu
            rw [hrexn] at hr
            exact hr
          · rename_i st2 hrok
            have hr := hrec st1 hu
            rw [hrok] at hr
            exact hr
          · rename_i st2 hrok
            have hr := hrec st1 hu
            rw [hrok] at hr
            split
            · trivial
            · rename_i s hmex
              have hm := hrem len st2 hr
              rw [hmex] at hm
              exact hm
            · rename_i u2 st3 hmok
              have hm := hrem len st2 hr
              rw [hmok] at hm
              exact ih st3 hm

theorem empLoop_inv (P : SchedState → Prop) (recur : SchedState → PyRes Bool)
    (role day : String) (reqs : EmployerRequirements) (sls : Int × Int)
    (start : Int) (elist : List Employee)
    (hrec : ∀ s, P s → resInv P (recur s))
    (hupd : ∀ e, e ∈ elist → ∀ len st, P st →
      is_valid_assignment e role day start len st.weekly st.daily reqs = some true →
      ¬ reqs.work_hours.2 < start + len →
      resInv P (update_schedule e role day start len st))
    (hrem : ∀ e, e ∈ elist → ∀ len st, P st →
      resInv P (remove_assignment e role day start len st)) :
    ∀ st, P st → resInv P (empLoop recur role day reqs sls start elist st) := by
  induction elist with
  | nil => intro st hP; exact hP
  | cons e rest ih =>
    intro st hP
    simp only [empLoop]
    have hl := lenLoop_inv P recur e role day reqs start hrec
      (hupd e (by simp)) (hrem e (by simp))
      (intRange sls.1 (sls.2 + 1)) st hP
    cases hres : lenLoop recur e role day reqs start (intRange sls.1 (sls.2 + 1)) st with
    | timeout => trivial
    | exn s => rw [hres] at hl; exact hl
    | ok ob st1 =>
      rw [hres] at hl
      cases ob with
      | some b => exact hl
      | none =>
        exact ih (fun e1 he1 => hupd e1 (by simp [he1])) (fun e1 he1 => hrem e1 (by simp [he1])) st1 hl

theorem slotLoop_inv (P : SchedState → Prop) (runEmp : SchedState → PyRes (Option Bool))
    (hE : ∀ s, P s → resInv P (runEmp s)) :
    ∀ n st, P st → resInv P (slotLoop runEmp n st) := by
  intro n st hP
  cases n with
  | zero => exact hP
  | succ n =>
    simp only [slotLoop]
    have h := hE st hP
    cases hres : runEmp st with
    | timeout => trivial
    | exn s => rw [hres] at h; exact h
    | ok ob st1 =>
      rw [hres] at h
      cases ob with
      | some b => exact h
      | none => exact h

theorem roleLoop_inv (P : SchedState → Prop) (recur : SchedState → PyRes Bool)
    (day : String) (reqs : EmployerRequirements) (sls : Int × Int)
    (available : List (String × List Employee)) (start : Int)
    (hrec : ∀ s, P s → resInv P (recur s))
    (hupd : ∀ (role : String) (e : Employee),
      e ∈ (alFind? available role).getD [] → ∀ len st, P st →
      is_valid_assignment e role day start len st.weekly st.daily reqs = some true →
      ¬ reqs.work_hours.2 < start + len →
      resInv P (update_schedule e role day start len st))
    (hrem : ∀ (role : String) (e : Employee),
      e ∈ (alFind? available role).getD [] → ∀ len st, P st →
      resInv P (remove_assignment e role day start len st)) :
    ∀ mins st, P st → resInv P (roleLoop recur day reqs sls available start mins st) := by
  intro mins
  induction mins with
  | nil => intro st hP; exact hP
  | cons rm rest ih =>
    intro st hP
    obtain ⟨role, required⟩ := rm
    cases hf : alFind? st.sched day with
    | none =>
      simp only [roleLoop, hf]
      exact hP
    | some dm =>
      simp only [roleLoop, hf]
      by_cases hskip : required ≤
          ((((alFind? ((alFind? dm start).getD []) role).getD []).length : Int))
      · rw [if_pos hskip]
        exact ih st hP
      · rw [if_neg hskip]
        have hs := slotLoop_inv P
          (fun s => empLoop recur role day reqs sls start ((alFind? available role).getD []) s)
          (fun s hPs => empLoop_inv P recur role day reqs sls start _
            hrec (fun e he => hupd role e he) (fun e he => hrem role e he) s hPs)
          ((required - (((alFind? ((alFind? dm start).getD []) role).getD []).length : Int)).toNat)
          st hP
        cases hres : slotLoop
            (fun s => empLoop recur role day reqs sls start ((alFind? available role).getD []) s)
            ((required - (((alFind? ((alFind? dm start).getD []) role).getD []).length : Int)).toNat)
            st with
        | timeout => trivial
        | exn s => rw [hres] at hs; exact hs
        | ok ob st1 =>
          rw [hres] at hs
          cases ob with
          | some b => exact hs
          | none => exact ih st1 hs

theorem hourLoop_inv (P : SchedState → Prop) (recur : SchedState → PyRes Bool)
    (day : String) (reqs : EmployerRequirements) (sls : Int × Int)
    (available : List (String × List Employee)) (hlist : List Int)
    (hrec : ∀ s, P s → resInv P (recur s))
    (hupd : ∀ (start : Int), start ∈ hlist → ∀ (role : String) (e : Employee),
      e ∈ (alFind? available role).getD [] → ∀ len st, P st →
      is_valid_assignment e role day start len st.weekly st.daily reqs = some true →
      ¬ reqs.work_hours.2 < start + len →
      resInv P (update_schedule e role day start len st))
    (hrem : ∀ (start : Int), start ∈ hlist → ∀ (role : String) (e : Employee),
      e ∈ (alFind? available role).getD [] → ∀ len st, P st →
      resInv P (remove_assignment e role day start len st)) :
    ∀ st, P st → resInv P (hourLoop recur day reqs sls available hlist st) := by
  induction hlist with
  | nil => intro st hP; exact hP
  | cons h0 rest ih =>
    intro st hP
    simp only [hourLoop]
    have hr := roleLoop_inv P recur day reqs sls available h0 hrec
      (hupd h0 (by simp)) (hrem h0 (by simp)) reqs.critical_minimums st hP
    cases hres : roleLoop recur day reqs sls available h0 reqs.critical_minimums st with
    | timeout => trivial
    | exn s => rw [hres] at hr; exact hr
    | ok ob st1 =>
      rw [hres] at hr
      cases ob with
      | some b => exact hr
      | none =>
        exact ih (fun s hsmem => hupd s (by simp [hsmem])) (fun s hsmem => hrem s (by simp [hsmem])) st1 hr

theorem checkAllDays_inv (P : SchedState → Prop) (reqs : EmployerRequirements) :
    ∀ (ds : List String) (st : SchedState), P st → resInv P (checkAllDays reqs ds st) := by
  intro ds
  induction ds with
  | nil => intro st hP; exact hP
  | cons d rest ih =>
    intro st hP
    simp only [checkAllDays]
    split
    · exact hP
    · exact hP
    · exact ih st hP

theorem solve_inv (P : SchedState → Prop) (days : List String) (hours : List Int)
    (sls : Int × Int) (employees : List Employee) (reqs : EmployerRequirements)
    (hupd : ∀ (e : Employee) (role day : String) (start len : Int) (st : SchedState),
      P st → day ∈ days → start ∈ hours → e ∈ employees → role ∈ e.roles →
      day ∉ e.days_off →
      is_valid_assignment e role day start len st.weekly st.daily reqs = some true →
      ¬ reqs.work_hours.2 < start + len →
      resInv P (update_schedule e role day start len st))
    (hrem : ∀ (e : Employee) (role day : String) (start len : Int) (st : SchedState),
      P st → resInv P (remove_assignment e role day start len st)) :
    ∀ fuel index st, P st →
      resInv P (solve_schedule days hours sls employees reqs fuel index st) := by
  intro fuel
  induction fuel with
  | zero => intro index st hP; trivial
  | succ fuel ih =>
    intro index st hP
    simp only [solve_schedule]
    split
    · exact checkAllDays_inv P reqs days st hP
    · split
      · exact hP
      · rename_i hne day hday
        have hmem : day ∈ days := by
          have := List.getElem?_eq_some.mp hday
          obtain ⟨hlt, hget⟩ := this
          rw [← hget]
          exact List.getElem_mem _
        have hh := hourLoop_inv P
          (fun s => solve_schedule days hours sls employees reqs fuel index s)
          day reqs sls (buildAvailable employees reqs day)
          (stableSortBy (fun x => x) hours)
          (fun s hPs => ih index s hPs)
          (fun start hstart role e he len st0 hP0 hv hb =>
            hupd e role day start len st0 hP0 hmem
              ((stableSortBy_perm (fun x => x) hours).mem_iff.mp hstart)
              (buildAvailable_mem employees reqs day role e he).1
              (buildAvailable_mem employees reqs day role e he).2.1
              (buildAvailable_mem employees reqs day role e he).2.2 hv hb)
          (fun start hstart role e he len st0 hP0 => hrem e role day start len st0 hP0)
          st hP
        split
        · rename_i b st1 hok
          rw [hok] at hh
          exact hh
        · rename_i st1 hnone
          rw [hnone] at hh
          split
          · exact hh
          · exact hh
          · exact ih (index + 1) st1 hh
        · rename_i s hexn
          rw [hexn] at hh
          exact hh
        · trivial

theorem hourLoopB_inv (P : SchedState → Prop) (e : Employee)
    (reqs : EmployerRequirements) (day : String) :
    ∀ (hs : List Int),
      (∀ start ∈ hs, ∀ st, P st →
        is_valid_assignment e "Floater" day start reqs.shift_lengths.1
          st.weekly st.daily reqs = some true →
        resInv P (update_schedule e "Floater" day start reqs.shift_lengths.1 st)) →
      ∀ (req : Int) (st : SchedState), P st → resInv P (hourLoopB e reqs day hs req st) := by
  intro hs
  induction hs with
  | nil => intro _ req st hP; exact hP
  | cons h0 rest ih =>
    intro hupd req st hP
    simp only [hourLoopB]
    split
    · exact hP
    · split
      · exact hP
      · exact ih (fun s hsm => hupd s (by simp [hsm])) req st hP
      · rename_i hreq hv
        have hu := hupd h0 (by simp) st hP hv
        split
        · rename_i u st1 hok
          rw [hok] at hu
          exact ih (fun s hsm => hupd s (by simp [hsm])) (req - reqs.shift_lengths.1) st1 hu
        · rename_i s hexn
          rw [hexn] at hu
          exact hu
        · trivial

theorem dayLoopB_inv (P : SchedState → Prop) (e : Employee)
    (reqs : EmployerRequirements) :
    ∀ (ds : List String),
      (∀ d ∈ ds, d ∉ e.days_off →
        ∀ start ∈ intRange reqs.work_hours.1 reqs.work_hours.2, ∀ st, P st →
        is_valid_assignment e "Floater" d start reqs.shift_lengths.1
          st.weekly st.daily reqs = some true →
        resInv P (update_schedule e "Floater" d start reqs.shift_lengths.1 st)) →
      ∀ (req : Int) (st : SchedState), P st → resInv P (dayLoopB e reqs ds req st) := by
  intro ds
  induction ds with
  | nil => intro _ req st hP; exact hP
  | cons d rest ih =>
    intro hupd req st hP
    simp only [dayLoopB]
    split
    · exact hP
    · split
      · exact ih (fun d1 hd1 => hupd d1 (by simp [hd1])) req st hP
      · rename_i hreq hskip
        have hoff : d ∉ e.days_off := fun hc => hskip (Or.inl hc)
        have hh := hourLoopB_inv P e reqs d (intRange reqs.work_hours.1 reqs.work_hours.2)
          (fun start hst st0 hP0 hv => hupd d (by simp) hoff start hst st0 hP0 hv) req st hP
        split
        · rename_i req1 st1 hok
          rw [hok] at hh
          exact ih (fun d1 hd1 => hupd d1 (by simp [hd1])) req1 st1 hh
        · rename_i s hexn
          rw [hexn] at hh
          exact hh
        · trivial

theorem underMin_subset (weekly : List (String × Int)) :
    ∀ (l um : List Employee), underMin weekly l = some um → ∀ e ∈ um, e ∈ l := by
  intro l
  induction l with
  | nil =>
    intro um h e he
    simp only [underMin, Option.some.injEq] at h
    rw [← h] at he
    cases he
  | cons e0 rest ih =>
    intro um h e he
    simp only [underMin] at h
    split at h
    · cases h
    · rename_i w hw
      split at h
      · cases h
      · rename_i l1 hl1
        simp only [Option.some.injEq] at h
        rw [← h] at he
        by_cases hcase : w < e0.min_hours
        · rw [if_pos hcase] at he
          rcases List.mem_cons.mp he with rfl | hrest
          · exact List.mem_cons_self _ _
          · exact List.mem_cons_of_mem _ (ih l1 hl1 e hrest)
        · rw [if_neg hcase] at he
          exact List.mem_cons_of_mem _ (ih l1 hl1 e he)

theorem empLoopB_inv (P : SchedState → Prop) (reqs : EmployerRequirements)
    (sorted_days : List String) :
    ∀ (um : List Employee),
      (∀ e ∈ um, ∀ d ∈ sorted_days, d ∉ e.days_off →
        ∀ start ∈ intRange reqs.work_hours.1 reqs.work_hours.2, ∀ st, P st →
        is_valid_assignment e "Floater" d start reqs.shift_lengths.1
          st.weekly st.daily reqs = some true →
        resInv P (update_schedule e "Floater" d start reqs.shift_lengths.1 st)) →
      ∀ (st : SchedState), P st → resInv P (empLoopB reqs sorted_days um st) := by
  intro um
  induction um with
  | nil => intro _ st hP; exact hP
  | cons e rest ih =>
    intro hupd st hP
    simp only [empLoopB]
    split
    · exact hP
    · rename_i w hw
      have hd := dayLoopB_inv P e reqs sorted_days
        (fun d hdm => hupd e (by simp) d hdm) (e.min_hours - w) st hP
      split
      · rename_i u st1 hok
        rw [hok] at hd
        exact ih (fun e1 he1 => hupd e1 (by simp [he1])) st1 hd
      · rename_i s hexn
        rw [hexn] at hd
        exact hd
      · trivial

theorem assign_extra_inv (P : SchedState → Prop) (employees : List Employee)
    (reqs : EmployerRequirements) (st : SchedState)
    (hupd : ∀ e ∈ employees, ∀ d ∈ sortedDaysOf st.sched, d ∉ e.days_off →
      ∀ start ∈ intRange reqs.work_hours.1 reqs.work_hours.2, ∀ st0, P st0 →
      is_valid_assignment e "Floater" d start reqs.shift_lengths.1
        st0.weekly st0.daily reqs = some true →
      resInv P (update_schedule e "Floater" d start reqs.shift_lengths.1 st0))
    (hP : P st) : resInv P (assign_extra_shifts employees reqs st) := by
  simp only [assign_extra_shifts]
  split
  · exact hP
  · rename_i um hum
    exact empLoopB_inv P reqs (sortedDaysOf st.sched) um
      (fun e he => hupd e (underMin_subset st.weekly employees um hum e he)) st hP

theorem is_valid_true_inv (e : Employee) (role day : String) (start len : Int)
    (weekly : List (String × Int)) (daily : List (String × List String))
    (reqs : EmployerRequirements)
    (h : is_valid_assignment e role day start len weekly daily reqs = some true) :
    ∃ w, alFind? weekly e.name = some w ∧
      ¬ e.max_hours < w + len ∧
      day ∉ (alFind? daily e.name).getD [] ∧
      day ∉ e.days_off ∧
      ¬ start < e.availability.1 ∧
      start + len ≤ reqs.work_hours.2 ∧
      start + len ≤ e.availability.2 := by
  simp only [is_valid_assignment, is_valid_reason] at h
  split at h
  · cases h
  · rename_i w hw
    refine ⟨w, hw, ?_⟩
    split_ifs at h with h1 h2 h3 h4
    · simp at h
    · simp at h
    · simp at h
    · simp at h
    · push_neg at h4
      exact ⟨h1, h2, h3, not_lt.mpr h4.1, h4.2.1, h4.2.2⟩

/-- The one-shift-per-day bookkeeping invariant: no employee name maps to a
daily_shifts list containing the same day twice. -/
def DailyNodup (st : SchedState) : Prop :=
  ∀ name, (dailyGetD st name).Nodup

theorem removeFirst_sublist {α : Type} [DecidableEq α] (l : List α) (x : α) :
    List.Sublist (removeFirst l x) l := by
  induction l with
  | nil => simp [removeFirst]
  | cons y rest ih =>
    by_cases h : y = x
    · simp only [removeFirst, h, if_true]
      exact List.sublist_cons_self _ _
    · simp only [removeFirst, h, if_false]
      exact List.Sublist.cons₂ y ih

theorem update_dailyNodup (e : Employee) (role day : String) (start len : Int)
    (st : SchedState) (hP : DailyNodup st)
    (hday : day ∉ (alFind? st.daily e.name).getD []) :
    resInv DailyNodup (update_schedule e role day start len st) := by
  have hdaily : ∀ (stx : SchedState),
      stx.daily = alSet st.daily e.name (((alFind? st.daily e.name).getD []) ++ [day]) →
      DailyNodup stx := by
    intro stx hst name
    by_cases hn : name = e.name
    · subst hn
      simp only [dailyGetD, hst, alFind?_alSet_self, Option.getD_some]
      rw [List.nodup_append]
      refine ⟨hP e.name, List.nodup_singleton day, ?_⟩
      intro a ha hb
      rw [List.mem_singleton] at hb
      subst hb
      exact hday (by simpa [dailyGetD] using ha)
    · have := hP name
      simpa [dailyGetD, hst, alFind?_alSet_ne _ _ _ _ hn] using this
  cases hres : update_schedule e role day start len st with
  | timeout => trivial
  | exn s =>
    rcases update_exn_inv e role day start len st s hres with rfl | ⟨dm, hf, rfl⟩ | ⟨w, hw, hcase⟩
    · exact hP
    · exact hP
    · rcases hcase with rfl | ⟨dm, hf, rfl⟩
      · exact hdaily _ rfl
      · exact hdaily _ rfl
  | ok u st1 =>
    obtain ⟨w, hw, hcase⟩ := update_ok_inv e role day start len st st1 hres
    rcases hcase with ⟨hemp, hst1⟩ | ⟨dm, hf, hst1⟩
    · exact hdaily st1 (by rw [hst1])
    · exact hdaily st1 (by rw [hst1])

theorem remove_dailyNodup (e : Employee) (role day : String) (start len : Int)
    (st : SchedState) (hP : DailyNodup st) :
    resInv DailyNodup (remove_assignment e role day start len st) := by
  rcases remLoop_shape e role day (intRange start (start + len)) st with ⟨sc, hr⟩ | ⟨sc, hr⟩
  · simp only [remove_assignment, hr]
    intro name
    exact hP name
  · simp only [remove_assignment, hr]
    split
    · exact fun name => hP name
    · rename_i w hw
      split
      · exact fun name => hP name
      · rename_i ds hd
        split
        · rename_i hin
          intro name
          by_cases hn : name = e.name
          · subst hn
            simp only [dailyGetD, alFind?_alSet_self, Option.getD_some]
            refine List.Nodup.sublist (removeFirst_sublist ds day) ?_
            have := hP e.name
            simpa [dailyGetD, hd] using this
          · have := hP name
            simpa [dailyGetD, alFind?_alSet_ne _ _ _ _ hn] using this
        · exact fun name => hP name

theorem solve_dailyNodup (days : List String) (hours : List Int) (sls : Int × Int)
    (employees : List Employee) (reqs : EmployerRequirements)
    (fuel index : Nat) (st : SchedState) (hP : DailyNodup st) :
    resInv DailyNodup (solve_schedule days hours sls employees reqs fuel index st) := by
  refine solve_inv DailyNodup days hours sls employees reqs ?_ ?_ fuel index st hP
  · intro e role day start len st0 hP0 _ _ _ _ _ hv _
    obtain ⟨w, hw, hmax, hday, hrest⟩ :=
      is_valid_true_inv e role day start len st0.weekly st0.daily reqs hv
    exact update_dailyNodup e role day start len st0 hP0 hday
  · intro e role day start len st0 hP0
    exact remove_dailyNodup e role day start len st0 hP0

theorem assign_dailyNodup (employees : List Employee) (reqs : EmployerRequirements)
    (st : SchedState) (hP : DailyNodup st) :
    resInv DailyNodup (assign_extra_shifts employees reqs st) := by
  refine assign_extra_inv DailyNodup employees reqs st ?_ hP
  intro e he d hd hoff start hst st0 hP0 hv
  obtain ⟨w, hw, hmax, hday, hrest⟩ :=
    is_valid_true_inv e "Floater" d start reqs.shift_lengths.1 st0.weekly st0.daily reqs hv
  exact update_dailyNodup e "Floater" d start reqs.shift_lengths.1 st0 hP0 hday

/-- Claim C6: one shift per employee per day.  (1) A candidate assignment on
a day already listed in daily_shifts[employee.name] is rejected by
is_valid_assignment (given the weekly key exists, which the checker reads
first); (2) the solver and (3) the balancer preserve, in every state their
results carry (normal or exceptional), the invariant that no daily_shifts
list contains the same day twice; (4) hence the final state of every
normally returning schedule_shifts run satisfies it. -/
theorem C6_one_shift_per_day :
    (∀ (e : Employee) (role day : String) (start len : Int)
      (weekly : List (String × Int)) (daily : List (String × List String))
      (reqs : EmployerRequirements) (w : Int),
      alFind? weekly e.name = some w →
      day ∈ (alFind? daily e.name).getD [] →
      is_valid_assignment e role day start len weekly daily reqs = some false) ∧
    (∀ (days : List String) (hours : List Int) (sls : Int × Int)
      (employees : List Employee) (reqs : EmployerRequirements)
      (fuel index : Nat) (st : SchedState), DailyNodup st →
      resInv DailyNodup (solve_schedule days hours sls employees reqs fuel index st)) ∧
    (∀ (employees : List Employee) (reqs : EmployerRequirements) (st : SchedState),
      DailyNodup st → resInv DailyNodup (assign_extra_shifts employees reqs st)) ∧
    (∀ (employees : List Employee) (reqs : EmployerRequirements) (fuel : Nat)
      (res : Option ShiftSchedule) (stf : SchedState),
      schedule_shifts employees reqs fuel = .ok res stf → DailyNodup stf) := by
  refine ⟨?_, ?_, ?_, ?_⟩
  · intro e role day start len weekly daily reqs w hw hday
    simp only [is_valid_assignment, is_valid_reason, hw]
    split_ifs <;> simp_all
  · exact solve_dailyNodup
  · exact assign_dailyNodup
  · intro employees reqs fuel res stf hrun
    have hinit : DailyNodup (initState employees reqs) := by
      intro name
      simp [dailyGetD, initState, alFind?]
    simp only [schedule_shifts] at hrun
    split at hrun
    · rename_i st1 hsol
      split at hrun
      · rename_i u st2 hbal
        injection hrun with h1 h2
        have hs := solve_dailyNodup sevenDays
          (intRange reqs.work_hours.1 reqs.work_hours.2) reqs.shift_lengths
          employees reqs fuel 0 (initState employees reqs) hinit
        rw [hsol] at hs
        have hb := assign_dailyNodup employees reqs st1 hs
        rw [hbal] at hb
        rw [← h2]
        exact hb
      · cases hrun
      · cases hrun
    · rename_i st1 hsol
      injection hrun with h1 h2
      have hs := solve_dailyNodup sevenDays
        (intRange reqs.work_hours.1 reqs.work_hours.2) reqs.shift_lengths
        employees reqs fuel 0 (initState employees reqs) hinit
      rw [hsol] at hs
      rw [← h2]
      exact hs
    · cases hrun
    · cases hrun

/-- Fixture: the employee list of the concrete end-to-end run used by
witnesses. -/
def wEmps : List Employee := [empA, empB]

/-- A concrete end-to-end run: one critical Cashier, one open hour, empA
staffs it every day, the balancer gives empB one Floater hour. -/
def wRun : PyRes (Option ShiftSchedule) := schedule_shifts wEmps reqsA 40

/-- The schedule of the concrete run. -/
def wSched : ShiftSchedule :=
  match wRun with
  | .ok (some s) _ => s
  | _ => []

/-- The final state of the concrete run. -/
def wStf : SchedState :=
  match wRun with
  | .ok _ s => s
  | _ => initState wEmps reqsA

/-- Witness for C6: applying part 4 to the concrete run shows empA's final
daily_shifts list has no repeated day. -/
theorem C6_witness : (dailyGetD wStf "A").Nodup :=
  C6_one_shift_per_day.2.2.2 wEmps reqsA 40 (some wSched) wStf (by rfl) "A"

theorem resInv_imp {α : Type} {P Q : SchedState → Prop} (h : ∀ s, Q s → P s)
    {r : PyRes α} (hr : resInv Q r) : resInv P r := by
  cases r with
  | timeout => trivial
  | exn s => exact h s hr
  | ok a s => exact h s hr

theorem update_keys (e : Employee) (role day : String) (start len : Int)
    (st : SchedState) :
    resInv (fun s => alKeys s.sched = alKeys st.sched)
      (update_schedule e role day start len st) := by
  cases hres : update_schedule e role day start len st with
  | timeout => trivial
  | exn s =>
    rcases update_exn_inv e role day start len st s hres with rfl | ⟨dm, hf, rfl⟩ | ⟨w, hw, hcase⟩
    · rfl
    · exact alKeys_alSet_of_contains _ _ _ (alContains_of_find hf)
    · rcases hcase with rfl | ⟨dm, hf, rfl⟩
      · rfl
      · exact alKeys_alSet_of_contains _ _ _ (alContains_of_find hf)
  | ok u st1 =>
    obtain ⟨w, hw, hcase⟩ := update_ok_inv e role day start len st st1 hres
    rcases hcase with ⟨hemp, hst1⟩ | ⟨dm, hf, hst1⟩
    · rw [hst1]
      rfl
    · rw [hst1]
      exact alKeys_alSet_of_contains _ _ _ (alContains_of_find hf)

theorem remCell_keys (e : Employee) (role day : String) (h : Int) (st : SchedState) :
    resInv (fun s => alKeys s.sched = alKeys st.sched) (remCell e role day h st) := by
  cases hf : alFind? st.sched day with
  | none => simp only [remCell, hf]; rfl
  | some dm =>
    cases hh : alFind? dm h with
    | none => simp only [remCell, hf, hh]; rfl
    | some hm =>
      cases hr : alFind? hm role with
      | none => simp only [remCell, hf, hh, hr]; rfl
      | some cell =>
        by_cases hmem : e ∈ cell
        · simp only [remCell, hf, hh, hr, hmem, if_true]
          exact alKeys_alSet_of_contains _ _ _ (alContains_of_find hf)
        · simp only [remCell, hf, hh, hr, hmem, if_false]
          rfl

theorem remLoop_keys (e : Employee) (role day : String) (hs : List Int)
    (st : SchedState) :
    resInv (fun s => alKeys s.sched = alKeys st.sched) (remLoop e role day hs st) := by
  induction hs generalizing st with
  | nil => rfl
  | cons h rest ih =>
    simp only [remLoop]
    have hc := remCell_keys e role day h st
    cases hres : remCell e role day h st with
    | timeout => trivial
    | exn s => rw [hres] at hc; exact hc
    | ok u st1 =>
      rw [hres] at hc
      exact resInv_imp (fun s hQ => hQ.trans hc) (ih st1)

theorem remove_keys (e : Employee) (role day : String) (start len : Int)
    (st : SchedState) :
    resInv (fun s => alKeys s.sched = alKeys st.sched)
      (remove_assignment e role day start len st) := by
  have hl := remLoop_keys e role day (intRange start (start + len)) st
  cases hres : remLoop e role day (intRange start (start + len)) st with
  | timeout => simp only [remove_assignment, hres]; trivial
  | exn s =>
    simp only [remove_assignment, hres]
    rw [hres] at hl
    exact hl
  | ok u st1 =>
    rw [hres] at hl
    simp only [remove_assignment, hres]
    split
    · exact hl
    · split
      · exact hl
      · split
        · exact hl
        · exact hl

theorem alKeys_initSchedule (days : List String) (hours : List Int) :
    alKeys (initSchedule days hours) = days := by
  induction days with
  | nil => rfl
  | cons d rest ih =>
    simp only [initSchedule, alKeys, List.map_cons] at ih ⊢
    exact congrArg (List.cons d) ih

theorem solve_keys (days : List String) (hours : List Int) (sls : Int × Int)
    (employees : List Employee) (reqs : EmployerRequirements)
    (fuel index : Nat) (st : SchedState) (K : List String) (hK : alKeys st.sched = K) :
    resInv (fun s => alKeys s.sched = K)
      (solve_schedule days hours sls employees reqs fuel index st) := by
  refine solve_inv (fun s => alKeys s.sched = K) days hours sls employees reqs ?_ ?_
    fuel index st hK
  · intro e role day start len st0 hP0 _ _ _ _ _ _ _
    exact resInv_imp (fun s hQ => hQ.trans hP0) (update_keys e role day start len st0)
  · intro e role day start len st0 hP0
    exact resInv_imp (fun s hQ => hQ.trans hP0) (remove_keys e role day start len st0)

theorem assign_keys (employees : List Employee) (reqs : EmployerRequirements)
    (st : SchedState) (K : List String) (hK : alKeys st.sched = K) :
    resInv (fun s => alKeys s.sched = K) (assign_extra_shifts employees reqs st) := by
  refine assign_extra_inv (fun s => alKeys s.sched = K) employees reqs st ?_ hK
  intro e he d hd hoff start hst st0 hP0 hv
  exact resInv_imp (fun s hQ => hQ.trans hP0)
    (update_keys e "Floater" d start reqs.shift_lengths.1 st0)

/-- Claim C7: a normally returning schedule_shifts run yields none exactly
when the solver returned False from day index 0 on the freshly initialised
state, and on success it yields the populated schedule of the final state,
which always carries the seven day keys and is in particular non-empty
(truthy), so the caller can distinguish the failure signal from a schedule
that merely has no assignments. -/
theorem C7_failure_signal (employees : List Employee) (reqs : EmployerRequirements)
    (fuel : Nat) (res : Option ShiftSchedule) (stf : SchedState)
    (hrun : schedule_shifts employees reqs fuel = .ok res stf) :
    (res = none ↔
      solve_schedule sevenDays (intRange reqs.work_hours.1 reqs.work_hours.2)
        reqs.shift_lengths employees reqs fuel 0 (initState employees reqs) =
        .ok false stf) ∧
    (∀ s, res = some s → s = stf.sched ∧ alKeys s = sevenDays ∧ s ≠ []) := by
  have hinitK : alKeys (initState employees reqs).sched = sevenDays :=
    alKeys_initSchedule _ _
  simp only [schedule_shifts] at hrun
  split at hrun
  · rename_i st1 hsol
    have hk1 := solve_keys sevenDays (intRange reqs.work_hours.1 reqs.work_hours.2)
      reqs.shift_lengths employees reqs fuel 0 (initState employees reqs) sevenDays hinitK
    rw [hsol] at hk1
    split at hrun
    · rename_i u st2 hbal
      have hk2 := assign_keys employees reqs st1 sevenDays hk1
      rw [hbal] at hk2
      have hk2a : alKeys st2.sched = sevenDays := hk2
      have hne : st2.sched ≠ [] := by
        intro hc
        rw [hc] at hk2a
        exact (by decide : ¬ (([] : List String) = sevenDays)) hk2a
      have hemp : st2.sched.isEmpty = false := by
        cases hsc : st2.sched with
        | nil => exact absurd hsc hne
        | cons p rest => rfl
      rw [hemp] at hrun
      simp only [Bool.false_eq_true, if_false] at hrun
      injection hrun with h1 h2
      constructor
      · constructor
        · intro hc
          rw [← h1] at hc
          cases hc
        · intro hc
          rw [hsol] at hc
          injection hc with hb hs
          cases hb
      · intro s hs
        rw [← h1] at hs
        injection hs with hs1
        rw [← hs1, ← h2]
        exact ⟨rfl, hk2a, hne⟩
    · cases hrun
    · cases hrun
  · rename_i st1 hsol
    injection hrun with h1 h2
    constructor
    · constructor
      · intro _
        rw [h2] at hsol
        exact hsol
      · intro _
        exact h1.symm
    · intro s hs
      rw [← h1] at hs
      cases hs
  · cases hrun
  · cases hrun

/-- Witness for C7 at the concrete successful run: the returned schedule is
the final state's schedule, carries the seven days, and is non-empty. -/
theorem C7_witness : wSched = wStf.sched ∧ alKeys wSched = sevenDays ∧ wSched ≠ [] :=
  (C7_failure_signal wEmps reqsA 40 (some wSched) wStf (by rfl)).2 wSched rfl

theorem alContains_iff_mem_keys {α β : Type} [DecidableEq α] (m : List (α × β)) (k : α) :
    alContains m k = true ↔ k ∈ alKeys m := by
  induction m with
  | nil => simp [alContains, alFind?, alKeys]
  | cons p rest ih =>
    obtain ⟨k0, v0⟩ := p
    by_cases h0 : k0 = k
    · simp [alContains, alFind?, alKeys, h0]
    · simp only [alContains, alFind?, h0, if_false, alKeys, List.map_cons, List.mem_cons]
      rw [← alKeys]
      constructor
      · intro h
        exact Or.inr ((ih).mp h)
      · rintro (h | h)
        · exact absurd h.symm h0
        · exact ih.mpr h

theorem alKeys_alSet_not_contains {α β : Type} [DecidableEq α] (m : List (α × β))
    (k : α) (v : β) (h : alContains m k = false) :
    alKeys (alSet m k v) = alKeys m ++ [k] := by
  induction m with
  | nil => simp [alSet, alKeys]
  | cons p rest ih =>
    obtain ⟨k0, v0⟩ := p
    by_cases h0 : k0 = k
    · simp [alContains, alFind?, h0] at h
    · simp only [alContains, alFind?, h0, if_false] at h
      simp only [alSet, h0, if_false, alKeys, List.map_cons, List.cons_append]
      exact congrArg (List.cons k0) (ih h)

theorem nodupKeys_alSet {α β : Type} [DecidableEq α] (m : List (α × β)) (k : α) (v : β)
    (h : (alKeys m).Nodup) : (alKeys (alSet m k v)).Nodup := by
  cases hc : alContains m k with
  | true => rw [alKeys_alSet_of_contains _ _ _ hc]; exact h
  | false =>
    rw [alKeys_alSet_not_contains _ _ _ hc]
    rw [List.nodup_append]
    refine ⟨h, List.nodup_singleton k, ?_⟩
    intro a ha hb
    rw [List.mem_singleton] at hb
    subst hb
    rw [← alContains_iff_mem_keys] at ha
    rw [hc] at ha
    cases ha

theorem alKeys_alErase_sublist {α β : Type} [DecidableEq α] (m : List (α × β)) (k : α) :
    List.Sublist (alKeys (alErase m k)) (alKeys m) := by
  induction m with
  | nil => simp [alErase, alKeys]
  | cons p rest ih =>
    obtain ⟨k0, v0⟩ := p
    by_cases h0 : k0 = k
    · simp only [alErase, h0, if_true, alKeys, List.map_cons]
      exact List.sublist_cons_self _ _
    · simp only [alErase, h0, if_false, alKeys, List.map_cons]
      exact List.Sublist.cons₂ k0 ih

theorem nodupKeys_alErase {α β : Type} [DecidableEq α] (m : List (α × β)) (k : α)
    (h : (alKeys m).Nodup) : (alKeys (alErase m k)).Nodup :=
  List.Nodup.sublist (alKeys_alErase_sublist m k) h

theorem alFind?_alErase_ne {α β : Type} [DecidableEq α] (m : List (α × β)) (k k1 : α)
    (hne : k1 ≠ k) : alFind? (alErase m k) k1 = alFind? m k1 := by
  induction m with
  | nil => rfl
  | cons p rest ih =>
    obtain ⟨k0, v0⟩ := p
    by_cases h0 : k0 = k
    · subst h0
      simp [alErase, alFind?, Ne.symm hne]
    · simp [alErase, alFind?, h0, ih]

theorem alFind?_alErase_self {α β : Type} [DecidableEq α] (m : List (α × β)) (k : α)
    (h : (alKeys m).Nodup) : alFind? (alErase m k) k = none := by
  induction m with
  | nil => rfl
  | cons p rest ih =>
    obtain ⟨k0, v0⟩ := p
    simp only [alKeys, List.map_cons, List.nodup_cons] at h
    by_cases h0 : k0 = k
    · subst h0
      simp only [alErase, if_true]
      cases hf : alFind? rest k0 with
      | none => rfl
      | some v1 =>
        exfalso
        have : k0 ∈ alKeys rest := by
          rw [← alContains_iff_mem_keys]
          simp [alContains, hf]
        exact h.1 (by simpa [alKeys] using this)
    · simp only [alErase, h0, if_false, alFind?, h0]
      exact ih h.2

/-- Legality of one recorded entry, as claim C5 reads on the code: the role
is one the employee holds or the balancer's Floater label, the day is not
one of the employee's days off, and the hour lies in the store window. -/
def EntryOK (reqs : EmployerRequirements) (d : String) (h : Int) (r : String)
    (x : Employee) : Prop :=
  (r ∈ x.roles ∨ r = "Floater") ∧ d ∉ x.days_off ∧
  reqs.work_hours.1 ≤ h ∧ h < reqs.work_hours.2

/-- Every entry of the schedule is legal. -/
def SchedEntriesOK (reqs : EmployerRequirements) (sched : ShiftSchedule) : Prop :=
  ∀ d h r x, x ∈ cellGet sched d h r → EntryOK reqs d h r x

/-- No role dict of the schedule repeats a key (schedules built by the
program have this since role keys are created by dict assignment and
deleted whole). -/
def RoleNodup (sched : ShiftSchedule) : Prop :=
  ∀ d dm, alFind? sched d = some dm → ∀ h hm, alFind? dm h = some hm →
    (alKeys hm).Nodup

/-- The combined invariant used for claim C5. -/
def C5Inv (reqs : EmployerRequirements) (st : SchedState) : Prop :=
  SchedEntriesOK reqs st.sched ∧ RoleNodup st.sched

theorem resInv_and {α : Type} {P Q : SchedState → Prop} {r : PyRes α}
    (hp : resInv P r) (hq : resInv Q r) : resInv (fun s => P s ∧ Q s) r := by
  cases r with
  | timeout => trivial
  | exn s => exact ⟨hp, hq⟩
  | ok a s => exact ⟨hp, hq⟩

theorem rmGet_updHmap_mem (e : Employee) (role : String) (hs : List Int)
    (dm : HourMap) (h : Int) (r : String) (x : Employee)
    (hx : x ∈ rmGet (updHmap e role hs dm) h r) :
    x ∈ rmGet dm h r ∨ (x = e ∧ r = role ∧ h ∈ hs) := by
  induction hs generalizing dm with
  | nil => exact Or.inl hx
  | cons h0 rest ih =>
    simp only [updHmap] at hx
    rcases ih _ hx with hin | ⟨hxe, hrr, hhs⟩
    · rw [rmGet_updCellH] at hin
      rcases List.mem_append.mp hin with h1 | h2
      · exact Or.inl h1
      · by_cases hc : h = h0 ∧ r = role
        · rw [if_pos hc] at h2
          rw [List.mem_singleton] at h2
          exact Or.inr ⟨h2, hc.2, by simp [hc.1]⟩
        · rw [if_neg hc] at h2
          cases h2
    · exact Or.inr ⟨hxe, hrr, by simp [hhs]⟩

theorem cellGet_alSet_self (s : ShiftSchedule) (d : String) (dm : HourMap)
    (h : Int) (r : String) : cellGet (alSet s d dm) d h r = rmGet dm h r := by
  simp [cellGet, rmGet, alFind?_alSet_self]

theorem cellGet_alSet_ne (s : ShiftSchedule) (d d1 : String) (dm : HourMap)
    (h : Int) (r : String) (hne : d1 ≠ d) :
    cellGet (alSet s d dm) d1 h r = cellGet s d1 h r := by
  simp [cellGet, alFind?_alSet_ne _ _ _ _ hne]

theorem cellGet_of_find (s : ShiftSchedule) (d : String) (dm : HourMap)
    (h : Int) (r : String) (hf : alFind? s d = some dm) :
    cellGet s d h r = rmGet dm h r := by
  simp [cellGet, rmGet, hf]

theorem update_cells_mem (e : Employee) (role day : String) (start len : Int)
    (st : SchedState) :
    resInv (fun s1 => ∀ d h r x, x ∈ cellGet s1.sched d h r →
      x ∈ cellGet st.sched d h r ∨
      (x = e ∧ d = day ∧ r = role ∧ start ≤ h ∧ h < start + len))
      (update_schedule e role day start len st) := by
  have key : ∀ (dm : HourMap), alFind? st.sched day = some dm →
      ∀ d h r x,
        x ∈ cellGet (alSet st.sched day (updHmap e role (intRange start (start + len)) dm)) d h r →
        x ∈ cellGet st.sched d h r ∨
        (x = e ∧ d = day ∧ r = role ∧ start ≤ h ∧ h < start + len) := by
    intro dm hf d h r x hx
    by_cases hd : d = day
    · subst hd
      rw [cellGet_alSet_self] at hx
      rcases rmGet_updHmap_mem e role _ dm h r x hx with hin | ⟨hxe, hrr, hhs⟩
      · rw [cellGet_of_find st.sched d dm h r hf]
        exact Or.inl hin
      · rw [mem_intRange] at hhs
        exact Or.inr ⟨hxe, rfl, hrr, by omega, by omega⟩
    · rw [cellGet_alSet_ne _ _ _ _ _ _ hd] at hx
      exact Or.inl hx
  cases hres : update_schedule e role day start len st with
  | timeout => trivial
  | exn s =>
    rcases update_exn_inv e role day start len st s hres with rfl | ⟨dm, hf, rfl⟩ | ⟨w, hw, hcase⟩
    · exact fun d h r x hx => Or.inl hx
    · exact key dm hf
    · rcases hcase with rfl | ⟨dm, hf, rfl⟩
      · exact fun d h r x hx => Or.inl hx
      · exact key dm hf
  | ok u st1 =>
    obtain ⟨w, hw, hcase⟩ := update_ok_inv e role day start len st st1 hres
    rcases hcase with ⟨hemp, hst1⟩ | ⟨dm, hf, hst1⟩
    · rw [hst1]
      exact fun d h r x hx => Or.inl hx
    · rw [hst1]
      exact key dm hf

theorem roleNodup_updCellH (e : Employee) (role : String) (h0 : Int) (dm : HourMap)
    (hd : ∀ h hm, alFind? dm h = some hm → (alKeys hm).Nodup) :
    ∀ h hm, alFind? (updCellH e role h0 dm) h = some hm → (alKeys hm).Nodup := by
  intro h hm hfind
  unfold updCellH at hfind
  by_cases hh : h = h0
  · subst hh
    rw [alFind?_alSet_self] at hfind
    injection hfind with h1
    rw [← h1]
    refine nodupKeys_alSet _ _ _ ?_
    cases hdm : alFind? dm h with
    | none => simp [alKeys]
    | some hm0 => simpa using hd h hm0 hdm
  · rw [alFind?_alSet_ne _ _ _ _ hh] at hfind
    exact hd h hm hfind

theorem roleNodup_updHmap (e : Employee) (role : String) (hs : List Int) (dm : HourMap)
    (hd : ∀ h hm, alFind? dm h = some hm → (alKeys hm).Nodup) :
    ∀ h hm, alFind? (updHmap e role hs dm) h = some hm → (alKeys hm).Nodup := by
  induction hs generalizing dm with
  | nil => exact hd
  | cons h0 rest ih =>
    simp only [updHmap]
    exact ih _ (roleNodup_updCellH e role h0 dm hd)

theorem update_roleNodup (e : Employee) (role day : String) (start len : Int)
    (st : SchedState) (hP : RoleNodup st.sched) :
    resInv (fun s => RoleNodup s.sched) (update_schedule e role day start len st) := by
  have key : ∀ (dm : HourMap), alFind? st.sched day = some dm →
      RoleNodup (alSet st.sched day (updHmap e role (intRange start (start + len)) dm)) := by
    intro dm hf d dm1 hfind
    by_cases hd : d = day
    · subst hd
      rw [alFind?_alSet_self] at hfind
      injection hfind with h1
      rw [← h1]
      exact roleNodup_updHmap e role _ dm (hP d dm hf)
    · rw [alFind?_alSet_ne _ _ _ _ hd] at hfind
      exact hP d dm1 hfind
  cases hres : update_schedule e role day start len st with
  | timeout => trivial
  | exn s =>
    rcases update_exn_inv e role day start len st s hres with rfl | ⟨dm, hf, rfl⟩ | ⟨w, hw, hcase⟩
    · exact hP
    · exact key dm hf
    · rcases hcase with rfl | ⟨dm, hf, rfl⟩
      · exact hP
      · exact key dm hf
  | ok u st1 =>
    obtain ⟨w, hw, hcase⟩ := update_ok_inv e role day start len st st1 hres
    rcases hcase with ⟨hemp, hst1⟩ | ⟨dm, hf, hst1⟩
    · rw [hst1]
      exact hP
    · rw [hst1]
      exact key dm hf

theorem remCell_result (e : Employee) (role day : String) (h0 : Int) (st : SchedState)
    (hRN : RoleNodup st.sched) :
    resInv (fun s1 => (∀ d h r x, x ∈ cellGet s1.sched d h r → x ∈ cellGet st.sched d h r) ∧
      RoleNodup s1.sched) (remCell e role day h0 st) := by
  cases hf : alFind? st.sched day with
  | none =>
    simp only [remCell, hf]
    exact ⟨fun d h r x hx => hx, hRN⟩
  | some dm =>
    cases hh : alFind? dm h0 with
    | none =>
      simp only [remCell, hf, hh]
      exact ⟨fun d h r x hx => hx, hRN⟩
    | some hm =>
      cases hr : alFind? hm role with
      | none =>
        simp only [remCell, hf, hh, hr]
        exact ⟨fun d h r x hx => hx, hRN⟩
      | some cell =>
        by_cases hmem : e ∈ cell
        · simp only [remCell, hf, hh, hr, hmem, if_true]
          have hmnodup : (alKeys hm).Nodup := hRN day dm hf h0 hm hh
          constructor
          · intro d h r x hx
            by_cases hd : d = day
            · subst hd
              rw [cellGet_alSet_self] at hx
              rw [cellGet_of_find st.sched d dm h r hf]
              by_cases hhh : h = h0
              · subst hhh
                simp only [rmGet, alFind?_alSet_self, Option.getD_some] at hx
                have hgoal : rmGet dm h role = cell ∨ True := Or.inr trivial
                by_cases hrr : r = role
                · subst hrr
                  simp only [rmGet, hh, Option.getD_some]
                  split at hx
                  · rename_i hempty
                    rw [alFind?_alErase_self hm r hmnodup] at hx
                    cases hx
                  · rename_i hempty
                    rw [alFind?_alSet_self] at hx
                    simp only [Option.getD_some] at hx
                    rw [hr]
                    simp only [Option.getD_some]
                    exact List.Sublist.mem hx (removeFirst_sublist cell e)
                · simp only [rmGet, hh, Option.getD_some]
                  split at hx
                  · rw [alFind?_alErase_ne hm role r hrr] at hx
                    exact hx
                  · rw [alFind?_alSet_ne _ _ _ _ hrr] at hx
                    exact hx
              · simp only [rmGet, alFind?_alSet_ne _ _ _ _ hhh] at hx
                simp only [rmGet]
                exact hx
            · rw [cellGet_alSet_ne _ _ _ _ _ _ hd] at hx
              exact hx
          · intro d dm1 hfind h hm1 hfind1
            by_cases hd : d = day
            · subst hd
              rw [alFind?_alSet_self] at hfind
              injection hfind with h1
              rw [← h1] at hfind1
              by_cases hhh : h = h0
              · subst hhh
                rw [alFind?_alSet_self] at hfind1
                injection hfind1 with h2
                rw [← h2]
                split
                · exact nodupKeys_alErase _ _ hmnodup
                · exact nodupKeys_alSet _ _ _ hmnodup
              · rw [alFind?_alSet_ne _ _ _ _ hhh] at hfind1
                exact hRN d dm hf h hm1 hfind1
            · rw [alFind?_alSet_ne _ _ _ _ hd] at hfind
              exact hRN d dm1 hfind h hm1 hfind1
        · simp only [remCell, hf, hh, hr, hmem, if_false]
          exact ⟨fun d h r x hx => hx, hRN⟩

theorem remLoop_result (e : Employee) (role day : String) (hs : List Int)
    (st : SchedState) (hRN : RoleNodup st.sched) :
    resInv (fun s1 => (∀ d h r x, x ∈ cellGet s1.sched d h r → x ∈ cellGet st.sched d h r) ∧
      RoleNodup s1.sched) (remLoop e role day hs st) := by
  induction hs generalizing st with
  | nil => exact ⟨fun d h r x hx => hx, hRN⟩
  | cons h0 rest ih =>
    simp only [remLoop]
    have hc := remCell_result e role day h0 st hRN
    cases hres : remCell e role day h0 st with
    | timeout => trivial
    | exn s => rw [hres] at hc; exact hc
    | ok u st1 =>
      rw [hres] at hc
      have hrest := ih st1 hc.2
      exact resInv_imp (fun s hQ => ⟨fun d h r x hx => hc.1 d h r x (hQ.1 d h r x hx), hQ.2⟩) hrest

theorem remove_result (e : Employee) (role day : String) (start len : Int)
    (st : SchedState) (hRN : RoleNodup st.sched) :
    resInv (fun s1 => (∀ d h r x, x ∈ cellGet s1.sched d h r → x ∈ cellGet st.sched d h r) ∧
      RoleNodup s1.sched) (remove_assignment e role day start len st) := by
  have hl := remLoop_result e role day (intRange start (start + len)) st hRN
  cases hres : remLoop e role day (intRange start (start + len)) st with
  | timeout => simp only [remove_assignment, hres]; trivial
  | exn s =>
    simp only [remove_assignment, hres]
    rw [hres] at hl
    exact hl
  | ok u st1 =>
    rw [hres] at hl
    simp only [remove_assignment, hres]
    split
    · exact hl
    · split
      · exact hl
      · split
        · exact hl
        · exact hl

theorem C5_upd_step (reqs : EmployerRequirements) (e : Employee) (role day : String)
    (start len : Int) (st : SchedState) (hP : C5Inv reqs st)
    (hrole : role ∈ e.roles ∨ role = "Floater") (hoff : day ∉ e.days_off)
    (hlow : reqs.work_hours.1 ≤ start) (hhigh : start + len ≤ reqs.work_hours.2) :
    resInv (C5Inv reqs) (update_schedule e role day start len st) := by
  refine resInv_imp ?_ (resInv_and (update_cells_mem e role day start len st)
    (update_roleNodup e role day start len st hP.2))
  intro s hQ
  refine ⟨?_, hQ.2⟩
  intro d h r x hx
  rcases hQ.1 d h r x hx with hold | ⟨hxe, hdd, hrr, hb1, hb2⟩
  · exact hP.1 d h r x hold
  · subst hxe
    subst hdd
    subst hrr
    exact ⟨hrole, hoff, by omega, by omega⟩

theorem C5_rem_step (reqs : EmployerRequirements) (e : Employee) (role day : String)
    (start len : Int) (st : SchedState) (hP : C5Inv reqs st) :
    resInv (C5Inv reqs) (remove_assignment e role day start len st) :=
  resInv_imp (fun s hQ => ⟨fun d h r x hx => hP.1 d h r x (hQ.1 d h r x hx), hQ.2⟩)
    (remove_result e role day start len st hP.2)

theorem alFind?_map_key {α β : Type} [DecidableEq α] (l : List α) (f : α → β)
    (k : α) (v : β) (h : alFind? (l.map (fun a => (a, f a))) k = some v) :
    v = f k := by
  induction l with
  | nil => cases h
  | cons a t ih =>
    simp only [List.map_cons, alFind?] at h
    by_cases hak : a = k
    · rw [if_pos hak] at h
      injection h with h
      rw [← h, hak]
    · rw [if_neg hak] at h
      exact ih h

theorem cellGet_initSchedule (days : List String) (hours : List Int)
    (d : String) (h : Int) (r : String) :
    cellGet (initSchedule days hours) d h r = [] := by
  unfold cellGet
  cases hf : alFind? (initSchedule days hours) d with
  | none => simp [alFind?]
  | some dm =>
    have hdm : dm = hours.map (fun h => (h, ([] : RoleMap))) :=
      alFind?_map_key days (fun _ => hours.map (fun h => (h, ([] : RoleMap)))) d dm hf
    simp only [Option.getD_some]
    cases hh : alFind? dm h with
    | none => simp [alFind?]
    | some hm =>
      rw [hdm] at hh
      have hhm : hm = ([] : RoleMap) :=
        alFind?_map_key hours (fun _ => ([] : RoleMap)) h hm hh
      rw [hhm]
      simp [alFind?]

theorem roleNodup_initSchedule (days : List String) (hours : List Int) :
    RoleNodup (initSchedule days hours) := by
  intro d dm hf h hm hh
  have hdm : dm = hours.map (fun h => (h, ([] : RoleMap))) :=
    alFind?_map_key days (fun _ => hours.map (fun h => (h, ([] : RoleMap)))) d dm hf
  rw [hdm] at hh
  have hhm : hm = ([] : RoleMap) := alFind?_map_key hours (fun _ => ([] : RoleMap)) h hm hh
  rw [hhm]
  simp [alKeys]

/-- Claim C5 amended: every employee listed in any cell of a schedule that
schedule_shifts returns as success either holds the listed role or the entry
carries the balancer's "Floater" label (the balancer overrides the role at
line 271 without consulting employee.roles, so the roles-set part of the
claim as stated fails); the employee is never listed on one of their days
off, and the hour always lies within work_hours. -/
theorem C5_success_entries_legal (employees : List Employee)
    (reqs : EmployerRequirements) (fuel : Nat) (sched : ShiftSchedule)
    (stf : SchedState)
    (hrun : schedule_shifts employees reqs fuel = .ok (some sched) stf) :
    ∀ (d : String) (h : Int) (r : String) (x : Employee), x ∈ cellGet sched d h r →
      (r ∈ x.roles ∨ r = "Floater") ∧ d ∉ x.days_off ∧
      reqs.work_hours.1 ≤ h ∧ h < reqs.work_hours.2 := by
  have hinit : C5Inv reqs (initState employees reqs) := by
    constructor
    · intro d h r x hx
      rw [show (initState employees reqs).sched =
        initSchedule sevenDays (intRange reqs.work_hours.1 reqs.work_hours.2) from rfl] at hx
      rw [cellGet_initSchedule] at hx
      cases hx
    · exact roleNodup_initSchedule _ _
  simp only [schedule_shifts] at hrun
  split at hrun
  · rename_i st1 hsol
    have hs := solve_inv (C5Inv reqs) sevenDays
      (intRange reqs.work_hours.1 reqs.work_hours.2) reqs.shift_lengths employees reqs
      (fun e role day start len st0 hP0 hdm hstart hememp hrole hoff hv hb =>
        C5_upd_step reqs e role day start len st0 hP0 (Or.inl hrole) hoff
          (((mem_intRange _ _ _).mp hstart).1) (by omega))
      (fun e role day start len st0 hP0 => C5_rem_step reqs e role day start len st0 hP0)
      fuel 0 (initState employees reqs) hinit
    rw [hsol] at hs
    split at hrun
    · rename_i u st2 hbal
      have hb := assign_extra_inv (C5Inv reqs) employees reqs st1
        (fun e he d hd hoff start hst st0 hP0 hv => by
          obtain ⟨w, hw, hmax, hday, hoff1, hav, hwh, hae⟩ :=
            is_valid_true_inv e "Floater" d start reqs.shift_lengths.1
              st0.weekly st0.daily reqs hv
          exact C5_upd_step reqs e "Floater" d start reqs.shift_lengths.1 st0 hP0
            (Or.inr rfl) hoff (((mem_intRange _ _ _).mp hst).1) hwh)
        hs
      rw [hbal] at hb
      cases hemp : st2.sched.isEmpty with
      | true =>
        rw [hemp] at hrun
        simp only [if_true] at hrun
        injection hrun with h1 h2
        cases h1
      | false =>
        rw [hemp] at hrun
        simp only [Bool.false_eq_true, if_false] at hrun
        injection hrun with h1 h2
        injection h1 with h1
        rw [← h1]
        intro d h r x hx
        exact hb.1 d h r x hx
    · cases hrun
    · cases hrun
  · rename_i st1 hsol
    injection hrun with h1 h2
    cases h1
  · cases hrun
  · cases hrun

/-- Claim C5 is false as stated: the concrete run gives empB (whose roles
set is just OnFloor) a "Floater" entry on Monday at 9, so an employee is
listed under a role it does not hold. -/
theorem C5_counterexample :
    schedule_shifts wEmps reqsA 40 = .ok (some wSched) wStf ∧
    empB ∈ cellGet wSched "Monday" 9 "Floater" ∧
    "Floater" ∉ empB.roles := by
  refine ⟨by rfl, by decide, by decide⟩

/-- Witness for the amended C5 at the concrete run: empA's Cashier entry on
Monday 9 is legal. -/
theorem C5_witness :
    ("Cashier" ∈ empA.roles ∨ "Cashier" = "Floater") ∧ "Monday" ∉ empA.days_off ∧
    reqsA.work_hours.1 ≤ 9 ∧ 9 < reqsA.work_hours.2 :=
  C5_success_entries_legal wEmps reqsA 40 wSched wStf (by rfl) "Monday" 9 "Cashier" empA
    (by decide)

theorem checkAllDays_true (reqs : EmployerRequirements) :
    ∀ (ds : List String) (st st1 : SchedState),
      checkAllDays reqs ds st = .ok true st1 →
      st1 = st ∧ ∀ d ∈ ds, meets_critical_minimums_for_day st.sched reqs d = some true := by
  intro ds
  induction ds with
  | nil =>
    intro st st1 h
    injection h with h1 h2
    exact ⟨h2.symm, by simp⟩
  | cons d rest ih =>
    intro st st1 h
    simp only [checkAllDays] at h
    split at h
    · cases h
    · injection h with h1 h2
      cases h1
    · rename_i heq
      obtain ⟨h1, h2⟩ := ih st st1 h
      refine ⟨h1, ?_⟩
      intro d0 hd0
      rcases List.mem_cons.mp hd0 with rfl | hd0
      · exact heq
      · exact h2 d0 hd0

theorem lenLoop_true (recur : SchedState → PyRes Bool) (e : Employee)
    (role day : String) (reqs : EmployerRequirements) (sh : Int) :
    ∀ (l : List Int) (st st1 : SchedState),
      lenLoop recur e role day reqs sh l st = .ok (some true) st1 →
      ∃ s0, recur s0 = .ok true st1 := by
  intro l
  induction l with
  | nil =>
    intro st st1 h
    injection h with h1 h2
    cases h1
  | cons len rest ih =>
    intro st st1 h
    simp only [lenLoop] at h
    split at h
    · exact ih st st1 h
    · split at h
      · cases h
      · exact ih st st1 h
      · split at h
        · cases h
        · cases h
        · split at h
          · cases h
          · cases h
          · rename_i st2 heq
            injection h with h1 h2
            exact ⟨_, by rw [heq, h2]⟩
          · split at h
            · cases h
            · cases h
            · exact ih _ st1 h

theorem empLoop_true (recur : SchedState → PyRes Bool) (role day : String)
    (reqs : EmployerRequirements) (sls : Int × Int) (sh : Int) :
    ∀ (es : List Employee) (st st1 : SchedState),
      empLoop recur role day reqs sls sh es st = .ok (some true) st1 →
      ∃ s0, recur s0 = .ok true st1 := by
  intro es
  induction es with
  | nil =>
    intro st st1 h
    injection h with h1 h2
    cases h1
  | cons e rest ih =>
    intro st st1 h
    simp only [empLoop] at h
    split at h
    · exact ih _ st1 h
    · rename_i b st2 heq
      injection h with h1 h2
      injection h1 with h1
      rw [h1, h2] at heq
      exact lenLoop_true recur e role day reqs sh _ st st1 heq
    · cases h
    · cases h

theorem slotLoop_true (runEmp : SchedState → PyRes (Option Bool)) (n : Nat)
    (st st1 : SchedState) (h : slotLoop runEmp n st = .ok (some true) st1) :
    runEmp st = .ok (some true) st1 := by
  cases n with
  | zero =>
    injection h with h1 h2
    cases h1
  | succ m =>
    simp only [slotLoop] at h
    split at h
    · rename_i b st2 heq
      injection h with h1 h2
      injection h1 with h1
      rw [heq, h1, h2]
    · injection h with h1 h2
      injection h1 with h1
      cases h1
    · cases h
    · cases h

theorem roleLoop_true (recur : SchedState → PyRes Bool) (day : String)
    (reqs : EmployerRequirements) (sls : Int × Int)
    (available : List (String × List Employee)) (sh : Int) :
    ∀ (rs : List (String × Int)) (st st1 : SchedState),
      roleLoop recur day reqs sls available sh rs st = .ok (some true) st1 →
      ∃ s0, recur s0 = .ok true st1 := by
  intro rs
  induction rs with
  | nil =>
    intro st st1 h
    injection h with h1 h2
    cases h1
  | cons p rest ih =>
    intro st st1 h
    obtain ⟨role, required⟩ := p
    simp only [roleLoop] at h
    split at h
    · cases h
    · split at h
      · exact ih st st1 h
      · split at h
        · exact ih _ st1 h
        · rename_i b st2 heq
          injection h with h1 h2
          injection h1 with h1
          rw [h1, h2] at heq
          have hs := slotLoop_true _ _ _ _ heq
          exact empLoop_true recur role day reqs sls sh _ st st1 hs
        · cases h
        · cases h

theorem hourLoop_true (recur : SchedState → PyRes Bool) (day : String)
    (reqs : EmployerRequirements) (sls : Int × Int)
    (available : List (String × List Employee)) :
    ∀ (hs : List Int) (st st1 : SchedState),
      hourLoop recur day reqs sls available hs st = .ok (some true) st1 →
      ∃ s0, recur s0 = .ok true st1 := by
  intro hs
  induction hs with
  | nil =>
    intro st st1 h
    injection h with h1 h2
    cases h1
  | cons h0 rest ih =>
    intro st st1 h
    simp only [hourLoop] at h
    split at h
    · exact ih _ st1 h
    · rename_i b st2 heq
      injection h with h1 h2
      injection h1 with h1
      rw [h1, h2] at heq
      exact roleLoop_true recur day reqs sls available h0 _ st st1 heq
    · cases h
    · cases h

theorem solve_true (days : List String) (hours : List Int) (sls : Int × Int)
    (employees : List Employee) (reqs : EmployerRequirements) :
    ∀ (fuel index : Nat) (st st1 : SchedState),
      solve_schedule days hours sls employees reqs fuel index st = .ok true st1 →
      ∀ d ∈ days, meets_critical_minimums_for_day st1.sched reqs d = some true := by
  intro fuel
  induction fuel with
  | zero =>
    intro index st st1 h
    cases h
  | succ fuel ih =>
    intro index st st1 h
    simp only [solve_schedule] at h
    split at h
    · obtain ⟨h1, h2⟩ := checkAllDays_true reqs days st st1 h
      intro d hd
      rw [h1]
      exact h2 d hd
    · split at h
      · cases h
      · rename_i day hday
        split at h
        · rename_i b st2 heq
          injection h with h1 h2
          rw [h1, h2] at heq
          obtain ⟨s0, hs0⟩ := hourLoop_true _ day reqs sls _ _ st st1 heq
          exact ih index s0 st1 hs0
        · rename_i st2 heq
          split at h
          · cases h
          · injection h with h1 h2
            cases h1
          · exact ih (index + 1) st2 st1 h
        · cases h
        · cases h

def hourOK (reqs : EmployerRequirements) (hm : RoleMap) : Bool :=
  reqs.critical_minimums.all (fun rm =>
    decide (rm.2 ≤ (((alFind? hm rm.1).getD []).length : Int)))

def dayAllOK (reqs : EmployerRequirements) (dm : HourMap) : Bool :=
  dm.all (fun p => hourOK reqs p.2)

def DaysOK (reqs : EmployerRequirements) (sched : ShiftSchedule) : Prop :=
  ∀ d dm, alFind? sched d = some dm → dayAllOK reqs dm = true

def HoursOK (w0 w1 : Int) (sched : ShiftSchedule) : Prop :=
  ∀ d dm, alFind? sched d = some dm → ∀ h : Int, w0 ≤ h → h < w1 →
    alContains dm h = true

theorem meets_eq_dayAllOK (sched : ShiftSchedule) (reqs : EmployerRequirements)
    (d : String) (dm : HourMap) (hf : alFind? sched d = some dm) :
    meets_critical_minimums_for_day sched reqs d = some (dayAllOK reqs dm) := by
  simp only [meets_critical_minimums_for_day, hf]
  rfl

theorem alFind?_mem {α β : Type} [DecidableEq α] (m : List (α × β)) (k : α) (v : β)
    (h : alFind? m k = some v) : (k, v) ∈ m := by
  induction m with
  | nil => cases h
  | cons p rest ih =>
    obtain ⟨k0, v0⟩ := p
    simp only [alFind?] at h
    by_cases hk : k0 = k
    · rw [if_pos hk] at h
      injection h with h
      rw [← hk, ← h]
      exact List.mem_cons_self _ _
    · rw [if_neg hk] at h
      exact List.mem_cons_of_mem _ (ih h)

theorem all_alSet {α β : Type} [DecidableEq α] (m : List (α × β)) (k : α) (v : β)
    (f : α × β → Bool) (hc : alContains m k = true) (hall : m.all f = true)
    (hv : f (k, v) = true) : (alSet m k v).all f = true := by
  induction m with
  | nil => simp [alContains, alFind?] at hc
  | cons p rest ih =>
    obtain ⟨k0, v0⟩ := p
    simp only [List.all_cons, Bool.and_eq_true] at hall
    by_cases hk : k0 = k
    · subst hk
      have hset : alSet ((k0, v0) :: rest) k0 v = (k0, v) :: rest := by
        simp [alSet]
      rw [hset, List.all_cons, Bool.and_eq_true]
      exact ⟨hv, hall.2⟩
    · have hc1 : alContains rest k = true := by
        simp only [alContains, alFind?, if_neg hk] at hc
        exact hc
      simp only [alSet, if_neg hk, List.all_cons, Bool.and_eq_true]
      exact ⟨hall.1, ih hc1 hall.2⟩

theorem alContains_map_key {α β : Type} [DecidableEq α] (l : List α) (f : α → β)
    (k : α) (hm : k ∈ l) : alContains (l.map (fun a => (a, f a))) k = true := by
  induction l with
  | nil => cases hm
  | cons a t ih =>
    rcases List.mem_cons.mp hm with rfl | ht
    · simp [alContains, alFind?]
    · simp only [List.map_cons, alContains, alFind?]
      by_cases hak : a = k
      · simp [hak]
      · simp only [if_neg hak]
        exact ih ht

theorem hourOK_append (reqs : EmployerRequirements) (hm : RoleMap) (role : String)
    (e : Employee) (h : hourOK reqs hm = true) :
    hourOK reqs (alSet hm role (((alFind? hm role).getD []) ++ [e])) = true := by
  rw [hourOK, List.all_eq_true] at h ⊢
  intro rm hrm
  have hold := h rm hrm
  rw [decide_eq_true_eq] at hold ⊢
  by_cases hr : rm.1 = role
  · rw [hr] at hold
    rw [hr, alFind?_alSet_self]
    simp only [Option.getD_some, List.length_append, List.length_cons, List.length_nil]
    omega
  · rw [alFind?_alSet_ne _ _ _ _ hr]
    exact hold

theorem allHourOK_updCellH (reqs : EmployerRequirements) (e : Employee) (role : String)
    (h : Int) (dm : HourMap) (hc : alContains dm h = true)
    (hall : dayAllOK reqs dm = true) : dayAllOK reqs (updCellH e role h dm) = true := by
  obtain ⟨hm, hh⟩ := Option.isSome_iff_exists.mp hc
  rw [dayAllOK] at hall ⊢
  unfold updCellH
  rw [hh]
  simp only [Option.getD_some]
  refine all_alSet dm h _ _ hc hall ?_
  exact hourOK_append reqs hm role e (List.all_eq_true.mp hall (h, hm) (alFind?_mem dm h hm hh))

theorem allHourOK_updHmap (reqs : EmployerRequirements) (e : Employee) (role : String) :
    ∀ (hs : List Int) (dm : HourMap), (∀ h ∈ hs, alContains dm h = true) →
      dayAllOK reqs dm = true → dayAllOK reqs (updHmap e role hs dm) = true := by
  intro hs
  induction hs with
  | nil => intro dm _ hall; exact hall
  | cons h rest ih =>
    intro dm hc hall
    simp only [updHmap]
    refine ih (updCellH e role h dm) ?_ ?_
    · intro h1 hh1
      exact alContains_alSet_preserve _ _ _ _ (hc h1 (List.mem_cons_of_mem _ hh1))
    · exact allHourOK_updCellH reqs e role h dm (hc h (List.mem_cons_self _ _)) hall

theorem hoursOK_alSet_upd (w0 w1 : Int) (sched : ShiftSchedule) (day : String)
    (dm dm' : HourMap) (hf : alFind? sched day = some dm)
    (hpres : ∀ h : Int, alContains dm h = true → alContains dm' h = true)
    (hP : HoursOK w0 w1 sched) : HoursOK w0 w1 (alSet sched day dm') := by
  intro d dm0 hfind h hw0 hw1
  by_cases hd : d = day
  · subst hd
    rw [alFind?_alSet_self] at hfind
    injection hfind with hfind
    rw [← hfind]
    exact hpres h (hP d dm hf h hw0 hw1)
  · rw [alFind?_alSet_ne _ _ _ _ hd] at hfind
    exact hP d dm0 hfind h hw0 hw1

theorem hoursOK_update (w0 w1 : Int) (e : Employee) (role day : String)
    (start len : Int) (st : SchedState) (hP : HoursOK w0 w1 st.sched) :
    resInv (fun s => HoursOK w0 w1 s.sched) (update_schedule e role day start len st) := by
  cases hres : update_schedule e role day start len st with
  | timeout => trivial
  | exn s =>
    rcases update_exn_inv e role day start len st s hres with rfl | ⟨dm, hf, rfl⟩ | ⟨w, hw, hcase⟩
    · exact hP
    · exact hoursOK_alSet_upd w0 w1 st.sched day dm _ hf
        (fun h hh => alContains_updHmap_preserve e role _ dm h hh) hP
    · rcases hcase with rfl | ⟨dm, hf, rfl⟩
      · exact hP
      · exact hoursOK_alSet_upd w0 w1 st.sched day dm _ hf
          (fun h hh => alContains_updHmap_preserve e role _ dm h hh) hP
  | ok u s =>
    obtain ⟨w, hw, hcase⟩ := update_ok_inv e role day start len st s hres
    rcases hcase with ⟨hemp, rfl⟩ | ⟨dm, hf, rfl⟩
    · exact hP
    · exact hoursOK_alSet_upd w0 w1 st.sched day dm _ hf
        (fun h hh => alContains_updHmap_preserve e role _ dm h hh) hP

theorem hoursOK_remCell (w0 w1 : Int) (e : Employee) (role day : String) (h : Int)
    (st : SchedState) (hP : HoursOK w0 w1 st.sched) :
    resInv (fun s => HoursOK w0 w1 s.sched) (remCell e role day h st) := by
  cases hf : alFind? st.sched day with
  | none => simp only [remCell, hf]; exact hP
  | some dm =>
    cases hh : alFind? dm h with
    | none => simp only [remCell, hf, hh]; exact hP
    | some hm =>
      cases hr : alFind? hm role with
      | none => simp only [remCell, hf, hh, hr]; exact hP
      | some cell =>
        by_cases hmem : e ∈ cell
        · simp only [remCell, hf, hh, hr, hmem, if_true]
          exact hoursOK_alSet_upd w0 w1 st.sched day dm _ hf
            (fun h1 hh1 => alContains_alSet_preserve _ _ _ _ hh1) hP
        · simp only [remCell, hf, hh, hr, hmem, if_false]
          exact hP

theorem hoursOK_remLoop (w0 w1 : Int) (e : Employee) (role day : String) :
    ∀ (hs : List Int) (st : SchedState), HoursOK w0 w1 st.sched →
      resInv (fun s => HoursOK w0 w1 s.sched) (remLoop e role day hs st) := by
  intro hs
  induction hs with
  | nil => intro st hP; exact hP
  | cons h rest ih =>
    intro st hP
    simp only [remLoop]
    have hc := hoursOK_remCell w0 w1 e role day h st hP
    cases hres : remCell e role day h st with
    | timeout => trivial
    | exn s => rw [hres] at hc; exact hc
    | ok u st1 =>
      rw [hres] at hc
      exact ih st1 hc

theorem hoursOK_remove (w0 w1 : Int) (e : Employee) (role day : String)
    (start len : Int) (st : SchedState) (hP : HoursOK w0 w1 st.sched) :
    resInv (fun s => HoursOK w0 w1 s.sched) (remove_assignment e role day start len st) := by
  have hl := hoursOK_remLoop w0 w1 e role day (intRange start (start + len)) st hP
  cases hres : remLoop e role day (intRange start (start + len)) st with
  | timeout => simp only [remove_assignment, hres]; trivial
  | exn s =>
    simp only [remove_assignment, hres]
    rw [hres] at hl
    exact hl
  | ok u st1 =>
    rw [hres] at hl
    simp only [remove_assignment, hres]
    split
    · exact hl
    · rename_i w hw
      split
      · exact hl
      · rename_i ds hds
        split
        · exact hl
        · exact hl

theorem hoursOK_initState (employees : List Employee) (reqs : EmployerRequirements) :
    HoursOK reqs.work_hours.1 reqs.work_hours.2 (initState employees reqs).sched := by
  intro d dm hfind h hw0 hw1
  have hdm := alFind?_map_key sevenDays
    (fun _ => (intRange reqs.work_hours.1 reqs.work_hours.2).map
      (fun h => (h, ([] : RoleMap)))) d dm hfind
  rw [hdm]
  exact alContains_map_key _ _ h ((mem_intRange _ _ _).mpr ⟨hw0, hw1⟩)

theorem upd_sched_invs (reqs : EmployerRequirements) (e : Employee) (role day : String)
    (start len : Int) (sched : ShiftSchedule) (dm : HourMap)
    (hf : alFind? sched day = some dm)
    (hD : DaysOK reqs sched) (hH : HoursOK reqs.work_hours.1 reqs.work_hours.2 sched)
    (hlow : reqs.work_hours.1 ≤ start) (hhigh : start + len ≤ reqs.work_hours.2) :
    DaysOK reqs (alSet sched day (updHmap e role (intRange start (start + len)) dm)) ∧
    HoursOK reqs.work_hours.1 reqs.work_hours.2
      (alSet sched day (updHmap e role (intRange start (start + len)) dm)) := by
  have hc : ∀ h ∈ intRange start (start + len), alContains dm h = true := by
    intro h hm
    obtain ⟨h1, h2⟩ := (mem_intRange _ _ _).mp hm
    exact hH day dm hf h (by omega) (by omega)
  constructor
  · intro d dm0 hfind
    by_cases hd : d = day
    · subst hd
      rw [alFind?_alSet_self] at hfind
      injection hfind with hfind
      rw [← hfind]
      exact allHourOK_updHmap reqs e role _ dm hc (hD d dm hf)
    · rw [alFind?_alSet_ne _ _ _ _ hd] at hfind
      exact hD d dm0 hfind
  · exact hoursOK_alSet_upd _ _ sched day dm _ hf
      (fun h hh => alContains_updHmap_preserve e role _ dm h hh) hH

theorem daysOK_update (reqs : EmployerRequirements) (e : Employee) (role day : String)
    (start len : Int) (st : SchedState)
    (hP : DaysOK reqs st.sched ∧ HoursOK reqs.work_hours.1 reqs.work_hours.2 st.sched)
    (hlow : reqs.work_hours.1 ≤ start) (hhigh : start + len ≤ reqs.work_hours.2) :
    resInv (fun s => DaysOK reqs s.sched ∧
        HoursOK reqs.work_hours.1 reqs.work_hours.2 s.sched)
      (update_schedule e role day start len st) := by
  cases hres : update_schedule e role day start len st with
  | timeout => trivial
  | exn s =>
    rcases update_exn_inv e role day start len st s hres with rfl | ⟨dm, hf, rfl⟩ | ⟨w, hw, hcase⟩
    · exact hP
    · exact upd_sched_invs reqs e role day start len st.sched dm hf hP.1 hP.2 hlow hhigh
    · rcases hcase with rfl | ⟨dm, hf, rfl⟩
      · exact hP
      · exact upd_sched_invs reqs e role day start len st.sched dm hf hP.1 hP.2 hlow hhigh
  | ok u s =>
    obtain ⟨w, hw, hcase⟩ := update_ok_inv e role day start len st s hres
    rcases hcase with ⟨hemp, rfl⟩ | ⟨dm, hf, rfl⟩
    · exact hP
    · exact upd_sched_invs reqs e role day start len st.sched dm hf hP.1 hP.2 hlow hhigh

/-- Claim C1: whenever solve_schedule returns True, the schedule of the
state it returns satisfies meets_critical_minimums_for_day for every
scheduled day (the final all(...) validation at lines 183-185 runs on the
state that is then returned unchanged); and in every non-None schedule
returned by schedule_shifts -- hence after assign_extra_shifts has run --
every hour recorded under each of the seven days carries, for each role of
critical_minimums, at least critical_minimums[role] employees in that role,
the balancer only ever appending employees to cells at hours that already
exist inside work_hours. -/
theorem C1_success_meets_minimums (employees : List Employee)
    (reqs : EmployerRequirements) (fuel : Nat) :
    (∀ (days : List String) (hours : List Int) (sls : Int × Int) (index : Nat)
        (st st1 : SchedState),
      solve_schedule days hours sls employees reqs fuel index st = .ok true st1 →
      ∀ d ∈ days, meets_critical_minimums_for_day st1.sched reqs d = some true) ∧
    (∀ (sched : ShiftSchedule) (stf : SchedState),
      schedule_shifts employees reqs fuel = .ok (some sched) stf →
      ∀ d ∈ sevenDays, ∃ dm, alFind? sched d = some dm ∧
        ∀ p ∈ dm, ∀ rm ∈ reqs.critical_minimums,
          rm.2 ≤ (((alFind? p.2 rm.1).getD []).length : Int)) := by
  constructor
  · intro days hours sls index st st1 h
    exact solve_true days hours sls employees reqs fuel index st st1 h
  · intro sched stf hrun d hd
    simp only [schedule_shifts] at hrun
    split at hrun
    · rename_i st1 hsol
      have hkeys1 : alKeys st1.sched = sevenDays := by
        have hk := solve_keys sevenDays (intRange reqs.work_hours.1 reqs.work_hours.2)
          reqs.shift_lengths employees reqs fuel 0 (initState employees reqs)
          sevenDays (alKeys_initSchedule _ _)
        rw [hsol] at hk
        exact hk
      have hmeets := solve_true sevenDays (intRange reqs.work_hours.1 reqs.work_hours.2)
        reqs.shift_lengths employees reqs fuel 0 (initState employees reqs) st1 hsol
      have hD1 : DaysOK reqs st1.sched := by
        intro d0 dm0 hfind
        have hd0 : d0 ∈ sevenDays := by
          rw [← hkeys1]
          exact (alContains_iff_mem_keys _ _).mp (alContains_of_find hfind)
        have hm := hmeets d0 hd0
        rw [meets_eq_dayAllOK st1.sched reqs d0 dm0 hfind] at hm
        exact Option.some.inj hm
      have hH1 : HoursOK reqs.work_hours.1 reqs.work_hours.2 st1.sched := by
        have hh := solve_inv (fun s => HoursOK reqs.work_hours.1 reqs.work_hours.2 s.sched)
          sevenDays (intRange reqs.work_hours.1 reqs.work_hours.2) reqs.shift_lengths
          employees reqs
          (fun e role day start len st0 hP0 _ _ _ _ _ _ _ =>
            hoursOK_update _ _ e role day start len st0 hP0)
          (fun e role day start len st0 hP0 =>
            hoursOK_remove _ _ e role day start len st0 hP0)
          fuel 0 (initState employees reqs) (hoursOK_initState employees reqs)
        rw [hsol] at hh
        exact hh
      split at hrun
      · rename_i u st2 hbal
        have hb := assign_extra_inv
          (fun s => DaysOK reqs s.sched ∧
            HoursOK reqs.work_hours.1 reqs.work_hours.2 s.sched) employees reqs st1
          (fun e he d0 hd0 hoff start hst st0 hP0 hv => by
            obtain ⟨w, hw, hmax, hday, hoff1, hav, hwh, hae⟩ :=
              is_valid_true_inv e "Floater" d0 start reqs.shift_lengths.1
                st0.weekly st0.daily reqs hv
            exact daysOK_update reqs e "Floater" d0 start reqs.shift_lengths.1 st0 hP0
              (((mem_intRange _ _ _).mp hst).1) hwh)
          ⟨hD1, hH1⟩
        rw [hbal] at hb
        have hk2 := assign_keys employees reqs st1 sevenDays hkeys1
        rw [hbal] at hk2
        have hk2a : alKeys st2.sched = sevenDays := hk2
        have hba : DaysOK reqs st2.sched := hb.1
        cases hemp : st2.sched.isEmpty with
        | true =>
          rw [hemp] at hrun
          simp only [if_true] at hrun
          injection hrun with h1 h2
          cases h1
        | false =>
          rw [hemp] at hrun
          simp only [Bool.false_eq_true, if_false] at hrun
          injection hrun with h1 h2
          injection h1 with h1
          have hcont : alContains st2.sched d = true := by
            rw [alContains_iff_mem_keys, hk2a]
            exact hd
          obtain ⟨dm, hfind⟩ := Option.isSome_iff_exists.mp hcont
          refine ⟨dm, by rw [← h1]; exact hfind, ?_⟩
          intro p hp rm hrm
          have hall := hba d dm hfind
          rw [dayAllOK, List.all_eq_true] at hall
          have hhour := hall p hp
          rw [hourOK, List.all_eq_true] at hhour
          exact of_decide_eq_true (hhour rm hrm)
      · cases hrun
      · cases hrun
    · injection hrun with h1 h2
      cases h1
    · cases hrun
    · cases hrun

/-- Witness for C1 at the concrete run: Monday of the returned schedule has
a cell list meeting every critical minimum at every recorded hour. -/
theorem C1_witness :
    ∃ dm, alFind? wSched "Monday" = some dm ∧
      ∀ p ∈ dm, ∀ rm ∈ reqsA.critical_minimums,
        rm.2 ≤ (((alFind? p.2 rm.1).getD []).length : Int) :=
  (C1_success_meets_minimums wEmps reqsA 40).2 wSched wStf (by rfl) "Monday" (by decide)

structure PendRec where
  e : Employee
  role : String
  day : String
  start : Int
  len : Int
deriving DecidableEq, Repr

/-- r records an assignment covering the (day d, hour h, role rl) cell for
employee x. -/
def coversB (r : PendRec) (x : Employee) (d : String) (h : Int) (rl : String) : Bool :=
  decide (r.e = x) && decide (r.day = d) && decide (r.role = rl) &&
    decide (r.start ≤ h) && decide (h < r.start + r.len)

/-- Number of outstanding assignment records covering one cell for x. -/
def pendCount (pending : List PendRec) (x : Employee) (d : String) (h : Int)
    (rl : String) : Nat :=
  pending.countP (fun r => coversB r x d h rl)

/-- Total outstanding assigned hours of the employee named name. -/
def pendLens (pending : List PendRec) (name : String) : Int :=
  ((pending.filter (fun r => decide (r.e.name = name))).map (fun r => r.len)).sum

/-- The days of the outstanding assignments of the employee named name. -/
def pendDays (pending : List PendRec) (name : String) : List String :=
  (pending.filter (fun r => decide (r.e.name = name))).map (fun r => r.day)

/-- Aggregate consistency relative to the outstanding (applied but not yet
reverted) update_schedule calls: each cell's multiplicity of each employee is
the number of covering records, each present weekly_assigned_hours value is
the summed outstanding lengths of that name, each daily_shifts list is a
permutation of the outstanding days of that name, and role keys are unique
per cell (alErase removes whole keys, which only matches Python del on
duplicate-free dicts). -/
def Consistent (st : SchedState) (pending : List PendRec) : Prop :=
  (∀ (d : String) (h : Int) (rl : String) (x : Employee),
    (cellGet st.sched d h rl).count x = pendCount pending x d h rl) ∧
  (∀ name w, alFind? st.weekly name = some w → w = pendLens pending name) ∧
  (∀ name, ((alFind? st.daily name).getD []).Perm (pendDays pending name)) ∧
  RoleNodup st.sched

theorem pendCount_append (pending : List PendRec) (r : PendRec) (x : Employee)
    (d : String) (h : Int) (rl : String) :
    pendCount (pending ++ [r]) x d h rl =
      pendCount pending x d h rl + (if coversB r x d h rl then 1 else 0) := by
  simp only [pendCount, List.countP_append, List.countP_cons, List.countP_nil]
  split <;> simp_all

theorem pendLens_append (pending : List PendRec) (r : PendRec) (name : String) :
    pendLens (pending ++ [r]) name =
      pendLens pending name + (if r.e.name = name then r.len else 0) := by
  simp only [pendLens, List.filter_append, List.map_append, List.sum_append]
  by_cases hn : r.e.name = name <;> simp [hn, List.filter]

theorem pendDays_append (pending : List PendRec) (r : PendRec) (name : String) :
    pendDays (pending ++ [r]) name =
      pendDays pending name ++ (if r.e.name = name then [r.day] else []) := by
  simp only [pendDays, List.filter_append, List.map_append]
  by_cases hn : r.e.name = name <;> simp [hn, List.filter]

theorem count_removeFirst_self {α : Type} [DecidableEq α] (l : List α) (a : α)
    (h : a ∈ l) : (removeFirst l a).count a = l.count a - 1 := by
  induction l with
  | nil => cases h
  | cons b rest ih =>
    by_cases hba : b = a
    · subst hba
      rw [removeFirst, if_pos rfl, List.count_cons_self]
      omega
    · have hanb : a ≠ b := fun hh => hba hh.symm
      rcases List.mem_cons.mp h with rfl | hmem
      · exact absurd rfl hba
      · rw [removeFirst, if_neg hba, List.count_cons_of_ne hanb,
          List.count_cons_of_ne hanb, ih hmem]

theorem count_removeFirst_ne {α : Type} [DecidableEq α] (l : List α) (a b : α)
    (hne : b ≠ a) : (removeFirst l a).count b = l.count b := by
  induction l with
  | nil => rfl
  | cons c rest ih =>
    by_cases hca : c = a
    · subst hca
      rw [removeFirst, if_pos rfl, List.count_cons_of_ne hne]
    · rw [removeFirst, if_neg hca, List.count_cons, List.count_cons, ih]

theorem removeFirst_eq_erase {α : Type} [DecidableEq α] (l : List α) (a : α) :
    removeFirst l a = l.erase a := by
  induction l with
  | nil => rfl
  | cons b rest ih =>
    rw [List.erase_cons]
    by_cases hba : b = a
    · simp [removeFirst, hba]
    · have : (b == a) = false := by simp [hba]
      simp [removeFirst, hba, this, ih]

theorem erase_append_singleton_perm {α : Type} [DecidableEq α] (l : List α) (a : α) :
    ((l ++ [a]).erase a).Perm l := by
  induction l with
  | nil => simp
  | cons b rest ih =>
    rw [List.cons_append, List.erase_cons]
    by_cases hba : b = a
    · subst hba
      simp only [beq_self_eq_true, if_true]
      exact List.perm_append_singleton b rest
    · have hf : (b == a) = false := by simp [hba]
      simp only [hf, Bool.false_eq_true, if_false]
      exact ih.cons b

theorem removeFirst_perm {α : Type} [DecidableEq α] (l l2 : List α) (a : α)
    (h : l.Perm (l2 ++ [a])) : (removeFirst l a).Perm l2 := by
  rw [removeFirst_eq_erase]
  exact (h.erase a).trans (erase_append_singleton_perm l2 a)

theorem count_rmGet_updHmap (e : Employee) (role : String) :
    ∀ (hs : List Int) (dm : HourMap) (h : Int) (r : String) (x : Employee),
      hs.Nodup →
      (rmGet (updHmap e role hs dm) h r).count x =
        (rmGet dm h r).count x + (if x = e ∧ r = role ∧ h ∈ hs then 1 else 0) := by
  intro hs
  induction hs with
  | nil =>
    intro dm h r x hnd
    simp [updHmap]
  | cons h0 rest ih =>
    intro dm h r x hnd
    rw [List.nodup_cons] at hnd
    simp only [updHmap]
    rw [ih _ h r x hnd.2, rmGet_updCellH, List.count_append]
    have hcell : (if h = h0 ∧ r = role then [e] else []).count x =
        (if x = e ∧ h = h0 ∧ r = role then 1 else 0) := by
      by_cases hc : h = h0 ∧ r = role
      · rw [if_pos hc]
        by_cases hx : x = e
        · subst hx
          simp [hc, List.count_cons]
        · simp [List.count_cons, hx, fun hh : x = e ∧ h = h0 ∧ r = role => hx hh.1]
      · rw [if_neg hc, if_neg (fun hh : x = e ∧ h = h0 ∧ r = role => hc hh.2)]
        rfl
    rw [hcell]
    simp only [List.mem_cons]
    by_cases hx : x = e
    · by_cases hr : r = role
      · by_cases hh : h = h0
        · subst hh
          have hnr : h ∉ rest := hnd.1
          simp [hx, hr, hnr] <;> omega
        · simp [hx, hr, hh] <;> omega
      · simp [hr] <;> omega
    · simp [hx] <;> omega

theorem initWeekly_zero (employees : List Employee) :
    ∀ name w, alFind? (initWeekly employees) name = some w → w = 0 := by
  have key : ∀ (es : List Employee) (m : List (String × Int)),
      (∀ n w, alFind? m n = some w → w = 0) →
      ∀ n w, alFind? (es.foldl (fun m e => alSet m e.name 0) m) n = some w → w = 0 := by
    intro es
    induction es with
    | nil => intro m hm; exact hm
    | cons e rest ih =>
      intro m hm
      simp only [List.foldl_cons]
      refine ih (alSet m e.name 0) ?_
      intro n w hf
      by_cases hn : n = e.name
      · subst hn
        rw [alFind?_alSet_self] at hf
        injection hf with hf
        exact hf.symm
      · rw [alFind?_alSet_ne _ _ _ _ hn] at hf
        exact hm n w hf
  exact key employees [] (fun n w hf => by cases hf)

theorem update_consistent (r : PendRec) (st st1 : SchedState) (pending : List PendRec)
    (hC : Consistent st pending) (hlen : 0 ≤ r.len)
    (hupd : update_schedule r.e r.role r.day r.start r.len st = .ok () st1) :
    Consistent st1 (pending ++ [r]) := by
  obtain ⟨hcell, hweek, hdaily, hRN⟩ := hC
  have hRN1 : RoleNodup st1.sched := by
    have hh := update_roleNodup r.e r.role r.day r.start r.len st hRN
    rw [hupd] at hh
    exact hh
  have hcov : ∀ (x : Employee) (d : String) (h : Int) (rl : String),
      (coversB r x d h rl = true) ↔
        (x = r.e ∧ d = r.day ∧ rl = r.role ∧ r.start ≤ h ∧ h < r.start + r.len) := by
    intro x d h rl
    simp only [coversB, Bool.and_eq_true, decide_eq_true_eq]
    constructor
    · rintro ⟨⟨⟨⟨h1, h2⟩, h3⟩, h4⟩, h5⟩
      exact ⟨h1.symm, h2.symm, h3.symm, h4, h5⟩
    · rintro ⟨h1, h2, h3, h4, h5⟩
      exact ⟨⟨⟨⟨h1.symm, h2.symm⟩, h3.symm⟩, h4⟩, h5⟩
  have hwd : ∀ (wk : List (String × Int)) (dl : List (String × List String)) (w : Int),
      alFind? st.weekly r.e.name = some w →
      wk = alSet st.weekly r.e.name (w + r.len) →
      dl = alSet st.daily r.e.name (((alFind? st.daily r.e.name).getD []) ++ [r.day]) →
      (∀ name w1, alFind? wk name = some w1 → w1 = pendLens (pending ++ [r]) name) ∧
      (∀ name, ((alFind? dl name).getD []).Perm (pendDays (pending ++ [r]) name)) := by
    intro wk dl w hw hwk hdl
    subst hwk hdl
    constructor
    · intro name w1 hf
      rw [pendLens_append]
      by_cases hn : name = r.e.name
      · subst hn
        rw [alFind?_alSet_self] at hf
        injection hf with hf
        rw [← hf, hweek _ w hw, if_pos rfl]
      · rw [alFind?_alSet_ne _ _ _ _ hn] at hf
        rw [hweek name w1 hf, if_neg (fun hh => hn hh.symm)]
        omega
    · intro name
      rw [pendDays_append]
      by_cases hn : name = r.e.name
      · subst hn
        rw [alFind?_alSet_self, if_pos rfl]
        simp only [Option.getD_some]
        exact (hdaily _).append_right [r.day]
      · rw [alFind?_alSet_ne _ _ _ _ hn, if_neg (fun hh => hn hh.symm), List.append_nil]
        exact hdaily name
  obtain ⟨w, hw, hcase⟩ := update_ok_inv r.e r.role r.day r.start r.len st st1 hupd
  rcases hcase with ⟨hemp, hst1⟩ | ⟨dm, hf, hst1⟩
  · refine ⟨?_, ?_, ?_, hRN1⟩
    · intro d h rl x
      rw [hst1]
      rw [pendCount_append]
      have hnc : coversB r x d h rl = false := by
        rw [Bool.eq_false_iff]
        intro hcc
        obtain ⟨h1, h2, h3, h4, h5⟩ := (hcov x d h rl).mp hcc
        have : h ∈ intRange r.start (r.start + r.len) := (mem_intRange _ _ _).mpr ⟨h4, h5⟩
        rw [hemp] at this
        cases this
      rw [hnc]
      simp only [Bool.false_eq_true, if_false]
      exact hcell d h rl x
    · intro name w1 hf
      exact ((hwd st1.weekly st1.daily w hw (by rw [hst1]) (by rw [hst1])).1) name w1 hf
    · intro name
      exact ((hwd st1.weekly st1.daily w hw (by rw [hst1]) (by rw [hst1])).2) name
  · refine ⟨?_, ?_, ?_, hRN1⟩
    · intro d h rl x
      rw [hst1]
      show (cellGet (alSet st.sched r.day
        (updHmap r.e r.role (intRange r.start (r.start + r.len)) dm)) d h rl).count x = _
      rw [pendCount_append]
      by_cases hd : d = r.day
      · subst hd
        rw [cellGet_alSet_self, count_rmGet_updHmap r.e r.role _ dm h rl x (intRange_nodup _ _)]
        rw [← cellGet_of_find st.sched r.day dm h rl hf, hcell r.day h rl x]
        by_cases hcc : coversB r x r.day h rl = true
        · obtain ⟨h1, h2, h3, h4, h5⟩ := (hcov x r.day h rl).mp hcc
          rw [hcc, if_pos ⟨h1, h3, (mem_intRange _ _ _).mpr ⟨h4, h5⟩⟩]
          simp
        · rw [Bool.not_eq_true] at hcc
          rw [hcc]
          have hni : ¬ (x = r.e ∧ rl = r.role ∧ h ∈ intRange r.start (r.start + r.len)) := by
            intro hh
            obtain ⟨h1, h3, hmem⟩ := hh
            obtain ⟨h4, h5⟩ := (mem_intRange _ _ _).mp hmem
            rw [(hcov x r.day h rl).mpr ⟨h1, rfl, h3, h4, h5⟩] at hcc
            cases hcc
          rw [if_neg hni]
          simp
      · rw [cellGet_alSet_ne _ _ _ _ _ _ hd]
        have hnc : coversB r x d h rl = false := by
          rw [Bool.eq_false_iff]
          intro hcc
          exact hd ((hcov x d h rl).mp hcc).2.1
        rw [hnc]
        simp only [Bool.false_eq_true, if_false]
        exact hcell d h rl x
    · intro name w1 hf
      exact ((hwd st1.weekly st1.daily w hw (by rw [hst1]) (by rw [hst1])).1) name w1 hf
    · intro name
      exact ((hwd st1.weekly st1.daily w hw (by rw [hst1]) (by rw [hst1])).2) name

theorem remCell_newcell (e : Employee) (role : String) (hm : RoleMap) (cell : RoleCell)
    (hnodup : (alKeys hm).Nodup) (rl : String) :
    (alFind? (if (removeFirst cell e).isEmpty then alErase hm role
      else alSet hm role (removeFirst cell e)) rl).getD [] =
    (if rl = role then removeFirst cell e else (alFind? hm rl).getD []) := by
  by_cases hrr : rl = role
  · subst hrr
    rw [if_pos rfl]
    by_cases hempt : (removeFirst cell e).isEmpty = true
    · rw [if_pos hempt, alFind?_alErase_self hm rl hnodup]
      rw [List.isEmpty_iff.mp hempt]
      rfl
    · rw [if_neg hempt, alFind?_alSet_self]
      rfl
  · rw [if_neg hrr]
    by_cases hempt : (removeFirst cell e).isEmpty = true
    · rw [if_pos hempt, alFind?_alErase_ne _ _ _ hrr]
    · rw [if_neg hempt, alFind?_alSet_ne _ _ _ _ hrr]

theorem remCell_count (e : Employee) (role day : String) (h0 : Int) (st : SchedState)
    (hRN : RoleNodup st.sched)
    (hpos : 1 ≤ (cellGet st.sched day h0 role).count e) :
    ∃ st1, remCell e role day h0 st = .ok () st1 ∧
      st1.weekly = st.weekly ∧ st1.daily = st.daily ∧ RoleNodup st1.sched ∧
      (∀ (d : String) (h : Int) (rl : String) (x : Employee),
        (cellGet st1.sched d h rl).count x =
          (cellGet st.sched d h rl).count x -
            (if x = e ∧ d = day ∧ rl = role ∧ h = h0 then 1 else 0)) := by
  cases hf : alFind? st.sched day with
  | none => simp [cellGet, hf, alFind?] at hpos
  | some dm =>
    cases hh : alFind? dm h0 with
    | none => simp [cellGet, hf, hh, alFind?] at hpos
    | some hm =>
      cases hr : alFind? hm role with
      | none => simp [cellGet, hf, hh, hr] at hpos
      | some cell =>
        have hcg : cellGet st.sched day h0 role = cell := by simp [cellGet, hf, hh, hr]
        rw [hcg] at hpos
        have hmem : e ∈ cell := List.count_pos_iff.mp (by omega)
        have hnodup : (alKeys hm).Nodup := hRN day dm hf h0 hm hh
        refine ⟨{ st with sched := alSet st.sched day (alSet dm h0
          (if (removeFirst cell e).isEmpty then alErase hm role
            else alSet hm role (removeFirst cell e))) }, ?_, rfl, rfl, ?_, ?_⟩
        · simp only [remCell, hf, hh, hr, if_pos hmem]
        · intro d dm1 hfind
          by_cases hd : d = day
          · subst hd
            rw [alFind?_alSet_self] at hfind
            injection hfind with hfind
            rw [← hfind]
            intro h hm1 hfind2
            by_cases hhh : h = h0
            · subst hhh
              rw [alFind?_alSet_self] at hfind2
              injection hfind2 with hfind2
              rw [← hfind2]
              by_cases hempt : (removeFirst cell e).isEmpty = true
              · rw [if_pos hempt]
                exact nodupKeys_alErase hm role hnodup
              · rw [if_neg hempt]
                exact nodupKeys_alSet hm role _ hnodup
            · rw [alFind?_alSet_ne _ _ _ _ hhh] at hfind2
              exact hRN d dm hf h hm1 hfind2
          · rw [alFind?_alSet_ne _ _ _ _ hd] at hfind
            exact hRN d dm1 hfind
        · intro d h rl x
          rw [show ({ st with sched := alSet st.sched day (alSet dm h0
            (if (removeFirst cell e).isEmpty then alErase hm role
              else alSet hm role (removeFirst cell e))) } : SchedState).sched =
              alSet st.sched day (alSet dm h0
                (if (removeFirst cell e).isEmpty then alErase hm role
                  else alSet hm role (removeFirst cell e))) from rfl]
          by_cases hd : d = day
          · rw [hd, cellGet_alSet_self, cellGet_of_find st.sched day dm h rl hf]
            by_cases hhh : h = h0
            · rw [hhh]
              rw [show rmGet (alSet dm h0
                  (if (removeFirst cell e).isEmpty then alErase hm role
                    else alSet hm role (removeFirst cell e))) h0 rl =
                (alFind? (if (removeFirst cell e).isEmpty then alErase hm role
                  else alSet hm role (removeFirst cell e)) rl).getD [] from by
                simp [rmGet, alFind?_alSet_self]]
              rw [remCell_newcell e role hm cell hnodup rl]
              rw [show rmGet dm h0 rl = (alFind? hm rl).getD [] from by simp [rmGet, hh]]
              by_cases hrr : rl = role
              · rw [hrr, if_pos rfl, hr]
                simp only [Option.getD_some]
                by_cases hx : x = e
                · rw [hx, count_removeFirst_self cell e hmem]
                  simp
                · rw [count_removeFirst_ne cell e x hx, if_neg (fun hc => hx hc.1)]
                  omega
              · rw [if_neg hrr, if_neg (fun hc => hrr hc.2.2.1)]
                omega
            · rw [show rmGet (alSet dm h0
                  (if (removeFirst cell e).isEmpty then alErase hm role
                    else alSet hm role (removeFirst cell e))) h rl = rmGet dm h rl from by
                simp [rmGet, alFind?_alSet_ne _ _ _ _ hhh]]
              rw [if_neg (fun hc => hhh hc.2.2.2)]
              omega
          · rw [cellGet_alSet_ne _ _ _ _ _ _ hd, if_neg (fun hc => hd hc.2.1)]
            omega

theorem coversB_iff (r : PendRec) (x : Employee) (d : String) (h : Int) (rl : String) :
    coversB r x d h rl = true ↔
      (x = r.e ∧ d = r.day ∧ rl = r.role ∧ r.start ≤ h ∧ h < r.start + r.len) := by
  simp only [coversB, Bool.and_eq_true, decide_eq_true_eq]
  constructor
  · rintro ⟨⟨⟨⟨h1, h2⟩, h3⟩, h4⟩, h5⟩
    exact ⟨h1.symm, h2.symm, h3.symm, h4, h5⟩
  · rintro ⟨h1, h2, h3, h4, h5⟩
    exact ⟨⟨⟨⟨h1.symm, h2.symm⟩, h3.symm⟩, h4⟩, h5⟩

theorem remLoop_count (e : Employee) (role day : String) :
    ∀ (hs : List Int) (st : SchedState), hs.Nodup → RoleNodup st.sched →
      (∀ h ∈ hs, 1 ≤ (cellGet st.sched day h role).count e) →
      ∃ st1, remLoop e role day hs st = .ok () st1 ∧
        st1.weekly = st.weekly ∧ st1.daily = st.daily ∧ RoleNodup st1.sched ∧
        (∀ (d : String) (h : Int) (rl : String) (x : Employee),
          (cellGet st1.sched d h rl).count x =
            (cellGet st.sched d h rl).count x -
              (if x = e ∧ d = day ∧ rl = role ∧ h ∈ hs then 1 else 0)) := by
  intro hs
  induction hs with
  | nil =>
    intro st hnd hRN hpos
    refine ⟨st, rfl, rfl, rfl, hRN, ?_⟩
    intro d h rl x
    simp
  | cons h0 rest ih =>
    intro st hnd hRN hpos
    rw [List.nodup_cons] at hnd
    obtain ⟨st1, hrc, hwk1, hdl1, hRN1, hcnt1⟩ :=
      remCell_count e role day h0 st hRN (hpos h0 (List.mem_cons_self _ _))
    have hpos1 : ∀ h ∈ rest, 1 ≤ (cellGet st1.sched day h role).count e := by
      intro h hmem
      rw [hcnt1 day h role e]
      have hne : ¬ (e = e ∧ day = day ∧ role = role ∧ h = h0) := by
        intro hc
        exact hnd.1 (hc.2.2.2 ▸ hmem)
      rw [if_neg hne]
      have := hpos h (List.mem_cons_of_mem _ hmem)
      omega
    obtain ⟨st2, hrl, hwk2, hdl2, hRN2, hcnt2⟩ := ih st1 hnd.2 hRN1 hpos1
    refine ⟨st2, ?_, hwk2.trans hwk1, hdl2.trans hdl1, hRN2, ?_⟩
    · simp only [remLoop, hrc, hrl]
    · intro d h rl x
      rw [hcnt2 d h rl x, hcnt1 d h rl x]
      simp only [List.mem_cons]
      by_cases hx : x = e
      · by_cases hdd : d = day
        · by_cases hrr : rl = role
          · by_cases hhh : h = h0
            · have hnr : h0 ∉ rest := hnd.1
              simp [hx, hdd, hrr, hhh, hnr] <;> omega
            · by_cases hmr : h ∈ rest
              · have hge := hpos1 h hmr
                rw [hcnt1 day h role e, if_neg (fun hc => hhh hc.2.2.2)] at hge
                simp [hx, hdd, hrr, hhh, hmr] <;> omega
              · simp [hx, hdd, hrr, hhh, hmr] <;> omega
          · simp [hrr] <;> omega
        · simp [hdd] <;> omega
      · simp [hx] <;> omega

theorem remove_consistent (r : PendRec) (st : SchedState) (pending : List PendRec)
    (hC : Consistent st (pending ++ [r]))
    (hw : alContains st.weekly r.e.name = true) :
    ∃ st2, remove_assignment r.e r.role r.day r.start r.len st = .ok () st2 ∧
      Consistent st2 pending := by
  obtain ⟨hcell, hweek, hdaily, hRN⟩ := hC
  have hpos : ∀ h ∈ intRange r.start (r.start + r.len),
      1 ≤ (cellGet st.sched r.day h r.role).count r.e := by
    intro h hmem
    obtain ⟨h4, h5⟩ := (mem_intRange _ _ _).mp hmem
    rw [hcell r.day h r.role r.e, pendCount_append,
      (coversB_iff r r.e r.day h r.role).mpr ⟨rfl, rfl, rfl, h4, h5⟩]
    simp
  obtain ⟨st1, hloop, hwk1, hdl1, hRN1, hcnt1⟩ :=
    remLoop_count r.e r.role r.day (intRange r.start (r.start + r.len)) st
      (intRange_nodup _ _) hRN hpos
  obtain ⟨w, hwfind⟩ := Option.isSome_iff_exists.mp hw
  have hdperm := hdaily r.e.name
  rw [pendDays_append, if_pos rfl] at hdperm
  have hdmem : r.day ∈ (alFind? st.daily r.e.name).getD [] :=
    hdperm.mem_iff.mpr (by simp)
  cases hdfind : alFind? st.daily r.e.name with
  | none =>
    rw [hdfind] at hdmem
    cases hdmem
  | some ds =>
    rw [hdfind] at hdmem hdperm
    simp only [Option.getD_some] at hdmem hdperm
    refine ⟨{ sched := st1.sched, weekly := alSet st.weekly r.e.name (w - r.len), daily := alSet st.daily r.e.name (removeFirst ds r.day) }, ?_, ?_, ?_, ?_, hRN1⟩
    · simp only [remove_assignment, hloop, hwk1, hwfind, hdl1, hdfind, hdmem, if_true]
    · intro d h rl x
      rw [show ({ sched := st1.sched, weekly := alSet st.weekly r.e.name (w - r.len), daily := alSet st.daily r.e.name (removeFirst ds r.day) } : SchedState).sched = st1.sched from rfl]
      rw [hcnt1 d h rl x, hcell d h rl x, pendCount_append]
      by_cases hcc : coversB r x d h rl = true
      · obtain ⟨h1, h2, h3, h4, h5⟩ := (coversB_iff r x d h rl).mp hcc
        subst h1
        subst h2
        subst h3
        have hmm : h ∈ intRange r.start (r.start + r.len) :=
          (mem_intRange _ _ _).mpr ⟨h4, h5⟩
        simp [hcc, hmm] <;> omega
      · rw [Bool.not_eq_true] at hcc
        have hni : ¬ (x = r.e ∧ d = r.day ∧ rl = r.role ∧
            h ∈ intRange r.start (r.start + r.len)) := by
          intro hh
          obtain ⟨h1, h2, h3, hmm⟩ := hh
          obtain ⟨h4, h5⟩ := (mem_intRange _ _ _).mp hmm
          rw [(coversB_iff r x d h rl).mpr ⟨h1, h2, h3, h4, h5⟩] at hcc
          cases hcc
        simp [hcc, hni] <;> omega
    · intro name w1 hf
      rw [show ({ sched := st1.sched, weekly := alSet st.weekly r.e.name (w - r.len), daily := alSet st.daily r.e.name (removeFirst ds r.day) } : SchedState).weekly = alSet st.weekly r.e.name (w - r.len) from rfl] at hf
      have hlen := hweek r.e.name w hwfind
      rw [pendLens_append, if_pos rfl] at hlen
      by_cases hn : name = r.e.name
      · subst hn
        rw [alFind?_alSet_self] at hf
        injection hf with hf
        omega
      · rw [alFind?_alSet_ne _ _ _ _ hn] at hf
        have := hweek name w1 hf
        rw [pendLens_append, if_neg (fun hh => hn hh.symm)] at this
        omega
    · intro name
      rw [show ({ sched := st1.sched, weekly := alSet st.weekly r.e.name (w - r.len), daily := alSet st.daily r.e.name (removeFirst ds r.day) } : SchedState).daily = alSet st.daily r.e.name (removeFirst ds r.day) from rfl]
      by_cases hn : name = r.e.name
      · subst hn
        rw [alFind?_alSet_self]
        simp only [Option.getD_some]
        exact removeFirst_perm ds (pendDays pending r.e.name) r.day hdperm
      · rw [alFind?_alSet_ne _ _ _ _ hn]
        have := hdaily name
        rw [pendDays_append, if_neg (fun hh => hn hh.symm), List.append_nil] at this
        exact this

theorem init_consistent (employees : List Employee) (reqs : EmployerRequirements) :
    Consistent (initState employees reqs) [] := by
  refine ⟨?_, ?_, ?_, roleNodup_initSchedule _ _⟩
  · intro d h rl x
    rw [show (initState employees reqs).sched =
      initSchedule sevenDays (intRange reqs.work_hours.1 reqs.work_hours.2) from rfl]
    rw [cellGet_initSchedule]
    rfl
  · intro name w hf
    rw [initWeekly_zero employees name w hf]
    rfl
  · intro name
    simp [pendDays, alFind?]

theorem consistent_daily_iff (st : SchedState) (pending : List PendRec) (x : Employee)
    (hC : Consistent st pending) (hlen : ∀ r ∈ pending, 0 < r.len)
    (hinj : ∀ r ∈ pending, r.e.name = x.name → r.e = x) :
    ∀ day, day ∈ (alFind? st.daily x.name).getD [] ↔
      ∃ (h : Int) (rl : String), x ∈ cellGet st.sched day h rl := by
  obtain ⟨hcell, hweek, hdaily, hRN⟩ := hC
  intro day
  constructor
  · intro hd
    have hpd : day ∈ pendDays pending x.name := (hdaily x.name).mem_iff.mp hd
    simp only [pendDays, List.mem_map, List.mem_filter, decide_eq_true_eq] at hpd
    obtain ⟨rec, ⟨hrecmem, hrecname⟩, hrecday⟩ := hpd
    have hrecx : rec.e = x := hinj rec hrecmem hrecname
    refine ⟨rec.start, rec.role, ?_⟩
    rw [← List.count_pos_iff, hcell day rec.start rec.role x]
    have hcov : coversB rec x day rec.start rec.role = true :=
      (coversB_iff rec x day rec.start rec.role).mpr
        ⟨hrecx.symm, hrecday.symm, rfl, le_refl _,
          by have hl := hlen rec hrecmem; omega⟩
    rw [pendCount, List.countP_pos]
    exact ⟨rec, hrecmem, hcov⟩
  · rintro ⟨h, rl, hmem⟩
    have hp : 0 < (cellGet st.sched day h rl).count x := List.count_pos_iff.mpr hmem
    rw [hcell day h rl x, pendCount, List.countP_pos] at hp
    obtain ⟨rec, hrecmem, hrec⟩ := hp
    obtain ⟨h1, h2, h3, h4, h5⟩ := (coversB_iff rec x day h rl).mp hrec
    refine (hdaily x.name).mem_iff.mpr ?_
    simp only [pendDays, List.mem_map, List.mem_filter, decide_eq_true_eq]
    exact ⟨rec, ⟨hrecmem, by rw [← h1]⟩, h2.symm⟩

/-- Claim C4 amended: starting from schedule_shifts' initial state the
aggregates are consistent with the empty list of outstanding assignments,
every normally returning update_schedule call with a nonnegative length
extends the outstanding list while preserving consistency, and a
remove_assignment call that exactly reverts an outstanding update (the
backtracking discipline; the weekly key must exist) returns normally and
restores consistency for the remaining outstanding list -- consistency
meaning: each cell's multiplicity of each employee equals the number of
covering outstanding assignments, weekly_assigned_hours[name] equals the
summed outstanding lengths for name (the claim's sum of recorded shift
lengths), and daily_shifts[name] is a permutation of the outstanding days;
finally, with all outstanding lengths positive and names unambiguous,
daily_shifts[e], read as a set, is exactly the set of days on which e
appears in some cell.  Mismatched removes break the claim (see the
counterexample: weekly can even go negative). -/
theorem C4_aggregate_consistency :
    (∀ (employees : List Employee) (reqs : EmployerRequirements),
      Consistent (initState employees reqs) []) ∧
    (∀ (r : PendRec) (st st1 : SchedState) (pending : List PendRec),
      Consistent st pending → 0 ≤ r.len →
      update_schedule r.e r.role r.day r.start r.len st = .ok () st1 →
      Consistent st1 (pending ++ [r])) ∧
    (∀ (r : PendRec) (st : SchedState) (pending : List PendRec),
      Consistent st (pending ++ [r]) → alContains st.weekly r.e.name = true →
      ∃ st2, remove_assignment r.e r.role r.day r.start r.len st = .ok () st2 ∧
        Consistent st2 pending) ∧
    (∀ (st : SchedState) (pending : List PendRec) (x : Employee),
      Consistent st pending → (∀ r ∈ pending, 0 < r.len) →
      (∀ r ∈ pending, r.e.name = x.name → r.e = x) →
      ∀ day, day ∈ (alFind? st.daily x.name).getD [] ↔
        ∃ (h : Int) (rl : String), x ∈ cellGet st.sched day h rl) :=
  ⟨init_consistent, update_consistent, remove_consistent, consistent_daily_iff⟩

/-- Fixture: two open hours, so that a mismatched remove's hour loop stays
within present keys and the call returns normally. -/
def reqsB : EmployerRequirements :=
  { work_hours := (9, 11), shift_lengths := (1, 2),
    critical_minimums := [("Cashier", 1)] }

/-- The state after assigning empA one Cashier hour on Monday at 9. -/
def c4st1 : SchedState :=
  match update_schedule empA "Cashier" "Monday" 9 1 (initState [empA] reqsB) with
  | .ok _ s => s
  | .exn s => s
  | .timeout => initState [empA] reqsB

/-- The state after the mismatched remove (length 2 instead of 1). -/
def c4st2 : SchedState :=
  match remove_assignment empA "Cashier" "Monday" 9 2 c4st1 with
  | .ok _ s => s
  | .exn s => s
  | .timeout => c4st1

/-- Claim C4 is false as stated for arbitrary sequences of operations: after
a normally returning update of length 1 and a normally returning remove with
identical arguments except length 2, weekly_assigned_hours of the employee is
-1 although the employee appears in no cell of the schedule (the claimed sum
is 0). -/
theorem C4_counterexample :
    update_schedule empA "Cashier" "Monday" 9 1 (initState [empA] reqsB) = .ok () c4st1 ∧
    remove_assignment empA "Cashier" "Monday" 9 2 c4st1 = .ok () c4st2 ∧
    alFind? c4st2.weekly "A" = some (-1) ∧
    ∀ p ∈ c4st2.sched, ∀ q ∈ p.2, ∀ t ∈ q.2, empA ∉ t.2 := by
  refine ⟨by rfl, by rfl, by rfl, by decide⟩

/-- Witness for C4 at a concrete input: the update clause applied to the
initial state of the counterexample fixture. -/
theorem C4_witness :
    Consistent c4st1 [{ e := empA, role := "Cashier", day := "Monday", start := 9, len := 1 }] :=
  C4_aggregate_consistency.2.1
    { e := empA, role := "Cashier", day := "Monday", start := 9, len := 1 }
    (initState [empA] reqsB) c4st1 []
    (C4_aggregate_consistency.1 [empA] reqsB) (by decide) (by rfl)
